import Mathlib

/-!
# A JSON document model (src/json) as a shallow embedding

The value tree, the recursive-descent parser of `json::Document::parse` and the four
visitors (Printer, Filter, Exporter, Duplicator) of `src/json/json.cpp`, written as
executable Lean functions, followed by theorems about them.  The class `Rational` of
`src/data` follows in its own namespace, with its own conventions.

Modelling conventions.

* A `std::string` is a list of characters; an input stream is the list of characters
  still unread.  `peek` at the end of the stream yields no character (`Traits::eof()`),
  `get` at the end yields `(char)-1` and leaves the stream at its end, `ignore` at the
  end does nothing.  The streams of the program (`std::cin` in `main.cpp`) carry the
  default exception mask, so reaching the end sets state bits and throws nothing.
* Strings and containers are unbounded: allocation never fails.  Together with the
  previous point, no statement of the `try` block of `Document::parse` throws
  (`dynamic_cast` on a pointer yields `nullptr`, it does not throw), so the `catch (...)`
  handler is never entered in this model and is not part of any function below.
* A `std::map<std::string, Value*>` is an association list sorted by key (the order of
  `std::less<std::string>`), without repeated keys.  The program reaches a map through
  `operator[]` only: `mapSet` is `m[key] = val`, `mapGet` is the read `m[key]`, which in
  C++ default-inserts a null pointer for a key that is absent.
* Every loop that the C++ code does not bound is run on fuel.  A `Result` is `ok` for a
  normal return, `undefined` when the code dereferences a null pointer or deletes what is
  not allocated, and `timeout` when the fuel ran out.
* A tree is a value, and the visitors are functions of it.  Which nodes two documents
  share and what a destructor frees is a matter of addresses: the section on the free
  store runs the Duplicator, the destructor and the copy constructor on nodes that lie in
  cells.  A member that no initialiser has set holds an arbitrary value, which the
  function that reads it takes as an argument.
-/

namespace json

/-- A `std::string`. -/
abbrev string := List Char

/-- The unread characters of a `std::istream`. -/
abbrev istream := List Char

/-- The value types of json.hpp; `Object::values` is the `std::map`, `insertOrder` the vector. -/
inductive Value where
  | String (value : string)
  | Object (values : List (string × Value)) (insertOrder : List string)
  | Array (values : List Value)
  | True
  | False
  | Null
  | Number (value : string)

instance : Inhabited Value := ⟨Value.Null⟩

/-- Outcome of running a function of the program. -/
inductive Result (α : Type) where
  | ok (a : α)
  | undefined
  | timeout

/-- The class `Document`: `head` is the owned root, `none` for the null pointer. -/
structure Document where
  head : Option Value

/-! ## std::string order and std::map -/

/-- The order `std::less<std::string>`: lexicographic on character codes. -/
def strLt : string → string → Bool
  | [], [] => false
  | [], _ :: _ => true
  | _ :: _, [] => false
  | a :: as, b :: bs =>
    if a.toNat < b.toNat then true
    else if a = b then strLt as bs
    else false

/-- The assignment `m[key] = val` on a map kept sorted by key. -/
def mapSet {α : Type} : List (string × α) → string → α → List (string × α)
  | [], key, val => [(key, val)]
  | (k, v) :: rest, key, val =>
    if strLt key k then (key, val) :: (k, v) :: rest
    else if key = k then (key, val) :: rest
    else (k, v) :: mapSet rest key val

/-- The stored value of `key`, `none` when the map has no such key. -/
def mapGet {α : Type} : List (string × α) → string → Option α
  | [], _ => none
  | (k, v) :: rest, key => if key = k then some v else mapGet rest key

/-! ## std::istream -/

/-- The call `is.peek()`: the next character, `none` at the end of the stream. -/
def peek (is : istream) : Option Char := is.head?

/-- The call `is.ignore(n)`: up to `n` characters are dropped. -/
def ignore (is : istream) (n : Nat) : istream := is.drop n

/-- The call `is.get()` as assigned to a `char`, with the stream left behind. -/
def get (is : istream) : Char × istream :=
  match is with
  | [] => (Char.ofNat 255, [])
  | c :: rest => (c, rest)

/-! ## Document::parse -/

/-- Document::clrWS: `while(is.peek() == ' ') is.ignore();`. -/
def Document.clrWS : istream → istream
  | [] => []
  | c :: rest => if c = ' ' then Document.clrWS rest else c :: rest

/-- The loop of the String case (json.cpp lines 36-40), on the string built so far. -/
def Document.parseStringLoop : Nat → string → istream → Result (string × istream)
  | 0, _, _ => .timeout
  | fuel + 1, value, is =>
    if peek is ≠ some '"' then
      if peek is = some '\\' then
        Document.parseStringLoop fuel (value ++ [(get is).1] ++ [(get (get is).2).1])
          (get (get is).2).2
      else
        Document.parseStringLoop fuel (value ++ [(get is).1]) (get is).2
    else .ok (value, is)

/-- The loop of the Number case (json.cpp lines 124-125). -/
def Document.parseNumberLoop : Nat → string → istream → Result (string × istream)
  | 0, _, _ => .timeout
  | fuel + 1, value, is =>
    if ¬ (peek is = some ' ' ∨ peek is = some ',' ∨ peek is = some '}' ∨ peek is = some ']') then
      Document.parseNumberLoop fuel (value ++ [(get is).1]) (get is).2
    else .ok (value, is)

/-- The stream after an entry: `clrWS(is); if(is.peek() == ',') { is.ignore(); clrWS(is); }`. -/
def Document.skipComma (is : istream) : istream :=
  if peek (Document.clrWS is) = some ','
  then Document.clrWS (ignore (Document.clrWS is) 1)
  else Document.clrWS is

/-- The store of a parsed pair (json.cpp lines 65-71): the first position of `key` in
`insertOrder`, if there is one, is erased, `key` is pushed back, and `values[key] = val`. -/
def Document.insertEntry (values : List (string × Value)) (insertOrder : List string)
    (key : string) (val : Value) : List (string × Value) × List string :=
  (mapSet values key val, insertOrder.erase key ++ [key])

/-- The loop of the Object case (json.cpp lines 51-79) around the recursive call `parse`.
A key that is not a String leaves `str` null, and `str->value` dereferences it. -/
def Document.parseObjectLoop (parse : istream → Result (Value × istream)) :
    Nat → List (string × Value) → List string → istream → Result (Value × istream)
  | 0, _, _, _ => .timeout
  | fuel + 1, values, insertOrder, is =>
    if peek is ≠ some '}' then
      match parse is with
      | .ok (.String key, is) =>
        match parse (Document.clrWS (ignore (Document.clrWS is) 1)) with
        | .ok (val, is) =>
          Document.parseObjectLoop parse fuel (Document.insertEntry values insertOrder key val).1
            (Document.insertEntry values insertOrder key val).2 (Document.skipComma is)
        | .undefined => .undefined
        | .timeout => .timeout
      | .ok _ => .undefined
      | .undefined => .undefined
      | .timeout => .timeout
    else .ok (.Object values insertOrder, ignore is 1)

/-- The loop of the Array case (json.cpp lines 91-101) around the recursive call `parse`. -/
def Document.parseArrayLoop (parse : istream → Result (Value × istream)) :
    Nat → List Value → istream → Result (Value × istream)
  | 0, _, _ => .timeout
  | fuel + 1, values, is =>
    if peek is ≠ some ']' then
      match parse is with
      | .ok (val, is) =>
        Document.parseArrayLoop parse fuel (values ++ [val]) (Document.skipComma is)
      | .undefined => .undefined
      | .timeout => .timeout
    else .ok (.Array values, ignore is 1)

/-- The default case of the switch: a Number of raw text. -/
def Document.parseNumber (fuel : Nat) (is : istream) : Result (Value × istream) :=
  match Document.parseNumberLoop fuel [] is with
  | .ok (value, is) => .ok (.Number value, is)
  | .undefined => .undefined
  | .timeout => .timeout

/-- Document::parse(std::istream&): the value read and the stream left behind. -/
def Document.parse : Nat → istream → Result (Value × istream)
  | 0, _ => .timeout
  | fuel + 1, is =>
    match peek (Document.clrWS is) with
    | some c =>
      if c = '"' then
        match Document.parseStringLoop fuel [] (ignore (Document.clrWS is) 1) with
        | .ok (value, is) => .ok (.String value, ignore is 1)
        | .undefined => .undefined
        | .timeout => .timeout
      else if c = '{' then
        Document.parseObjectLoop (Document.parse fuel) fuel [] []
          (Document.clrWS (ignore (Document.clrWS is) 1))
      else if c = '[' then
        Document.parseArrayLoop (Document.parse fuel) fuel []
          (Document.clrWS (ignore (Document.clrWS is) 1))
      else if c = 't' then .ok (.True, ignore (Document.clrWS is) 4)
      else if c = 'f' then .ok (.False, ignore (Document.clrWS is) 5)
      else if c = 'n' then .ok (.Null, ignore (Document.clrWS is) 4)
      else Document.parseNumber fuel (Document.clrWS is)
    | none => Document.parseNumber fuel (Document.clrWS is)

/-- The constructor `Document(std::istream& is) : head(parse(is))`, which `json::parse` returns. -/
def parse (fuel : Nat) (is : istream) : Result (Document × istream) :=
  match Document.parse fuel is with
  | .ok (v, is) => .ok (⟨some v⟩, is)
  | .undefined => .undefined
  | .timeout => .timeout

/-! ## Exporter -/

/-- The loop of Exporter::visit(Object*) over `insertOrder`; `sub` holds, for each key of
`values`, what visiting its value appends.  A key that `values` lacks is default-inserted
by `operator[]` with a null pointer, through which `accept` is then called. -/
def Document.Exporter.objectLoop (sub : List (string × Result string)) :
    List string → Result string
  | [] => .ok []
  | key :: rest =>
    match mapGet sub key with
    | some (.ok text) =>
      match Document.Exporter.objectLoop sub rest with
      | .ok more =>
        .ok (['"'] ++ key ++ ['"', ':', ' '] ++ text
          ++ (if rest.isEmpty then [] else [',', ' ']) ++ more)
      | .undefined => .undefined
      | .timeout => .timeout
    | some .undefined => .undefined
    | some .timeout => .timeout
    | none => .undefined

mutual
/-- Exporter::visit: the text appended to `output` by a visit of the value. -/
def Document.Exporter.visit : Value → Result string
  | .String value => .ok (['"'] ++ value ++ ['"'])
  | .Object values insertOrder =>
    match Document.Exporter.objectLoop (Document.Exporter.visitValues values) insertOrder with
    | .ok text => .ok (['{'] ++ text ++ ['}'])
    | .undefined => .undefined
    | .timeout => .timeout
  | .Array values =>
    match Document.Exporter.visitArray values with
    | .ok text => .ok (['['] ++ text ++ [']'])
    | .undefined => .undefined
    | .timeout => .timeout
  | .True => .ok ['t', 'r', 'u', 'e']
  | .False => .ok ['f', 'a', 'l', 's', 'e']
  | .Null => .ok ['n', 'u', 'l', 'l']
  | .Number value => .ok value
/-- What the visit of each stored value of the map appends. -/
def Document.Exporter.visitValues : List (string × Value) → List (string × Result string)
  | [] => []
  | (key, val) :: rest =>
    (key, Document.Exporter.visit val) :: Document.Exporter.visitValues rest
/-- The loop of Exporter::visit(Array*). -/
def Document.Exporter.visitArray : List Value → Result string
  | [] => .ok []
  | val :: rest =>
    match Document.Exporter.visit val with
    | .ok text =>
      match Document.Exporter.visitArray rest with
      | .ok more => .ok (text ++ (if rest.isEmpty then [] else [',', ' ']) ++ more)
      | .undefined => .undefined
      | .timeout => .timeout
    | .undefined => .undefined
    | .timeout => .timeout
end

/-- Document::output. -/
def Document.output (d : Document) : Result string :=
  match d.head with
  | none => .ok []
  | some head => Document.Exporter.visit head

/-! ## Printer -/

/-- Printer::printTabs: two spaces for each level of `tab`. -/
def Document.Printer.printTabs : Nat → string
  | 0 => []
  | tab + 1 => ' ' :: ' ' :: Document.Printer.printTabs tab

/-- The loop of Printer::visit(Object*), run after `tab++`, so `tab` is the entries' level. -/
def Document.Printer.objectLoop (tab : Nat) (sub : List (string × Result string)) :
    List string → Result string
  | [] => .ok []
  | key :: rest =>
    match mapGet sub key with
    | some (.ok text) =>
      match Document.Printer.objectLoop tab sub rest with
      | .ok more =>
        .ok (Document.Printer.printTabs tab ++ ['"'] ++ key ++ ['"', ':', ' '] ++ text
          ++ (if rest.isEmpty then [] else [',', '\n']) ++ more)
      | .undefined => .undefined
      | .timeout => .timeout
    | some .undefined => .undefined
    | some .timeout => .timeout
    | none => .undefined

mutual
/-- Printer::visit at indent level `tab`: the text written to `os`. -/
def Document.Printer.visit (tab : Nat) : Value → Result string
  | .String value => .ok (['"'] ++ value ++ ['"'])
  | .Object values insertOrder =>
    match Document.Printer.objectLoop (tab + 1)
        (Document.Printer.visitValues (tab + 1) values) insertOrder with
    | .ok text => .ok (['{', '\n'] ++ text ++ ['\n'] ++ Document.Printer.printTabs tab ++ ['}'])
    | .undefined => .undefined
    | .timeout => .timeout
  | .Array values =>
    match Document.Printer.visitArray (tab + 1) values with
    | .ok text => .ok (['[', '\n'] ++ text ++ ['\n'] ++ Document.Printer.printTabs tab ++ [']'])
    | .undefined => .undefined
    | .timeout => .timeout
  | .True => .ok ['t', 'r', 'u', 'e']
  | .False => .ok ['f', 'a', 'l', 's', 'e']
  | .Null => .ok ['n', 'u', 'l', 'l']
  | .Number value => .ok value
/-- What the visit of each stored value of the map writes at level `tab`. -/
def Document.Printer.visitValues (tab : Nat) :
    List (string × Value) → List (string × Result string)
  | [] => []
  | (key, val) :: rest =>
    (key, Document.Printer.visit tab val) :: Document.Printer.visitValues tab rest
/-- The loop of Printer::visit(Array*), run after `tab++`. -/
def Document.Printer.visitArray (tab : Nat) : List Value → Result string
  | [] => .ok []
  | val :: rest =>
    match Document.Printer.visit tab val with
    | .ok text =>
      match Document.Printer.visitArray tab rest with
      | .ok more =>
        .ok (Document.Printer.printTabs tab ++ text
          ++ (if rest.isEmpty then [] else [',', '\n']) ++ more)
      | .undefined => .undefined
      | .timeout => .timeout
    | .undefined => .undefined
    | .timeout => .timeout
end

/-- Document::print: the text written to the stream. -/
def Document.print (d : Document) : Result string :=
  match d.head with
  | none => .ok ['n', 'u', 'l', 'l']
  | some head => Document.Printer.visit 0 head

/-! ## Duplicator -/

/-- The loop of Duplicator::visit(Object*): `sub` holds the copy made of each stored value. -/
def Document.Duplicator.objectLoop (sub : List (string × Result Value)) :
    List (string × Value) → List string → List string →
    Result (List (string × Value) × List string)
  | newValues, newOrder, [] => .ok (newValues, newOrder)
  | newValues, newOrder, key :: rest =>
    match mapGet sub key with
    | some (.ok copy) =>
      Document.Duplicator.objectLoop sub (mapSet newValues key copy) (newOrder ++ [key]) rest
    | some .undefined => .undefined
    | some .timeout => .timeout
    | none => .undefined

mutual
/-- Duplicator::visit: the value left in `copy`. -/
def Document.Duplicator.visit : Value → Result Value
  | .String value => .ok (.String value)
  | .Object values insertOrder =>
    match Document.Duplicator.objectLoop (Document.Duplicator.visitValues values)
        [] [] insertOrder with
    | .ok (newValues, newOrder) => .ok (.Object newValues newOrder)
    | .undefined => .undefined
    | .timeout => .timeout
  | .Array values =>
    match Document.Duplicator.visitArray values with
    | .ok newValues => .ok (.Array newValues)
    | .undefined => .undefined
    | .timeout => .timeout
  | .True => .ok .True
  | .False => .ok .False
  | .Null => .ok .Null
  | .Number value => .ok (.Number value)
/-- The copy made of each stored value of the map. -/
def Document.Duplicator.visitValues : List (string × Value) → List (string × Result Value)
  | [] => []
  | (key, val) :: rest =>
    (key, Document.Duplicator.visit val) :: Document.Duplicator.visitValues rest
/-- The loop of Duplicator::visit(Array*). -/
def Document.Duplicator.visitArray : List Value → Result (List Value)
  | [] => .ok []
  | val :: rest =>
    match Document.Duplicator.visit val with
    | .ok copy =>
      match Document.Duplicator.visitArray rest with
      | .ok more => .ok (copy :: more)
      | .undefined => .undefined
      | .timeout => .timeout
    | .undefined => .undefined
    | .timeout => .timeout
end

/-- Document::copy. -/
def Document.copy (d : Document) : Result Document :=
  match d.head with
  | none => .ok ⟨none⟩
  | some head =>
    match Document.Duplicator.visit head with
    | .ok copy => .ok ⟨some copy⟩
    | .undefined => .undefined
    | .timeout => .timeout

/-! ## Filter -/

/-- The loop of Filter::visit(Object*): `sub` holds the `result` of the Filter run on each
stored value (it is run for a matching key too, and its result dropped). -/
def Document.Filter.objectLoop (args : List string) (values : List (string × Value))
    (sub : List (string × Result (Option Value))) :
    List (string × Value) → List string → List string →
    Result (List (string × Value) × List string)
  | newValues, newOrder, [] => .ok (newValues, newOrder)
  | newValues, newOrder, s :: rest =>
    match mapGet sub s, mapGet values s with
    | some (.ok result), some val =>
      if s ∈ args then
        Document.Filter.objectLoop args values sub (mapSet newValues s val) (newOrder ++ [s]) rest
      else
        match result with
        | some found =>
          Document.Filter.objectLoop args values sub (mapSet newValues s found)
            (newOrder ++ [s]) rest
        | none => Document.Filter.objectLoop args values sub newValues newOrder rest
    | some .timeout, _ => .timeout
    | _, _ => .undefined

mutual
/-- Filter::visit with the arguments `args`: the pointer left in `result`, `none` for null. -/
def Document.Filter.visit (args : List string) : Value → Result (Option Value)
  | .String _ => .ok none
  | .Object values insertOrder =>
    match Document.Filter.objectLoop args values (Document.Filter.visitValues args values)
        [] [] insertOrder with
    | .ok (newValues, newOrder) =>
      if newOrder.isEmpty then .ok none else .ok (some (.Object newValues newOrder))
    | .undefined => .undefined
    | .timeout => .timeout
  | .Array values =>
    match Document.Filter.visitArray args values with
    | .ok newValues => if newValues.isEmpty then .ok none else .ok (some (.Array newValues))
    | .undefined => .undefined
    | .timeout => .timeout
  | .True => .ok none
  | .False => .ok none
  | .Null => .ok none
  | .Number _ => .ok none
/-- The Filter result of each stored value of the map. -/
def Document.Filter.visitValues (args : List string) :
    List (string × Value) → List (string × Result (Option Value))
  | [] => []
  | (key, val) :: rest =>
    (key, Document.Filter.visit args val) :: Document.Filter.visitValues args rest
/-- The loop of Filter::visit(Array*): the results that are not null, in order. -/
def Document.Filter.visitArray (args : List string) : List Value → Result (List Value)
  | [] => .ok []
  | val :: rest =>
    match Document.Filter.visit args val with
    | .ok result =>
      match Document.Filter.visitArray args rest with
      | .ok more => .ok (result.toList ++ more)
      | .undefined => .undefined
      | .timeout => .timeout
    | .undefined => .undefined
    | .timeout => .timeout
end

/-- Document::filter. -/
def Document.filter (d : Document) (args : List string) : Result Document :=
  match d.head with
  | none => .ok ⟨none⟩
  | some head =>
    match Document.Filter.visit args head with
    | .ok (some result) =>
      match Document.Duplicator.visit result with
      | .ok copy => .ok ⟨some copy⟩
      | .undefined => .undefined
      | .timeout => .timeout
    | .ok none => .ok ⟨none⟩
    | .undefined => .undefined
    | .timeout => .timeout

/-! ## Predicates on trees -/

mutual
/-- The predicate `q` holds at every node of the tree, at every depth. -/
def Value.all (q : Value → Bool) : Value → Bool
  | .String value => q (.String value)
  | .Object values insertOrder => q (.Object values insertOrder) && Value.allValues q values
  | .Array values => q (.Array values) && Value.allArray q values
  | .True => q .True
  | .False => q .False
  | .Null => q .Null
  | .Number value => q (.Number value)
/-- The predicate `q` holds at every node of every stored value of a map. -/
def Value.allValues (q : Value → Bool) : List (string × Value) → Bool
  | [] => true
  | (_, val) :: rest => Value.all q val && Value.allValues q rest
/-- The predicate `q` holds at every node of every element. -/
def Value.allArray (q : Value → Bool) : List Value → Bool
  | [] => true
  | val :: rest => Value.all q val && Value.allArray q rest
end

/-- The keys of a map, in the order the map holds them. -/
def mapKeys {α : Type} (m : List (string × α)) : List string := m.map Prod.fst

/-- Strictly increasing keys: what the key sequence of a `std::map` always is. -/
def keysSorted : List string → Bool
  | [] => true
  | k :: rest => rest.all (fun k2 => strLt k k2) && keysSorted rest

/-- On an Object node: `values` holds its keys in the order of a `std::map`. -/
def Value.sorted : Value → Bool
  | .Object values _ => keysSorted (mapKeys values)
  | _ => true

/-- On an Object node: `insertOrder` has no key twice and its keys are exactly the keys
of `values`. -/
def Value.consistent : Value → Bool
  | .Object values insertOrder =>
    decide insertOrder.Nodup
      && insertOrder.all (fun k => decide (k ∈ mapKeys values))
      && (mapKeys values).all (fun k => decide (k ∈ insertOrder))
  | _ => true

/-- A well-formed tree: at each Object node `values` is a `std::map` and `insertOrder`
holds exactly its keys, each once. -/
def Value.wellFormed (v : Value) : Bool := v.all (fun n => n.sorted && n.consistent)

/-! ## Texts the parser reads back -/

/-- A String body the String case reads back whole: every `\` is followed by one more
character, and a `"` occurs only as such a character. -/
def escaped : string → Bool
  | [] => true
  | c :: rest =>
    if c = '\\' then
      match rest with
      | [] => false
      | _ :: rest2 => escaped rest2
    else if c = '"' then false
    else escaped rest

/-- The characters at which the Number loop stops. -/
def terminator (c : Char) : Bool := c = ' ' || c = ',' || c = '}' || c = ']'

/-- The characters on which the switch of `parse` leaves the default case. -/
def opener (c : Char) : Bool := c = '"' || c = '{' || c = '[' || c = 't' || c = 'f' || c = 'n'

/-- A Number text the default case reads back whole: no terminator in it, and its first
character, if it has one, sends `parse` to the default case. -/
def numberText (s : string) : Bool :=
  s.all (fun c => !terminator c) && (s.head?.all (fun c => !opener c))

/-- On a node: its String body, Number text or Object keys are read back as written. -/
def Value.readable : Value → Bool
  | .String value => escaped value
  | .Number value => numberText value
  | .Object _ insertOrder => insertOrder.all escaped
  | _ => true

/-- On an Array node: the last element is not a Number of empty text. -/
def Value.keepsLast : Value → Bool
  | .Array values =>
    match values.getLast? with
    | some (.Number []) => false
    | _ => true
  | _ => true

/-- The root is a Number. -/
def Value.isNumber : Value → Bool
  | .Number _ => true
  | _ => false

/-- A node as the parser builds it: its map in order, its Object consistent, its texts
readable. -/
def Value.built (v : Value) : Bool := v.sorted && v.consistent && v.readable

/-! ## Entries of an Object, in insertion order -/

/-- The map after `m[key] = val` for each entry in turn. -/
def mapSetAll {α : Type} (m : List (string × α)) (entries : List (string × α)) :
    List (string × α) :=
  entries.foldl (fun acc e => mapSet acc e.1 e.2) m

/-- The pointer a Filter leaves in `result` after visiting `v`. -/
def Document.Filter.found (args : List string) (v : Value) : Option Value :=
  match Document.Filter.visit args v with
  | .ok result => result
  | _ => none

/-- The entries a filtered Object is said to hold, in insertion order: a key in `args`
with its stored value as it is, any other key with the Filter result of its stored value
when there is one. -/
def Document.Filter.entries (args : List string) (values : List (string × Value))
    (insertOrder : List string) : List (string × Value) :=
  insertOrder.filterMap fun k =>
    match mapGet values k with
    | none => none
    | some v =>
      if k ∈ args then some (k, v)
      else (Document.Filter.found args v).map fun r => (k, r)

/-- The elements a filtered Array is said to hold: the Filter results there are, in order. -/
def Document.Filter.survivors (args : List string) (values : List Value) : List Value :=
  values.filterMap (Document.Filter.found args)

/-- The entries of a map under the given keys, in the order of the keys. -/
def entriesOf {α : Type} (values : List (string × α)) (keys : List string) :
    List (string × α) :=
  keys.filterMap fun k => (mapGet values k).map fun v => (k, v)

/-- On an Object node: no key of it is in `args`. -/
def Value.noKeyIn (args : List string) : Value → Bool
  | .Object _ insertOrder => insertOrder.all (fun k => decide (k ∉ args))
  | _ => true

/-! ## The inputs of the examples -/

/-- The text `{"a":1,"b":{"a":2,"c":3}}`. -/
def nestedText : string := "\x7b\"a\":1,\"b\":\x7b\"a\":2,\"c\":3\x7d\x7d".toList

/-- The tree of `{"a":1,"b":{"a":2,"c":3}}`. -/
def nestedTree : Value :=
  .Object
    [("a".toList, .Number "1".toList),
     ("b".toList, .Object [("a".toList, .Number "2".toList), ("c".toList, .Number "3".toList)]
        ["a".toList, "c".toList])]
    ["a".toList, "b".toList]

/-- The tree of `{"a":1,"b":{"a":2}}`. -/
def nestedTreeA : Value :=
  .Object
    [("a".toList, .Number "1".toList),
     ("b".toList, .Object [("a".toList, .Number "2".toList)] ["a".toList])]
    ["a".toList, "b".toList]

/-- The text `{"a":1,"b":2,"a":3}`. -/
def overwriteText : string := "\x7b\"a\":1,\"b\":2,\"a\":3\x7d".toList

/-- The tree of `{"b": 2, "a": 3}`. -/
def overwriteTree : Value :=
  .Object [("a".toList, .Number "3".toList), ("b".toList, .Number "2".toList)]
    ["b".toList, "a".toList]

/-- The tree of `[{"a":1},{"b":2}]`. -/
def arrayTree : Value :=
  .Array [.Object [("a".toList, .Number "1".toList)] ["a".toList],
    .Object [("b".toList, .Number "2".toList)] ["b".toList]]

/-- The characters that follow a value inside a container: `,`, `}` and `]`. -/
def closer (c : Char) : Bool := c = ',' || c = '}' || c = ']'

/-- The stream `rest` may follow the text of `v`: a Number needs `,`, `}` or `]` next. -/
def Value.delimited (v : Value) (rest : istream) : Bool :=
  !v.isNumber || rest.head?.any closer

/-- On fuel `N` or more the exported text of `v`, whatever delimited stream follows it, is
parsed as `v` with that stream left unread. -/
def Value.readsBack (N : Nat) (v : Value) : Prop :=
  ∃ t, Document.Exporter.visit v = .ok t
    ∧ ∀ n, N ≤ n → ∀ rest, v.delimited rest = true →
        Document.parse n (t ++ rest) = .ok (v, rest)

/-! ## The text of an Object and of its printing -/

/-- The exported text of a value; empty when the Exporter does not return. -/
def Value.text (v : Value) : string :=
  match Document.Exporter.visit v with
  | .ok t => t
  | _ => []

/-- The text the Printer writes for a value at level `tab`; empty when it does not return. -/
def Value.printed (tab : Nat) (v : Value) : string :=
  match Document.Printer.visit tab v with
  | .ok t => t
  | _ => []

/-- The entries of an object text, in the order given: each key quoted, a colon, `a`
spaces and the text of the value; between two entries a comma and `b` spaces. -/
def entriesText (a b : Nat) : List (string × Value) → string
  | [] => []
  | (k, v) :: rest =>
    '"' :: k ++ '"' :: ':' :: List.replicate a ' ' ++ v.text
      ++ (if rest.isEmpty then [] else ',' :: List.replicate b ' ') ++ entriesText a b rest

/-- The lines of the given entries at level `tab`, in the order given: the indent, the key
quoted, `: `, the printed value; between two lines a comma and a newline. -/
def printedEntries (tab : Nat) : List (string × Value) → string
  | [] => []
  | (k, v) :: rest =>
    Document.Printer.printTabs tab ++ '"' :: k ++ '"' :: ':' :: ' ' :: v.printed tab
      ++ (if rest.isEmpty then [] else [',', '\n']) ++ printedEntries tab rest

/-- The text `{"a":1,"b":[true,null]}`. -/
def mixedText : string := "\x7b\"a\":1,\"b\":[true,null]\x7d".toList

/-- The tree of `{"a":1,"b":[true,null]}`. -/
def mixedTree : Value :=
  .Object [("a".toList, .Number "1".toList), ("b".toList, .Array [.True, .Null])]
    ["a".toList, "b".toList]

/-! ## Arrays that hold an empty Number only -/

mutual
/-- The tree with every Array that holds nothing but one Number of empty text emptied. -/
def Value.norm : Value → Value
  | .String value => .String value
  | .Object values insertOrder => .Object (Value.normValues values) insertOrder
  | .Array values =>
    .Array (match values with
      | [.Number []] => []
      | _ => Value.normArray values)
  | .True => .True
  | .False => .False
  | .Null => .Null
  | .Number value => .Number value
/-- The stored values of a map, each normed. -/
def Value.normValues : List (string × Value) → List (string × Value)
  | [] => []
  | (k, v) :: rest => (k, Value.norm v) :: Value.normValues rest
/-- The elements, each normed. -/
def Value.normArray : List Value → List Value
  | [] => []
  | v :: rest => Value.norm v :: Value.normArray rest
end

/-- On an Array node of two or more elements: the last one is not a Number of empty text. -/
def Value.keepsLastOfMany : Value → Bool
  | .Array values =>
    decide (values.length < 2) ||
      (match values.getLast? with
        | some (.Number []) => false
        | _ => true)
  | _ => true

/-! ## The two output formats, as the specification words them -/

mutual
/-- The compact format as the specification words it, the reference `Document::output` is
compared with: a String is its text between quotes, a Number its raw text, the literals
`true`, `false` and `null`, an Array `[`, its elements joined by `, `, `]`, an Object `{`,
its entries in insertion order, each `"key": value`, joined by `, `, `}`. -/
def Value.specCompact : Value → string
  | .String value => ['"'] ++ value ++ ['"']
  | .Object values insertOrder =>
    ['{'] ++ List.intercalate [',', ' ']
        (insertOrder.map fun key =>
          ['"'] ++ key ++ ['"', ':', ' '] ++ (mapGet (Value.specCompactValues values) key).getD [])
      ++ ['}']
  | .Array values => ['['] ++ List.intercalate [',', ' '] (Value.specCompactArray values) ++ [']']
  | .True => ['t', 'r', 'u', 'e']
  | .False => ['f', 'a', 'l', 's', 'e']
  | .Null => ['n', 'u', 'l', 'l']
  | .Number value => value
/-- The compact text of each stored value of a map. -/
def Value.specCompactValues : List (string × Value) → List (string × string)
  | [] => []
  | (key, val) :: rest => (key, Value.specCompact val) :: Value.specCompactValues rest
/-- The compact text of each element. -/
def Value.specCompactArray : List Value → List string
  | [] => []
  | val :: rest => Value.specCompact val :: Value.specCompactArray rest
end

mutual
/-- The pretty-print format as the specification words it, the reference `Document::print`
is compared with: a container at nesting level `d` is its open bracket, a newline, its
entries, each preceded by `2 * (d + 1)` spaces, joined by `,` and a newline, then a newline,
`2 * d` spaces and the close bracket; an Object entry is `"key": value`; a scalar is its
compact text. -/
def Value.specPretty (d : Nat) : Value → string
  | .String value => ['"'] ++ value ++ ['"']
  | .Object values insertOrder =>
    ['{', '\n'] ++ List.intercalate [',', '\n']
        (insertOrder.map fun key =>
          List.replicate (2 * (d + 1)) ' ' ++ ['"'] ++ key ++ ['"', ':', ' ']
            ++ (mapGet (Value.specPrettyValues (d + 1) values) key).getD [])
      ++ ['\n'] ++ List.replicate (2 * d) ' ' ++ ['}']
  | .Array values =>
    ['[', '\n'] ++ List.intercalate [',', '\n']
        ((Value.specPrettyArray (d + 1) values).map fun text =>
          List.replicate (2 * (d + 1)) ' ' ++ text)
      ++ ['\n'] ++ List.replicate (2 * d) ' ' ++ [']']
  | .True => ['t', 'r', 'u', 'e']
  | .False => ['f', 'a', 'l', 's', 'e']
  | .Null => ['n', 'u', 'l', 'l']
  | .Number value => value
/-- The pretty text at level `d` of each stored value of a map. -/
def Value.specPrettyValues (d : Nat) : List (string × Value) → List (string × string)
  | [] => []
  | (key, val) :: rest => (key, Value.specPretty d val) :: Value.specPrettyValues d rest
/-- The pretty text at level `d` of each element. -/
def Value.specPrettyArray (d : Nat) : List Value → List string
  | [] => []
  | val :: rest => Value.specPretty d val :: Value.specPrettyArray d rest
end

/-- The tree of `{"b": [], "a": {}}`, with its keys in that insertion order. -/
def emptiesTree : Value :=
  .Object [("a".toList, .Object [] []), ("b".toList, .Array [])] ["b".toList, "a".toList]

/-! ## Assignment -/

/-- Document::operator=, the tree `*this` holds afterwards: the Duplicator's copy of the
tree of `doc`, or none when `doc` holds none.  The tree `*this` held before is deleted and
plays no part in the result. -/
def Document.assign (_self doc : Document) : Result Document :=
  match doc.head with
  | some head =>
    match Document.Duplicator.visit head with
    | .ok copy => .ok ⟨some copy⟩
    | .undefined => .undefined
    | .timeout => .timeout
  | none => .ok ⟨none⟩

/-! ## String bodies, as the specification words them -/

/-- Every `"` of the text has a `\` right before it; `prev` is the character before the
text. -/
def quotesPreceded : Option Char → string → Bool
  | _, [] => true
  | prev, c :: rest => (c != '"' || prev == some '\\') && quotesPreceded (some c) rest

/-- A String body as the specification words it: each `\` is followed by one more
character, and every `"` is preceded by a `\`. -/
def specEscaped (body : string) : Bool :=
  body.getLast? != some '\\' && quotesPreceded none body

/-- The body `\\"`: two backslashes and a quote. -/
def quoteAfterBackslashes : string := ['\\', '\\', '"']

/-! ## Literals with all their characters -/

/-- The stream does not end inside a literal: when its first character after the spaces is
`t` or `n` it holds 4 characters from there on, when it is `f` it holds 5.  True of every
stream that begins otherwise. -/
def wholeLiteral (s : istream) : Bool :=
  match peek (Document.clrWS s) with
  | some c =>
    if c = 't' ∨ c = 'n' then decide (4 ≤ (Document.clrWS s).length)
    else if c = 'f' then decide (5 ≤ (Document.clrWS s).length)
    else true
  | none => true

/-! ## Paths that meet no key of the arguments -/

mutual
/-- Some path from the root that passes through no Object entry whose key is in `args`
ends at a String, Number, True, False or Null, or at a container without entries. -/
def Value.reachesBare (args : List string) : Value → Bool
  | .Object values _ => values.isEmpty || Value.reachesBareValues args values
  | .Array values => values.isEmpty || Value.reachesBareArray args values
  | _ => true
/-- Such a path starts at an entry of the map whose key is not in `args`. -/
def Value.reachesBareValues (args : List string) : List (string × Value) → Bool
  | [] => false
  | (key, val) :: rest =>
    (!decide (key ∈ args) && Value.reachesBare args val) || Value.reachesBareValues args rest
/-- Such a path starts at an element. -/
def Value.reachesBareArray (args : List string) : List Value → Bool
  | [] => false
  | val :: rest => Value.reachesBare args val || Value.reachesBareArray args rest
end

/-- The root is an Object or an Array. -/
def Value.isContainer : Value → Bool
  | .Object _ _ => true
  | .Array _ => true
  | _ => false

/-! ## The free store

The trees above are values.  Which nodes two documents share, and what a destructor frees,
is a matter of addresses: here a node lies in a cell of the free store and a container
holds the addresses of its children. -/

/-- A node as it lies in the free store. -/
inductive Node where
  | String (value : string)
  | Object (values : List (string × Nat)) (insertOrder : List string)
  | Array (values : List Nat)
  | True
  | False
  | Null
  | Number (value : string)

/-- The free store: cell `p` is `some node` while the node at address `p` is allocated,
`none` once it is deleted.  No address is handed out twice. -/
structure Store where
  cells : List (Option Node)

/-- A `new` expression: the node goes to a fresh cell, whose address is returned. -/
def Store.new (st : Store) (node : Node) : Store × Nat :=
  (⟨st.cells ++ [some node]⟩, st.cells.length)

/-- The expression `delete p` for a pointer that is not null.  The destructors of the Value
types are the implicit ones (json.hpp declares `virtual ~Value() { }` and nothing in the
derived structs): they destroy the members of the node, a map or vector of pointers among
them, and delete no child; the cell of the node is freed.  Deleting what is not allocated
is undefined. -/
def Store.delete (st : Store) (p : Nat) : Result Store :=
  match st.cells[p]? with
  | some (some _) => .ok ⟨st.cells.set p none⟩
  | _ => .undefined

/-- Document::~Document for a document whose `head` is the given pointer, `none` for null:
`delete head;`. -/
def Document.destructor (st : Store) (head : Option Nat) : Result Store :=
  match head with
  | none => .ok st
  | some p => st.delete p

/-- The loop of Duplicator::visit(Object*) in the store, around the visit `dup` of a child;
`values` is the map of the visited Object, the map and the order list built so far are
those of the new Object. -/
def Document.Duplicator.objectLoopStore (dup : Store → Nat → Result (Store × Nat))
    (values : List (string × Nat)) :
    Store → List (string × Nat) → List string → List string →
    Result (Store × List (string × Nat) × List string)
  | st, newValues, newOrder, [] => .ok (st, newValues, newOrder)
  | st, newValues, newOrder, key :: rest =>
    match mapGet values key with
    | some child =>
      match dup st child with
      | .ok (st2, copy) =>
        Document.Duplicator.objectLoopStore dup values st2 (mapSet newValues key copy)
          (newOrder ++ [key]) rest
      | .undefined => .undefined
      | .timeout => .timeout
    | none => .undefined

/-- The loop of Duplicator::visit(Array*) in the store, around the visit `dup` of a child. -/
def Document.Duplicator.arrayLoopStore (dup : Store → Nat → Result (Store × Nat)) :
    Store → List Nat → List Nat → Result (Store × List Nat)
  | st, newValues, [] => .ok (st, newValues)
  | st, newValues, child :: rest =>
    match dup st child with
    | .ok (st2, copy) =>
      Document.Duplicator.arrayLoopStore dup st2 (newValues ++ [copy]) rest
    | .undefined => .undefined
    | .timeout => .timeout

/-- Duplicator::visit in the store, on the node at address `p`: the store afterwards and
the pointer left in `copy`.  A container is allocated before the copies of its children
and holds them once the loop is over; `fuel` bounds the depth. -/
def Document.Duplicator.visitStore : Nat → Store → Nat → Result (Store × Nat)
  | 0, _, _ => .timeout
  | fuel + 1, st, p =>
    match st.cells[p]? with
    | some (some (.String value)) => .ok (st.new (.String value))
    | some (some (.Object values insertOrder)) =>
      match Document.Duplicator.objectLoopStore (Document.Duplicator.visitStore fuel) values
          (st.new (.Object [] [])).1 [] [] insertOrder with
      | .ok (st2, newValues, newOrder) =>
        .ok (⟨st2.cells.set st.cells.length (some (.Object newValues newOrder))⟩,
          st.cells.length)
      | .undefined => .undefined
      | .timeout => .timeout
    | some (some (.Array values)) =>
      match Document.Duplicator.arrayLoopStore (Document.Duplicator.visitStore fuel)
          (st.new (.Array [])).1 [] values with
      | .ok (st2, newValues) =>
        .ok (⟨st2.cells.set st.cells.length (some (.Array newValues))⟩, st.cells.length)
      | .undefined => .undefined
      | .timeout => .timeout
    | some (some .True) => .ok (st.new .True)
    | some (some .False) => .ok (st.new .False)
    | some (some .Null) => .ok (st.new .Null)
    | some (some (.Number value)) => .ok (st.new (.Number value))
    | _ => .undefined

/-- Document::copy in the store: the store afterwards and the `head` of the document
returned. -/
def Document.copyStore (fuel : Nat) (st : Store) (head : Option Nat) :
    Result (Store × Option Nat) :=
  match head with
  | none => .ok (st, none)
  | some p =>
    match Document.Duplicator.visitStore fuel st p with
    | .ok (st2, copy) => .ok (st2, some copy)
    | .undefined => .undefined
    | .timeout => .timeout

/-- Document::Document(Document const&) in the store, json.hpp lines 103-112.  The
constructor has no member initialiser, so when its body starts the member `head` of the
new document holds whatever lay in its storage: that value is the argument `head`, `none`
for a null pointer.  `doc` is the `head` of the source.  With a source that holds a tree
the body runs the Duplicator, then `delete head;` on the member as it was found, then
`head = d.copy;`.  The result is the store afterwards and the `head` of the new
document. -/
def Document.copyConstructor (fuel : Nat) (st : Store) (head doc : Option Nat) :
    Result (Store × Option Nat) :=
  match doc with
  | some p =>
    match Document.Duplicator.visitStore fuel st p with
    | .ok (st2, copy) =>
      match head with
      | none => .ok (st2, some copy)
      | some q =>
        match st2.delete q with
        | .ok st3 => .ok (st3, some copy)
        | .undefined => .undefined
        | .timeout => .timeout
    | .undefined => .undefined
    | .timeout => .timeout
  | none => .ok (st, none)

/-- The tree that lies at address `p`, read to depth `fuel`: `none` when a pointer on the
way is dangling or the depth is not enough. -/
def Store.tree (st : Store) : Nat → Nat → Option Value
  | 0, _ => none
  | fuel + 1, p =>
    match st.cells[p]? with
    | some (some (.String value)) => some (.String value)
    | some (some (.Object values insertOrder)) =>
      (values.mapM fun kv => (Store.tree st fuel kv.2).map fun v => (kv.1, v)).map
        fun vs => .Object vs insertOrder
    | some (some (.Array values)) => (values.mapM (Store.tree st fuel)).map .Array
    | some (some .True) => some .True
    | some (some .False) => some .False
    | some (some .Null) => some .Null
    | some (some (.Number value)) => some (.Number value)
    | _ => none

/-- Document::output of the document whose `head` is the given pointer. -/
def Document.outputStore (fuel : Nat) (st : Store) (head : Option Nat) :
    Option (Result string) :=
  match head with
  | none => some (.ok [])
  | some p => (st.tree fuel p).map fun v => Document.output ⟨some v⟩

/-- A store that holds the tree of `[1]` and nothing else: the Array in cell 0, its
element, the Number `1`, in cell 1. -/
def arrayOneStore : Store := ⟨[some (.Array [1]), some (.Number ['1'])]⟩

/-! ## Numbers that have a text -/

/-- On a Number node: its text is not empty. -/
def Value.numberFilled : Value → Bool
  | .Number value => !value.isEmpty
  | _ => true

/-- A node the Exporter writes so that the parser reads it back: built, and a Number with
some text. -/
def Value.plain (v : Value) : Bool := v.built && v.numberFilled

/-- Document::Document(): the document without a tree. -/
def Document.empty : Document := ⟨none⟩

/-! ## Entries and what separates them -/

/-- The entry text `e` stands for the value `v`: it begins with a character that is no
space, `,`, `}` or `]`, and on fuel `N` or more, followed by any stream that begins with a
space, `,`, `}` or `]`, it is parsed as `v` with that stream left unread. -/
def readsEntry (N : Nat) (e : string) (v : Value) : Prop :=
  e.head?.any (fun c => !terminator c) = true
    ∧ ∀ n, N ≤ n → ∀ rest, rest.head?.any terminator = true →
        Document.parse n (e ++ rest) = .ok (v, rest)

/-- An array text: `[`, the entry texts joined by `sep`, then `last` and `]`. -/
def arrayText (sep last : string) (entries : List (string × Value)) : string :=
  '[' :: List.intercalate sep (entries.map Prod.fst) ++ last ++ [']']

/-- The text of an Object entry: the key between quotes, a colon, the text of the value. -/
def fieldText (key text : string) : string := '"' :: key ++ '"' :: ':' :: text

/-- An object text: `{`, the entries `"key":text` joined by `sep`, then `last` and `}`. -/
def objectTextWith (sep last : string) (fields : List (string × string × Value)) : string :=
  '{' :: List.intercalate sep (fields.map fun f => fieldText f.1 f.2.1) ++ last ++ ['}']

/-- The map and the order list after the store (json.cpp lines 65-71) of each pair in
turn. -/
def Document.insertEntries :
    List (string × Value) → List string → List (string × Value) →
    List (string × Value) × List string
  | values, insertOrder, [] => (values, insertOrder)
  | values, insertOrder, (key, val) :: rest =>
    Document.insertEntries (Document.insertEntry values insertOrder key val).1
      (Document.insertEntry values insertOrder key val).2 rest

/-- The Object that holds the given pairs, stored in turn. -/
def objectOf (pairs : List (string × Value)) : Value :=
  .Object (Document.insertEntries [] [] pairs).1 (Document.insertEntries [] [] pairs).2

/-- The entries `1` and `2`, each with its Number. -/
def oneTwo : List (string × Value) := [(['1'], .Number ['1']), (['2'], .Number ['2'])]

/-- The fields `"a":1` and `"b":2`, each with its Number. -/
def fieldsAB : List (string × string × Value) :=
  [(['a'], ['1'], .Number ['1']), (['b'], ['2'], .Number ['2'])]

/-! ## Object texts in any layout -/

/-- An entry of an object text as it is laid out: the key between quotes, `beforeColon`
spaces, the colon, `afterColon` spaces, the text of the value, then what separates it from
what follows: `afterValue` spaces and, when `comma` is set, a comma and `afterComma`
spaces.  `value` is the value the text stands for. -/
structure Member where
  key : string
  beforeColon : Nat
  afterColon : Nat
  text : string
  value : Value
  afterValue : Nat
  comma : Bool
  afterComma : Nat

/-- What lies between the value of an entry and the next key or the closing brace. -/
def Member.separator (m : Member) : string :=
  List.replicate m.afterValue ' '
    ++ (if m.comma then ',' :: List.replicate m.afterComma ' ' else [])

/-- The text of an entry in its layout. -/
def Member.layout (m : Member) : string :=
  '"' :: m.key ++ '"' :: (List.replicate m.beforeColon ' '
    ++ ':' :: (List.replicate m.afterColon ' ' ++ (m.text ++ m.separator)))

/-- The key of an entry with the value its text stands for. -/
def Member.pair (m : Member) : string × Value := (m.key, m.value)

/-- The texts of the entries, one after the other. -/
def membersLayout : List Member → string
  | [] => []
  | m :: rest => m.layout ++ membersLayout rest

/-- Between two entries lies a space or a comma at least: every entry but the last has a
separator that is not empty. -/
def separated : List Member → Bool
  | [] => true
  | [_] => true
  | m :: n :: rest => !m.separator.isEmpty && separated (n :: rest)

/-- An object text: `{`, `lead` spaces, the entries in their layout, `}`. -/
def objectLayout (lead : Nat) (members : List Member) : string :=
  '{' :: (List.replicate lead ' ' ++ (membersLayout members ++ ['}']))

/-- The entry `"key":text` followed by `,` when `comma` is set, no space anywhere. -/
def Member.tight (key text : string) (value : Value) (comma : Bool) : Member :=
  ⟨key, 0, 0, text, value, 0, comma, 0⟩

/-- The entry `"key" : text ` followed by `, ` when `comma` is set: one space around the
colon, after the value and after the comma. -/
def Member.spaced (key text : string) (value : Value) (comma : Bool) : Member :=
  ⟨key, 1, 1, text, value, 1, comma, 1⟩

/-- The entries of `{"a":1,"b":2,"c":3}`. -/
def abcMembers : List Member :=
  [Member.tight ['a'] ['1'] (.Number ['1']) true,
   Member.tight ['b'] ['2'] (.Number ['2']) true,
   Member.tight ['c'] ['3'] (.Number ['3']) false]

/-- The entries of `{ "a" : 1 , "b" : 2 }`. -/
def spacedMembers : List Member :=
  [Member.spaced ['a'] ['1'] (.Number ['1']) true,
   Member.spaced ['b'] ['2'] (.Number ['2']) false]

/-- The entries of `{"x":1}`. -/
def innerMembers : List Member := [Member.tight ['x'] ['1'] (.Number ['1']) false]

/-- The entries of `{"a":{"x":1},"b":2}`. -/
def nestedMembers : List Member :=
  [Member.tight ['a'] (objectLayout 0 innerMembers)
    (.Object [(['x'], .Number ['1'])] [['x']]) true,
   Member.tight ['b'] ['2'] (.Number ['2']) false]

end json

/-!
# The class Rational (src/data) as a shallow embedding

A `long` is modelled by an integer together with the range of the type: an arithmetic
expression whose value lies outside the range is a signed overflow, which is undefined in
C++.  Every function below takes the range as its first argument; `unbounded` is the range
of all integers, `long` that of a 64-bit `long` (the LP64 data model).  The `/` and `%` of
C++ truncate towards zero (`Int.tdiv`, `Int.tmod`).  Assertions are compiled in: a failed
`assert` aborts.  The argument of a member operator is a reference, which may refer to the
object the operator is called on.
-/

namespace rational

/-- Outcome of running a function of rational.cpp: a normal return, the abort of a failed
`assert`, undefined behaviour (signed overflow, division by zero), or fuel run out. -/
inductive Outcome (α : Type) where
  | ok (a : α)
  | abort
  | undefined
  | timeout

/-- Sequencing: the second step runs on the value of the first when it returns. -/
def Outcome.bind {α β : Type} (x : Outcome α) (f : α → Outcome β) : Outcome β :=
  match x with
  | .ok a => f a
  | .abort => .abort
  | .undefined => .undefined
  | .timeout => .timeout

/-- The range of an integer type: the integers it holds. -/
abbrev Range := Int → Bool

/-- Integers without bound. -/
def unbounded : Range := fun _ => true

/-- The least value of a 64-bit `long`. -/
def LONG_MIN : Int := -(2 ^ 63)

/-- The greatest value of a 64-bit `long`. -/
def LONG_MAX : Int := 2 ^ 63 - 1

/-- The range of a 64-bit `long`. -/
def long : Range := fun x => decide (LONG_MIN ≤ x) && decide (x ≤ LONG_MAX)

/-- The value of an arithmetic expression: undefined when it is out of range. -/
def arith (r : Range) (x : Int) : Outcome Int := if r x then .ok x else .undefined

/-- The expression `a / b`: undefined for `b == 0` and when the quotient is out of range. -/
def div (r : Range) (a b : Int) : Outcome Int :=
  if b = 0 then .undefined else arith r (a.tdiv b)

/-- The expression `a % b`: undefined for `b == 0` and when `a / b` is out of range. -/
def mod (r : Range) (a b : Int) : Outcome Int :=
  if b = 0 then .undefined else if r (a.tdiv b) then .ok (a.tmod b) else .undefined

/-- The class `Rational`: its two data members. -/
structure Rational where
  _numerator : Int
  _denominator : Int
deriving DecidableEq

/-- The class invariants of rational.hpp (lines 8-9): the denominator is positive and the
fraction is in simplest form. -/
def Rational.normal (q : Rational) : Prop :=
  0 < q._denominator ∧ Int.gcd q._numerator q._denominator = 1

instance (q : Rational) : Decidable q.normal := by
  unfold Rational.normal; infer_instance

/-- The loop of Rational::_gcf (rational.cpp lines 56-60) on the locals `a` and `b`,
followed by `return std::abs(a);`. -/
def Rational._gcfLoop (r : Range) : Nat → Int → Int → Outcome Int
  | 0, _, _ => .timeout
  | fuel + 1, a, b =>
    if b ≠ 0 then (mod r a b).bind fun b2 => Rational._gcfLoop r fuel b b2
    else arith r |a|

/-- Rational::_gcf.  The loop is run on `|_denominator| + 1` steps of fuel, which no run
needs more than. -/
def Rational._gcf (r : Range) (this : Rational) : Outcome Int :=
  Rational._gcfLoop r (this._denominator.natAbs + 1) this._numerator this._denominator

/-- Rational::_simplify: the object afterwards. -/
def Rational._simplify (r : Range) (this : Rational) : Outcome Rational :=
  if this._numerator = 0 then .ok ⟨this._numerator, 1⟩
  else
    (if this._denominator < 0 then
        (arith r (this._denominator * -1)).bind fun den =>
          (arith r (this._numerator * -1)).bind fun num => .ok (⟨num, den⟩ : Rational)
      else .ok this).bind fun this =>
    (Rational._gcf r this).bind fun factor =>
    (div r this._numerator factor).bind fun num =>
    (div r this._denominator factor).bind fun den =>
    .ok ⟨num, den⟩

/-- Rational::Rational(): 0/1. -/
def Rational.zero : Rational := ⟨0, 1⟩

/-- Rational::Rational(long num): num/1. -/
def Rational.ofLong (num : Int) : Rational := ⟨num, 1⟩

/-- Rational::Rational(long num, long den): `assert(den); _simplify();`. -/
def Rational.ofLongs (r : Range) (num den : Int) : Outcome Rational :=
  if den = 0 then .abort else Rational._simplify r ⟨num, den⟩

/-- The argument `val` of a member operator, passed by reference: the object the operator
is called on (as in `a /= a`), or another object. -/
inductive Ref where
  | self
  | other (val : Rational)

/-- The object a reference refers to, `this` being the object the operator is called on in
its present state. -/
def Ref.get (val : Ref) (this : Rational) : Rational :=
  match val with
  | .self => this
  | .other v => v

/-- Rational::operator=(Rational const&): the object afterwards. -/
def Rational.assign (r : Range) (this : Rational) (val : Ref) : Outcome Rational :=
  Rational._simplify r ⟨(val.get this)._numerator,
    (val.get ⟨(val.get this)._numerator, this._denominator⟩)._denominator⟩

/-- Rational::operator+=(Rational const&): the object afterwards. -/
def Rational.addAssign (r : Range) (this : Rational) (val : Ref) : Outcome Rational :=
  (arith r (this._numerator * (val.get this)._denominator)).bind fun p1 =>
  (arith r (this._denominator * (val.get this)._numerator)).bind fun p2 =>
  (arith r (p1 + p2)).bind fun num =>
  (arith r (this._denominator
      * (val.get ⟨num, this._denominator⟩)._denominator)).bind fun den =>
  Rational._simplify r ⟨num, den⟩

/-- Rational::operator-=(Rational const&): the object afterwards. -/
def Rational.subAssign (r : Range) (this : Rational) (val : Ref) : Outcome Rational :=
  (arith r (this._numerator * (val.get this)._denominator)).bind fun p1 =>
  (arith r (this._denominator * (val.get this)._numerator)).bind fun p2 =>
  (arith r (p1 - p2)).bind fun num =>
  (arith r (this._denominator
      * (val.get ⟨num, this._denominator⟩)._denominator)).bind fun den =>
  Rational._simplify r ⟨num, den⟩

/-- Rational::operator*=(Rational const&): the object afterwards. -/
def Rational.mulAssign (r : Range) (this : Rational) (val : Ref) : Outcome Rational :=
  (arith r (this._numerator * (val.get this)._numerator)).bind fun num =>
  (arith r (this._denominator
      * (val.get ⟨num, this._denominator⟩)._denominator)).bind fun den =>
  Rational._simplify r ⟨num, den⟩

/-- Rational::operator/=(Rational const&): the object afterwards.  The second statement
reads `val.numerator()` after the first has assigned `_numerator`. -/
def Rational.divAssign (r : Range) (this : Rational) (val : Ref) : Outcome Rational :=
  (arith r (this._numerator * (val.get this)._denominator)).bind fun num =>
  (arith r (this._denominator
      * (val.get ⟨num, this._denominator⟩)._numerator)).bind fun den =>
  Rational._simplify r ⟨num, den⟩

/-- The global `operator+ (Rational const&, Rational const&)`. -/
def Rational.add (r : Range) (a b : Rational) : Outcome Rational :=
  (arith r (a._numerator * b._denominator)).bind fun p1 =>
  (arith r (b._numerator * a._denominator)).bind fun p2 =>
  (arith r (p1 + p2)).bind fun num =>
  (arith r (a._denominator * b._denominator)).bind fun den =>
  Rational.ofLongs r num den

/-- The global `operator- (Rational const&, Rational const&)`. -/
def Rational.sub (r : Range) (a b : Rational) : Outcome Rational :=
  (arith r (a._numerator * b._denominator)).bind fun p1 =>
  (arith r (b._numerator * a._denominator)).bind fun p2 =>
  (arith r (p1 - p2)).bind fun num =>
  (arith r (a._denominator * b._denominator)).bind fun den =>
  Rational.ofLongs r num den

/-- The global `operator* (Rational const&, Rational const&)`. -/
def Rational.mul (r : Range) (a b : Rational) : Outcome Rational :=
  (arith r (a._numerator * b._numerator)).bind fun num =>
  (arith r (a._denominator * b._denominator)).bind fun den =>
  Rational.ofLongs r num den

/-- The global `operator/ (Rational const&, Rational const&)`. -/
def Rational.div (r : Range) (a b : Rational) : Outcome Rational :=
  (arith r (a._numerator * b._denominator)).bind fun num =>
  (arith r (a._denominator * b._numerator)).bind fun den =>
  Rational.ofLongs r num den

/-- The global `operator== (Rational const&, Rational const&)`. -/
def Rational.eq (a b : Rational) : Bool :=
  decide (a._numerator = b._numerator) && decide (a._denominator = b._denominator)

/-- The global `operator!= (Rational const&, Rational const&)`. -/
def Rational.ne (a b : Rational) : Bool := !Rational.eq a b

end rational

/-! # Theorems -/

namespace json

/-! ## The order of keys -/

theorem strLt_irrefl (a : string) : strLt a a = false := by
  induction a with
  | nil => rfl
  | cons c cs ih => simp [strLt, ih]

theorem strLt_trans {a b c : string} (hab : strLt a b = true) (hbc : strLt b c = true) :
    strLt a c = true := by
  induction a generalizing b c with
  | nil =>
    cases b with
    | nil => simp [strLt] at hab
    | cons y ys =>
      cases c with
      | nil => simp [strLt] at hbc
      | cons z zs => simp [strLt]
  | cons x xs ih =>
    cases b with
    | nil => simp [strLt] at hab
    | cons y ys =>
      cases c with
      | nil => simp [strLt] at hbc
      | cons z zs =>
        simp only [strLt] at hab hbc ⊢
        by_cases hxy : x.toNat < y.toNat
        · by_cases hyz : y.toNat < z.toNat
          · simp [Nat.lt_trans hxy hyz]
          · simp only [hyz, if_false] at hbc
            by_cases e : y = z
            · subst e; simp [hxy]
            · simp [e] at hbc
        · simp only [hxy, if_false] at hab
          by_cases e : x = y
          · subst e
            simp only [if_true] at hab
            by_cases hyz : x.toNat < z.toNat
            · simp [hyz]
            · simp only [hyz, if_false] at hbc ⊢
              by_cases e2 : x = z
              · subst e2
                simp only [if_true] at hbc ⊢
                exact ih hab hbc
              · simp [e2] at hbc
          · simp [e] at hab

theorem strLt_total {a b : string} (hne : a ≠ b) (hab : strLt a b = false) :
    strLt b a = true := by
  induction a generalizing b with
  | nil =>
    cases b with
    | nil => exact absurd rfl hne
    | cons y ys => simp [strLt] at hab
  | cons x xs ih =>
    cases b with
    | nil => simp [strLt]
    | cons y ys =>
      simp only [strLt] at hab ⊢
      by_cases hxy : x.toNat < y.toNat
      · simp [hxy] at hab
      · simp only [hxy, if_false] at hab
        by_cases e : x = y
        · subst e
          simp only [if_true] at hab
          have hne2 : xs ≠ ys := fun h => hne (by rw [h])
          simp [ih hne2 hab]
        · have hlt : y.toNat < x.toNat := by
            rcases Nat.lt_trichotomy x.toNat y.toNat with h | h | h
            · exact absurd h hxy
            · exact absurd (by rw [← Char.ofNat_toNat x, ← Char.ofNat_toNat y, h]) e
            · exact h
          simp [hlt]

/-! ## std::map -/

theorem mapGet_mapSet_self {α : Type} (m : List (string × α)) (k : string) (v : α) :
    mapGet (mapSet m k v) k = some v := by
  induction m with
  | nil => simp [mapSet, mapGet]
  | cons e rest ih =>
    obtain ⟨k0, v0⟩ := e
    simp only [mapSet]
    split
    · simp [mapGet]
    · split
      · simp [mapGet]
      · rename_i h1 h2
        simp [mapGet, h2, ih]

theorem mapGet_mapSet_other {α : Type} (m : List (string × α)) {k k2 : string} (v : α)
    (h : k2 ≠ k) : mapGet (mapSet m k v) k2 = mapGet m k2 := by
  induction m with
  | nil => simp [mapSet, mapGet, h]
  | cons e rest ih =>
    obtain ⟨k0, v0⟩ := e
    simp only [mapSet]
    split
    · simp [mapGet, h]
    · split
      · rename_i h1 h2
        subst h2
        simp [mapGet, h]
      · simp [mapGet, ih]

theorem mem_mapKeys_mapSet {α : Type} (m : List (string × α)) (k k2 : string) (v : α) :
    k2 ∈ mapKeys (mapSet m k v) ↔ k2 = k ∨ k2 ∈ mapKeys m := by
  induction m with
  | nil => simp only [mapSet, mapKeys, List.map_cons, List.map_nil, List.mem_cons]
  | cons e rest ih =>
    obtain ⟨k0, v0⟩ := e
    simp only [mapSet]
    split
    · simp only [mapKeys, List.map_cons, List.mem_cons]
    · split
      · rename_i h1 h2
        subst h2
        simp only [mapKeys, List.map_cons, List.mem_cons]
        tauto
      · simp only [mapKeys, List.map_cons, List.mem_cons] at ih ⊢
        rw [ih]
        tauto

theorem mapGet_isSome_iff {α : Type} (m : List (string × α)) (k : string) :
    (mapGet m k).isSome = true ↔ k ∈ mapKeys m := by
  induction m with
  | nil => simp only [mapGet, mapKeys, List.map_nil, List.not_mem_nil, Option.isSome_none,
      Bool.false_eq_true]
  | cons e rest ih =>
    obtain ⟨k0, v0⟩ := e
    simp only [mapGet, mapKeys, List.map_cons, List.mem_cons]
    by_cases h : k = k0
    · subst h
      simp only [if_true, Option.isSome_some, true_or]
    · simp only [h, if_false, false_or]
      exact ih

theorem mapGet_eq_none_iff {α : Type} (m : List (string × α)) (k : string) :
    mapGet m k = none ↔ k ∉ mapKeys m := by
  rw [← mapGet_isSome_iff]
  cases mapGet m k <;> simp

theorem mem_of_mapGet {α : Type} {m : List (string × α)} {k : string} {v : α}
    (h : mapGet m k = some v) : (k, v) ∈ m := by
  induction m with
  | nil => simp [mapGet] at h
  | cons e rest ih =>
    obtain ⟨k0, v0⟩ := e
    simp only [mapGet] at h
    by_cases hk : k = k0
    · simp only [hk, if_true, Option.some.injEq] at h
      simp [hk, h]
    · simp only [hk, if_false] at h
      exact List.mem_cons_of_mem _ (ih h)

theorem keysSorted_cons (k : string) (ks : List string) :
    keysSorted (k :: ks) = true ↔ (∀ k2 ∈ ks, strLt k k2 = true) ∧ keysSorted ks = true := by
  simp [keysSorted]

theorem keysSorted_mapSet {α : Type} (m : List (string × α)) (k : string) (v : α)
    (h : keysSorted (mapKeys m) = true) : keysSorted (mapKeys (mapSet m k v)) = true := by
  induction m with
  | nil => simp [mapSet, mapKeys, keysSorted]
  | cons e rest ih =>
    obtain ⟨k0, v0⟩ := e
    have h0 := h
    simp only [mapKeys, List.map_cons, keysSorted_cons] at h
    obtain ⟨hlt, hs⟩ := h
    simp only [mapSet]
    split
    · rename_i h1
      simp only [mapKeys, List.map_cons, keysSorted_cons, List.mem_cons]
      refine ⟨?_, ?_, hs⟩
      · intro k2 hk2
        rcases hk2 with rfl | hk2
        · exact h1
        · exact strLt_trans h1 (hlt k2 hk2)
      · exact hlt
    · split
      · rename_i h1 h2
        subst h2
        simp only [mapKeys, List.map_cons, keysSorted_cons]
        exact ⟨hlt, hs⟩
      · rename_i h1 h2
        have hgt : strLt k0 k = true := strLt_total h2 (by simpa using h1)
        have ih2 := ih hs
        simp only [mapKeys, List.map_cons, keysSorted_cons]
        refine ⟨?_, ih2⟩
        intro k2 hk2
        have := (mem_mapKeys_mapSet rest k k2 v).mp hk2
        rcases this with rfl | hk2
        · exact hgt
        · exact hlt k2 hk2

theorem mapGet_eq_none_of_lt {α : Type} {m : List (string × α)} {k : string}
    (h : ∀ k2 ∈ mapKeys m, strLt k k2 = true) : mapGet m k = none := by
  rw [mapGet_eq_none_iff]
  intro hk
  have := h k hk
  rw [strLt_irrefl] at this
  exact absurd this (by simp)

/-- Two maps in the order of std::map that agree on every key are the same list. -/
theorem map_ext {α : Type} : ∀ (m1 m2 : List (string × α)),
    keysSorted (mapKeys m1) = true → keysSorted (mapKeys m2) = true →
    (∀ k, mapGet m1 k = mapGet m2 k) → m1 = m2
  | [], [], _, _, _ => rfl
  | [], (k, v) :: _, _, _, h => by
    have := h k
    simp [mapGet] at this
  | (k, v) :: _, [], _, _, h => by
    have := h k
    simp [mapGet] at this
  | (k1, v1) :: r1, (k2, v2) :: r2, h1, h2, h => by
    simp only [mapKeys, List.map_cons, keysSorted_cons] at h1 h2
    have hk : k1 = k2 := by
      by_contra hne
      by_cases hlt : strLt k1 k2 = true
      · have e := h k1
        have hn : mapGet ((k2, v2) :: r2) k1 = none := by
          apply mapGet_eq_none_of_lt
          intro k hk
          simp only [mapKeys, List.map_cons, List.mem_cons] at hk
          rcases hk with rfl | hk
          · exact hlt
          · exact strLt_trans hlt (h2.1 k hk)
        rw [hn] at e
        simp [mapGet] at e
      · have hgt : strLt k2 k1 = true := strLt_total hne (by simpa using hlt)
        have e := h k2
        have hn : mapGet ((k1, v1) :: r1) k2 = none := by
          apply mapGet_eq_none_of_lt
          intro k hk
          simp only [mapKeys, List.map_cons, List.mem_cons] at hk
          rcases hk with rfl | hk
          · exact hgt
          · exact strLt_trans hgt (h1.1 k hk)
        rw [hn] at e
        simp [mapGet] at e
    subst hk
    have hv : v1 = v2 := by
      have e := h k1
      simpa [mapGet] using e
    subst hv
    have hr : r1 = r2 := by
      apply map_ext r1 r2 h1.2 h2.2
      intro k
      by_cases hk : k = k1
      · subst hk
        rw [mapGet_eq_none_of_lt h1.1, mapGet_eq_none_of_lt h2.1]
      · have e := h k
        simpa [mapGet, hk] using e
    rw [hr]

/-! ## Trees -/

theorem Value.allValues_iff (q : Value → Bool) (values : List (string × Value)) :
    Value.allValues q values = true ↔ ∀ k v, (k, v) ∈ values → Value.all q v = true := by
  induction values with
  | nil => simp [Value.allValues]
  | cons e rest ih =>
    obtain ⟨k0, v0⟩ := e
    simp only [Value.allValues, Bool.and_eq_true, ih, List.mem_cons, Prod.mk.injEq]
    constructor
    · rintro ⟨h0, hr⟩ k v (⟨rfl, rfl⟩ | h)
      · exact h0
      · exact hr k v h
    · intro h
      exact ⟨h k0 v0 (Or.inl ⟨rfl, rfl⟩), fun k v hm => h k v (Or.inr hm)⟩

theorem Value.allArray_iff (q : Value → Bool) (values : List Value) :
    Value.allArray q values = true ↔ ∀ v ∈ values, Value.all q v = true := by
  induction values with
  | nil => simp [Value.allArray]
  | cons e rest ih => simp [Value.allArray, ih]

/-- Induction on trees: a property of the stored values or of the elements gives it for
the container. -/
theorem Value.induct {P : Value → Prop}
    (hString : ∀ s, P (.String s))
    (hObject : ∀ values insertOrder, (∀ k v, (k, v) ∈ values → P v) →
      P (.Object values insertOrder))
    (hArray : ∀ values, (∀ v ∈ values, P v) → P (.Array values))
    (hTrue : P .True) (hFalse : P .False) (hNull : P .Null)
    (hNumber : ∀ s, P (.Number s)) : ∀ v, P v := by
  intro v
  refine @Value.rec P (fun l => ∀ k v, (k, v) ∈ l → P v) (fun l => ∀ v ∈ l, P v)
    (fun e => P e.2)
    hString (fun values insertOrder ih => hObject values insertOrder ih)
    (fun values ih => hArray values ih) hTrue hFalse hNull hNumber
    ?_ ?_ ?_ ?_ ?_ v
  · intro k v h; simp at h
  · intro head tail ih1 ih2 k v h
    simp only [List.mem_cons] at h
    rcases h with h | h
    · subst h; exact ih1
    · exact ih2 k v h
  · intro v h; simp at h
  · intro head tail ih1 ih2 v h
    simp only [List.mem_cons] at h
    rcases h with h | h
    · subst h; exact ih1
    · exact ih2 v h
  · intro k v ih; exact ih

/-! ## More fuel changes no result -/

theorem parseStringLoop_succ (n : Nat) : ∀ (value : string) (is : istream),
    Document.parseStringLoop n value is ≠ .timeout →
    Document.parseStringLoop (n + 1) value is = Document.parseStringLoop n value is := by
  induction n with
  | zero => intro value is h; exact absurd rfl h
  | succ n ih =>
    intro value is h
    rw [Document.parseStringLoop] at h
    conv_lhs => rw [Document.parseStringLoop]
    conv_rhs => rw [Document.parseStringLoop]
    split
    · split
      · rename_i h1 h2
        rw [if_pos h1, if_pos h2] at h
        exact ih _ _ h
      · rename_i h1 h2
        rw [if_pos h1, if_neg h2] at h
        exact ih _ _ h
    · rfl

theorem parseNumberLoop_succ (n : Nat) : ∀ (value : string) (is : istream),
    Document.parseNumberLoop n value is ≠ .timeout →
    Document.parseNumberLoop (n + 1) value is = Document.parseNumberLoop n value is := by
  induction n with
  | zero => intro value is h; exact absurd rfl h
  | succ n ih =>
    intro value is h
    rw [Document.parseNumberLoop] at h
    conv_lhs => rw [Document.parseNumberLoop]
    conv_rhs => rw [Document.parseNumberLoop]
    split
    · rename_i h1
      rw [if_pos h1] at h
      exact ih _ _ h
    · rfl

theorem parseNumber_succ (n : Nat) (is : istream)
    (h : Document.parseNumber n is ≠ .timeout) :
    Document.parseNumber (n + 1) is = Document.parseNumber n is := by
  unfold Document.parseNumber at h ⊢
  have : Document.parseNumberLoop n [] is ≠ .timeout := by
    intro e; rw [e] at h; exact h rfl
  rw [parseNumberLoop_succ n _ _ this]

theorem parseObjectLoop_succ {p q : istream → Result (Value × istream)}
    (hpq : ∀ is, p is ≠ .timeout → q is = p is) (n : Nat) :
    ∀ (values : List (string × Value)) (insertOrder : List string) (is : istream),
    Document.parseObjectLoop p n values insertOrder is ≠ .timeout →
    Document.parseObjectLoop q (n + 1) values insertOrder is
      = Document.parseObjectLoop p n values insertOrder is := by
  induction n with
  | zero => intro values insertOrder is h; exact absurd rfl h
  | succ n ih =>
    intro values insertOrder is h
    rw [Document.parseObjectLoop] at h
    conv_lhs => rw [Document.parseObjectLoop]
    conv_rhs => rw [Document.parseObjectLoop]
    by_cases h1 : peek is ≠ some '}'
    · simp only [if_pos h1] at h ⊢
      cases hp : p is with
      | timeout => rw [hp] at h; exact absurd rfl h
      | undefined => rw [hpq is (by rw [hp]; simp), hp]
      | ok a =>
        rw [hp] at h
        rw [hpq is (by rw [hp]; simp), hp]
        obtain ⟨v, is1⟩ := a
        cases v with
        | String key =>
          simp only at h ⊢
          cases hp2 : p (Document.clrWS (ignore (Document.clrWS is1) 1)) with
          | timeout => rw [hp2] at h; exact absurd rfl h
          | undefined => rw [hpq _ (by rw [hp2]; simp), hp2]
          | ok b =>
            rw [hp2] at h
            rw [hpq _ (by rw [hp2]; simp), hp2]
            obtain ⟨val, is2⟩ := b
            simp only at h ⊢
            exact ih _ _ _ h
        | _ => rfl
    · simp only [if_neg h1]

theorem parseArrayLoop_succ {p q : istream → Result (Value × istream)}
    (hpq : ∀ is, p is ≠ .timeout → q is = p is) (n : Nat) :
    ∀ (values : List Value) (is : istream),
    Document.parseArrayLoop p n values is ≠ .timeout →
    Document.parseArrayLoop q (n + 1) values is = Document.parseArrayLoop p n values is := by
  induction n with
  | zero => intro values is h; exact absurd rfl h
  | succ n ih =>
    intro values is h
    rw [Document.parseArrayLoop] at h
    conv_lhs => rw [Document.parseArrayLoop]
    conv_rhs => rw [Document.parseArrayLoop]
    by_cases h1 : peek is ≠ some ']'
    · simp only [if_pos h1] at h ⊢
      cases hp : p is with
      | timeout => rw [hp] at h; exact absurd rfl h
      | undefined => rw [hpq is (by rw [hp]; simp), hp]
      | ok a =>
        rw [hp] at h
        rw [hpq is (by rw [hp]; simp), hp]
        obtain ⟨v, is1⟩ := a
        simp only at h ⊢
        exact ih _ _ h
    · simp only [if_neg h1]

theorem parse_succ (n : Nat) : ∀ (is : istream),
    Document.parse n is ≠ .timeout → Document.parse (n + 1) is = Document.parse n is := by
  induction n with
  | zero => intro is h; exact absurd rfl h
  | succ n ih =>
    intro is h
    rw [Document.parse] at h
    conv_lhs => rw [Document.parse]
    conv_rhs => rw [Document.parse]
    cases hc : peek (Document.clrWS is) with
    | none =>
      rw [hc] at h
      simp only at h ⊢
      exact parseNumber_succ n _ h
    | some c =>
      rw [hc] at h
      simp only at h ⊢
      by_cases c1 : c = '"'
      · simp only [if_pos c1] at h ⊢
        have : Document.parseStringLoop n [] (ignore (Document.clrWS is) 1) ≠ .timeout := by
          intro e; rw [e] at h; exact h rfl
        rw [parseStringLoop_succ n _ _ this]
      · simp only [if_neg c1] at h ⊢
        by_cases c2 : c = '{'
        · simp only [if_pos c2] at h ⊢
          exact parseObjectLoop_succ ih n _ _ _ h
        · simp only [if_neg c2] at h ⊢
          by_cases c3 : c = '['
          · simp only [if_pos c3] at h ⊢
            exact parseArrayLoop_succ ih n _ _ h
          · simp only [if_neg c3] at h ⊢
            by_cases c4 : c = 't'
            · simp only [if_pos c4]
            · simp only [if_neg c4] at h ⊢
              by_cases c5 : c = 'f'
              · simp only [if_pos c5]
              · simp only [if_neg c5] at h ⊢
                by_cases c6 : c = 'n'
                · simp only [if_pos c6]
                · simp only [if_neg c6] at h ⊢
                  exact parseNumber_succ n _ h

/-- A result reached on some fuel is the result on any larger fuel. -/
theorem parse_mono {n m : Nat} (hnm : n ≤ m) {is : istream}
    (h : Document.parse n is ≠ .timeout) : Document.parse m is = Document.parse n is := by
  induction hnm with
  | refl => rfl
  | step hle ih => rw [parse_succ _ _ (by rw [ih]; exact h), ih]

/-- Two runs that both end give the same result. -/
theorem parse_det {n m : Nat} {is : istream} (hn : Document.parse n is ≠ .timeout)
    (hm : Document.parse m is ≠ .timeout) : Document.parse n is = Document.parse m is := by
  rcases Nat.le_total n m with h | h
  · exact (parse_mono h hn).symm
  · exact parse_mono h hm

/-! ## The end of the stream inside a value -/

/-- At the end of the stream the Number loop never leaves: `peek` is not a terminator and
`get` keeps appending `(char)-1`. -/
theorem parseNumberLoop_eof (n : Nat) : ∀ (value : string),
    Document.parseNumberLoop n value [] = .timeout := by
  induction n with
  | zero => intro value; rfl
  | succ n ih =>
    intro value
    rw [Document.parseNumberLoop]
    simp [peek, get, ih]

/-- At the end of the stream the String loop never leaves either. -/
theorem parseStringLoop_eof (n : Nat) : ∀ (value : string),
    Document.parseStringLoop n value [] = .timeout := by
  induction n with
  | zero => intro value; rfl
  | succ n ih =>
    intro value
    rw [Document.parseStringLoop]
    simp [peek, get, ih]

theorem parse_eof (n : Nat) : Document.parse n [] = .timeout := by
  cases n with
  | zero => rfl
  | succ n => simp [Document.parse, Document.clrWS, peek, Document.parseNumber, parseNumberLoop_eof]

theorem parse_one_timeout (fuel : Nat) : Document.parse fuel ['1'] = .timeout := by
  match fuel with
  | 0 => rfl
  | 1 => rfl
  | n + 2 =>
    simp [Document.parse, Document.clrWS, peek, Document.parseNumber, Document.parseNumberLoop,
      get, parseNumberLoop_eof]

theorem parseObjectLoop_eof (n f : Nat) (values : List (string × Value))
    (insertOrder : List string) :
    Document.parseObjectLoop (Document.parse n) f values insertOrder [] = .timeout := by
  cases f with
  | zero => rfl
  | succ f => simp [Document.parseObjectLoop, peek, parse_eof]

theorem parseArrayLoop_eof (n f : Nat) (values : List Value) :
    Document.parseArrayLoop (Document.parse n) f values [] = .timeout := by
  cases f with
  | zero => rfl
  | succ f => simp [Document.parseArrayLoop, peek, parse_eof]

theorem parseObjectLoop_isObject {p : istream → Result (Value × istream)} (n : Nat) :
    ∀ (values : List (string × Value)) (insertOrder : List string) (is : istream)
      (v : Value) (rest : istream),
    Document.parseObjectLoop p n values insertOrder is = .ok (v, rest) →
    ∃ vals order, v = .Object vals order := by
  induction n with
  | zero => intro values insertOrder is v rest h; simp [Document.parseObjectLoop] at h
  | succ n ih =>
    intro values insertOrder is v rest h
    rw [Document.parseObjectLoop] at h
    by_cases h1 : peek is ≠ some '}'
    · simp only [if_pos h1] at h
      split at h
      · split at h
        · exact ih _ _ _ _ _ h
        · simp at h
        · simp at h
      · simp at h
      · simp at h
      · simp at h
    · simp only [if_neg h1, Result.ok.injEq, Prod.mk.injEq] at h
      exact ⟨values, insertOrder, h.1.symm⟩

theorem parseArrayLoop_isArray {p : istream → Result (Value × istream)} (n : Nat) :
    ∀ (values : List Value) (is : istream) (v : Value) (rest : istream),
    Document.parseArrayLoop p n values is = .ok (v, rest) → ∃ vals, v = .Array vals := by
  induction n with
  | zero => intro values is v rest h; simp [Document.parseArrayLoop] at h
  | succ n ih =>
    intro values is v rest h
    rw [Document.parseArrayLoop] at h
    by_cases h1 : peek is ≠ some ']'
    · simp only [if_pos h1] at h
      split at h
      · exact ih _ _ _ _ h
      · simp at h
      · simp at h
    · simp only [if_neg h1, Result.ok.injEq, Prod.mk.injEq] at h
      exact ⟨values, h.1.symm⟩

theorem parseNumber_isNumber {n : Nat} {is : istream} {v : Value} {rest : istream}
    (h : Document.parseNumber n is = .ok (v, rest)) : ∃ s, v = .Number s := by
  unfold Document.parseNumber at h
  split at h
  · simp only [Result.ok.injEq, Prod.mk.injEq] at h
    exact ⟨_, h.1.symm⟩
  · simp at h
  · simp at h

/-- The parser returns Null for the literal only: on no input does a failure turn into
the Null value. -/
theorem parse_Null_only_literal (fuel : Nat) (is : istream) (rest : istream)
    (h : Document.parse fuel is = .ok (.Null, rest)) :
    peek (Document.clrWS is) = some 'n' := by
  cases fuel with
  | zero => simp [Document.parse] at h
  | succ n =>
    rw [Document.parse] at h
    cases hc : peek (Document.clrWS is) with
    | none =>
      rw [hc] at h
      obtain ⟨s, hs⟩ := parseNumber_isNumber h
      simp at hs
    | some c =>
      rw [hc] at h
      simp only at h
      by_cases c1 : c = '"'
      · simp only [if_pos c1] at h
        split at h <;> simp at h
      · simp only [if_neg c1] at h
        by_cases c2 : c = '{'
        · simp only [if_pos c2] at h
          obtain ⟨_, _, hv⟩ := parseObjectLoop_isObject n _ _ _ _ _ h
          simp at hv
        · simp only [if_neg c2] at h
          by_cases c3 : c = '['
          · simp only [if_pos c3] at h
            obtain ⟨_, hv⟩ := parseArrayLoop_isArray n _ _ _ _ h
            simp at hv
          · simp only [if_neg c3] at h
            by_cases c4 : c = 't'
            · simp [c4] at h
            · simp only [if_neg c4] at h
              by_cases c5 : c = 'f'
              · simp [c5] at h
              · simp only [if_neg c5] at h
                by_cases c6 : c = 'n'
                · rw [c6]
                · simp only [if_neg c6] at h
                  obtain ⟨s, hs⟩ := parseNumber_isNumber h
                  simp at hs

/-- A key position at which the recursive call returns a value that is no String makes
the Object loop dereference a null pointer. -/
theorem parseObjectLoop_key_not_String {p : istream → Result (Value × istream)}
    (fuel : Nat) (values : List (string × Value)) (insertOrder : List string)
    {is is1 : istream} {v : Value} (hpeek : peek is ≠ some '}')
    (hkey : p is = .ok (v, is1)) (hv : ∀ s, v ≠ .String s) :
    Document.parseObjectLoop p (fuel + 1) values insertOrder is = .undefined := by
  rw [Document.parseObjectLoop, if_pos hpeek, hkey]
  cases v with
  | String s => exact absurd rfl (hv s)
  | _ => rfl

theorem parse_key_not_String (fuel : Nat) :
    Document.parse (fuel + 6) "\x7b1:2\x7d".toList = .undefined := by
  have h1 : Document.parse 6 "\x7b1:2\x7d".toList = .undefined := rfl
  rw [parse_mono (Nat.le_add_left 6 fuel) (by rw [h1]; simp), h1]

theorem parse_key_not_String_never_ok (fuel : Nat) (r : Value × istream) :
    Document.parse fuel "\x7b1:2\x7d".toList ≠ .ok r := by
  intro h
  have h1 := parse_key_not_String 0
  have := parse_det (n := fuel) (m := 0 + 6) (by rw [h]; simp) (by rw [h1]; simp)
  rw [h, h1] at this
  exact absurd this (by simp)

/-- C8 (defect in the code): the parser is not total.  On the one-character input `1` it
never returns: the Number loop of json.cpp lines 124-125 stops only at a space, `,`, `}` or
`]`, and at the end of the stream `peek` yields none of them, so on every fuel the run is
cut off.  On `{1:2}` no run returns a document: the run ends in the dereference of a null
pointer. -/
theorem parse_not_total :
    (∀ fuel, parse fuel "1".toList = .timeout)
    ∧ (∀ fuel d rest, parse fuel "\x7b1:2\x7d".toList ≠ .ok (d, rest))
    ∧ ∀ fuel, parse (fuel + 6) "\x7b1:2\x7d".toList = .undefined := by
  refine ⟨?_, ?_, ?_⟩
  · intro fuel
    have h : "1".toList = ['1'] := rfl
    rw [h, parse, parse_one_timeout]
  · intro fuel d rest h
    unfold parse at h
    cases hp : Document.parse fuel "\x7b1:2\x7d".toList with
    | ok r => exact parse_key_not_String_never_ok fuel r hp
    | undefined => rw [hp] at h; simp at h
    | timeout => rw [hp] at h; simp at h
  · intro fuel
    rw [parse, parse_key_not_String]

theorem parse_unterminated_timeout (fuel : Nat) :
    Document.parse fuel "\x7b\"a\":1".toList = .timeout := by
  have hin : "\x7b\"a\":1".toList = ['{', '"', 'a', '"', ':', '1'] := rfl
  rw [hin]
  match fuel with
  | 0 => rfl
  | 1 => rfl
  | 2 => rfl
  | 3 => rfl
  | n + 4 =>
    have hkey : Document.parse (n + 3) ['"', 'a', '"', ':', '1']
        = .ok (.String ['a'], [':', '1']) := by
      have h3 : Document.parse 3 ['"', 'a', '"', ':', '1'] = .ok (.String ['a'], [':', '1']) :=
        rfl
      rw [parse_mono (Nat.le_add_left 3 n) (by rw [h3]; simp), h3]
    rw [Document.parse]
    simp only [Document.clrWS, peek, List.head?_cons, ignore, List.drop_succ_cons, List.drop_zero]
    simp only [Char.reduceEq, if_false, if_true, Char.isValue]
    rw [Document.parseObjectLoop]
    simp only [peek, List.head?_cons, ne_eq, Option.some.injEq, Char.reduceEq, not_false_eq_true,
      if_true, hkey]
    simp only [Document.clrWS, Char.reduceEq, if_false, ignore, List.drop_succ_cons,
      List.drop_zero, parse_one_timeout]

/-- C7 (defect in the code): on the unterminated object of the claim the parser never
returns: after the key `a` the Number loop meets the end of the stream and stays in it, so
no Null document and no diagnostic are produced.  In general each of the four loops, once
at the end of the stream, is cut off on every fuel, and the parser returns Null for the
literal only, never for a failure. -/
theorem parse_unterminated_object_diverges :
    (∀ fuel, Document.parse fuel "\x7b\"a\":1".toList = .timeout)
    ∧ (∀ fuel value, Document.parseStringLoop fuel value [] = .timeout)
    ∧ (∀ fuel value, Document.parseNumberLoop fuel value [] = .timeout)
    ∧ (∀ n fuel values insertOrder,
        Document.parseObjectLoop (Document.parse n) fuel values insertOrder [] = .timeout)
    ∧ (∀ n fuel values, Document.parseArrayLoop (Document.parse n) fuel values [] = .timeout)
    ∧ ∀ fuel is rest, Document.parse fuel is = .ok (.Null, rest) →
        peek (Document.clrWS is) = some 'n' :=
  ⟨parse_unterminated_timeout, parseStringLoop_eof, parseNumberLoop_eof, parseObjectLoop_eof,
    parseArrayLoop_eof, parse_Null_only_literal⟩

/-- C9 (defect in the code): a key that is not a String is dereferenced through the null
pointer `dynamic_cast` returned; nothing is thrown, so the parse does not collapse to Null.
Whatever value that is no String the recursive call returns at a key position, the Object
loop is undefined.  On `{1:2}` and on the nested `[{1:2}]` every run that ends has
undefined behaviour, and no run returns a document. -/
theorem parse_non_string_key_undefined :
    (∀ (p : istream → Result (Value × istream)) (fuel : Nat) (values : List (string × Value))
        (insertOrder : List string) (is is1 : istream) (v : Value),
      peek is ≠ some '}' → p is = .ok (v, is1) → (∀ s, v ≠ .String s) →
      Document.parseObjectLoop p (fuel + 1) values insertOrder is = .undefined)
    ∧ (∀ fuel, Document.parse (fuel + 6) "\x7b1:2\x7d".toList = .undefined)
    ∧ (∀ fuel, Document.parse (fuel + 7) "[\x7b1:2\x7d]".toList = .undefined)
    ∧ (∀ fuel r, Document.parse fuel "\x7b1:2\x7d".toList ≠ .ok r)
    ∧ (∀ fuel r, Document.parse fuel "[\x7b1:2\x7d]".toList ≠ .ok r) := by
  have h2 : Document.parse 7 "[\x7b1:2\x7d]".toList = .undefined := rfl
  have a2 : ∀ fuel, Document.parse (fuel + 7) "[\x7b1:2\x7d]".toList = .undefined :=
    fun fuel => by rw [parse_mono (Nat.le_add_left 7 fuel) (by rw [h2]; simp), h2]
  refine ⟨fun p fuel values insertOrder is is1 v h1 h2 h3 =>
    parseObjectLoop_key_not_String fuel values insertOrder h1 h2 h3,
    parse_key_not_String, a2, parse_key_not_String_never_ok, ?_⟩
  intro fuel r h
  have := parse_det (n := fuel) (m := 7) (by rw [h]; simp) (by rw [h2]; simp)
  rw [h, h2] at this
  exact absurd this (by simp)

/-! ## What the parser builds -/

theorem Value.all_mono {q r : Value → Bool} (h : ∀ v, q v = true → r v = true) :
    ∀ v, Value.all q v = true → Value.all r v = true := by
  apply Value.induct
  · intro s hq; simp only [Value.all] at hq ⊢; exact h _ hq
  · intro values insertOrder ih hq
    simp only [Value.all, Bool.and_eq_true, Value.allValues_iff] at hq ⊢
    exact ⟨h _ hq.1, fun k v hm => ih k v hm (hq.2 k v hm)⟩
  · intro values ih hq
    simp only [Value.all, Bool.and_eq_true, Value.allArray_iff] at hq ⊢
    exact ⟨h _ hq.1, fun v hm => ih v hm (hq.2 v hm)⟩
  · intro hq; simp only [Value.all] at hq ⊢; exact h _ hq
  · intro hq; simp only [Value.all] at hq ⊢; exact h _ hq
  · intro hq; simp only [Value.all] at hq ⊢; exact h _ hq
  · intro s hq; simp only [Value.all] at hq ⊢; exact h _ hq

theorem escaped_cons_other {c : Char} (b : string) (h1 : c ≠ '\\') (h2 : c ≠ '"') :
    escaped (c :: b) = escaped b := by
  cases b <;> simp [escaped, h1, h2]

theorem escaped_append : ∀ (a b : string), escaped a = true → escaped (a ++ b) = escaped b
  | [], b, _ => rfl
  | [c], b, h => by
    by_cases h1 : c = '\\'
    · simp [escaped, h1] at h
    · by_cases h2 : c = '"'
      · simp [escaped, h2] at h
      · exact escaped_cons_other b h1 h2
  | c :: d :: rest, b, h => by
    by_cases h1 : c = '\\'
    · simp only [escaped, h1, if_true] at h
      simp only [List.cons_append, escaped, h1, if_true]
      exact escaped_append rest b h
    · by_cases h2 : c = '"'
      · simp [escaped, h2] at h
      · rw [escaped_cons_other _ h1 h2] at h
        rw [List.cons_append, escaped_cons_other _ h1 h2]
        exact escaped_append (d :: rest) b h

theorem parseStringLoop_escaped (n : Nat) : ∀ (value : string) (is : istream) (s : string)
    (rest : istream), escaped value = true →
    Document.parseStringLoop n value is = .ok (s, rest) → escaped s = true := by
  induction n with
  | zero => intro value is s rest _ h; simp [Document.parseStringLoop] at h
  | succ n ih =>
    intro value is s rest hv h
    rw [Document.parseStringLoop] at h
    by_cases h1 : peek is ≠ some '"'
    · simp only [if_pos h1] at h
      by_cases h2 : peek is = some '\\'
      · simp only [if_pos h2] at h
        refine ih _ _ _ _ ?_ h
        rw [List.append_assoc, escaped_append _ _ hv]
        cases is with
        | nil => simp [peek] at h2
        | cons c cs =>
          simp only [peek, List.head?_cons, Option.some.injEq] at h2
          subst h2
          simp [get, escaped]
      · simp only [if_neg h2] at h
        refine ih _ _ _ _ ?_ h
        rw [escaped_append _ _ hv]
        cases is with
        | nil => simp [get, escaped]
        | cons c cs =>
          simp only [peek, List.head?_cons, ne_eq, Option.some.injEq] at h1 h2
          simp [get, escaped, h1, h2]
    · simp only [if_neg h1, Result.ok.injEq, Prod.mk.injEq] at h
      rw [← h.1]; exact hv

theorem parseNumberLoop_spec (n : Nat) : ∀ (value : string) (is : istream) (s : string)
    (rest : istream), Document.parseNumberLoop n value is = .ok (s, rest) →
    ∃ taken, s = value ++ taken ∧ is = taken ++ rest
      ∧ taken.all (fun c => !terminator c) = true
      ∧ ∃ c, peek rest = some c ∧ terminator c = true := by
  induction n with
  | zero => intro value is s rest h; simp [Document.parseNumberLoop] at h
  | succ n ih =>
    intro value is s rest h
    rw [Document.parseNumberLoop] at h
    cases is with
    | nil =>
      simp only [peek, List.head?_nil, not_or, not_false_eq_true, and_self, if_true, get,
        parseNumberLoop_eof] at h
      simp at h
    | cons c cs =>
      by_cases hc : terminator c = true
      · have : (peek (c :: cs) = some ' ' ∨ peek (c :: cs) = some ',' ∨ peek (c :: cs) = some '}'
            ∨ peek (c :: cs) = some ']') := by
          simpa [terminator, peek, or_assoc, and_assoc] using hc
        simp only [this, not_true_eq_false, if_false, Result.ok.injEq, Prod.mk.injEq] at h
        refine ⟨[], ?_, ?_, rfl, c, ?_, hc⟩
        · simp [h.1]
        · simp [h.2]
        · rw [← h.2]; rfl
      · have : ¬ (peek (c :: cs) = some ' ' ∨ peek (c :: cs) = some ',' ∨ peek (c :: cs) = some '}'
            ∨ peek (c :: cs) = some ']') := by
          simpa [terminator, peek, or_assoc, and_assoc] using hc
        simp only [this, not_false_eq_true, if_true, get] at h
        obtain ⟨taken, h1, h2, h3, h4⟩ := ih _ _ _ _ h
        refine ⟨c :: taken, ?_, ?_, ?_, h4⟩
        · simp [h1]
        · simp [h2]
        · simp only [List.all_cons, h3, Bool.and_true]
          simpa using hc

theorem mem_mapSet {α : Type} {m : List (string × α)} {key k : string} {val v : α}
    (h : (k, v) ∈ mapSet m key val) : (k = key ∧ v = val) ∨ (k, v) ∈ m := by
  induction m with
  | nil =>
    simp only [mapSet, List.mem_singleton, Prod.mk.injEq] at h
    exact Or.inl h
  | cons e rest ih =>
    obtain ⟨k0, v0⟩ := e
    simp only [mapSet] at h
    split at h
    · simp only [List.mem_cons, Prod.mk.injEq] at h ⊢
      tauto
    · split at h
      · simp only [List.mem_cons, Prod.mk.injEq] at h ⊢
        tauto
      · simp only [List.mem_cons, Prod.mk.injEq] at h ⊢
        rcases h with h | h
        · tauto
        · rcases ih h with h | h
          · exact Or.inl h
          · exact Or.inr (Or.inr h)

theorem consistent_Object_iff (values : List (string × Value)) (insertOrder : List string) :
    Value.consistent (.Object values insertOrder) = true ↔
      insertOrder.Nodup ∧ ∀ k, k ∈ insertOrder ↔ k ∈ mapKeys values := by
  simp only [Value.consistent, Bool.and_eq_true, decide_eq_true_eq, List.all_eq_true]
  constructor
  · rintro ⟨⟨h1, h2⟩, h3⟩
    exact ⟨h1, fun k => ⟨h2 k, h3 k⟩⟩
  · rintro ⟨h1, h2⟩
    exact ⟨⟨h1, fun k hk => (h2 k).mp hk⟩, fun k hk => (h2 k).mpr hk⟩

theorem built_Object_iff (values : List (string × Value)) (insertOrder : List string) :
    Value.built (.Object values insertOrder) = true ↔
      keysSorted (mapKeys values) = true ∧ insertOrder.Nodup
      ∧ (∀ k, k ∈ insertOrder ↔ k ∈ mapKeys values)
      ∧ ∀ k ∈ insertOrder, escaped k = true := by
  simp only [Value.built, Bool.and_eq_true, consistent_Object_iff, Value.sorted, Value.readable,
    List.all_eq_true]
  tauto

theorem all_Object_iff (q : Value → Bool) (values : List (string × Value))
    (insertOrder : List string) :
    Value.all q (.Object values insertOrder) = true ↔
      q (.Object values insertOrder) = true ∧ ∀ k v, (k, v) ∈ values → Value.all q v = true := by
  simp only [Value.all, Bool.and_eq_true, Value.allValues_iff]

theorem all_Array_iff (q : Value → Bool) (values : List Value) :
    Value.all q (.Array values) = true ↔
      q (.Array values) = true ∧ ∀ v ∈ values, Value.all q v = true := by
  simp only [Value.all, Bool.and_eq_true, Value.allArray_iff]

/-- The store of a pair keeps the order list free of repetitions and equal, as a set, to
the keys of the map. -/
theorem insertEntry_consistent {values : List (string × Value)} {insertOrder : List string}
    (key : string) (val : Value)
    (h : insertOrder.Nodup ∧ ∀ k, k ∈ insertOrder ↔ k ∈ mapKeys values) :
    (Document.insertEntry values insertOrder key val).2.Nodup
      ∧ ∀ k, k ∈ (Document.insertEntry values insertOrder key val).2
          ↔ k ∈ mapKeys (Document.insertEntry values insertOrder key val).1 := by
  obtain ⟨hnd, hk⟩ := h
  simp only [Document.insertEntry]
  constructor
  · rw [List.nodup_append]
    refine ⟨hnd.erase key, List.nodup_singleton key, ?_⟩
    intro a ha hb
    simp only [List.mem_singleton] at hb
    subst hb
    exact (hnd.not_mem_erase) ha
  · intro k
    rw [mem_mapKeys_mapSet, List.mem_append, List.mem_singleton, hnd.mem_erase_iff, ← hk]
    by_cases e : k = key
    · simp [e]
    · simp [e]

theorem insertEntry_all_built {values : List (string × Value)} {insertOrder : List string}
    {key : string} {val : Value}
    (h : Value.all Value.built (.Object values insertOrder) = true)
    (hkey : escaped key = true) (hval : Value.all Value.built val = true) :
    Value.all Value.built (.Object (Document.insertEntry values insertOrder key val).1
      (Document.insertEntry values insertOrder key val).2) = true := by
  rw [all_Object_iff, built_Object_iff] at h ⊢
  obtain ⟨⟨hs, hnd, hk, he⟩, hv⟩ := h
  have hc := insertEntry_consistent key val ⟨hnd, hk⟩
  refine ⟨⟨?_, hc.1, hc.2, ?_⟩, ?_⟩
  · exact keysSorted_mapSet _ _ _ hs
  · intro k hk2
    simp only [Document.insertEntry, List.mem_append, List.mem_singleton] at hk2
    rcases hk2 with hk2 | hk2
    · exact he k (List.mem_of_mem_erase hk2)
    · rw [hk2]; exact hkey
  · intro k v hm
    rcases mem_mapSet hm with ⟨_, rfl⟩ | hm
    · exact hval
    · exact hv k v hm

theorem parseObjectLoop_built {p : istream → Result (Value × istream)}
    (hp : ∀ is v rest, p is = .ok (v, rest) → Value.all Value.built v = true) (n : Nat) :
    ∀ (values : List (string × Value)) (insertOrder : List string) (is : istream)
      (v : Value) (rest : istream),
    Value.all Value.built (.Object values insertOrder) = true →
    Document.parseObjectLoop p n values insertOrder is = .ok (v, rest) →
    Value.all Value.built v = true := by
  induction n with
  | zero => intro values insertOrder is v rest _ h; simp [Document.parseObjectLoop] at h
  | succ n ih =>
    intro values insertOrder is v rest hst h
    rw [Document.parseObjectLoop] at h
    by_cases h1 : peek is ≠ some '}'
    · simp only [if_pos h1] at h
      cases hk : p is with
      | timeout => rw [hk] at h; simp at h
      | undefined => rw [hk] at h; simp at h
      | ok a =>
        rw [hk] at h
        obtain ⟨kv, is1⟩ := a
        cases kv with
        | String key =>
          simp only at h
          cases hv : p (Document.clrWS (ignore (Document.clrWS is1) 1)) with
          | timeout => rw [hv] at h; simp at h
          | undefined => rw [hv] at h; simp at h
          | ok b =>
            rw [hv] at h
            obtain ⟨val, is2⟩ := b
            simp only at h
            have hkey : escaped key = true := by
              have := hp _ _ _ hk
              simpa [Value.all, Value.built, Value.sorted, Value.consistent, Value.readable]
                using this
            exact ih _ _ _ _ _ (insertEntry_all_built hst hkey (hp _ _ _ hv)) h
        | _ => simp at h
    · simp only [if_neg h1, Result.ok.injEq, Prod.mk.injEq] at h
      rw [← h.1]; exact hst

theorem parseArrayLoop_built {p : istream → Result (Value × istream)}
    (hp : ∀ is v rest, p is = .ok (v, rest) → Value.all Value.built v = true) (n : Nat) :
    ∀ (values : List Value) (is : istream) (v : Value) (rest : istream),
    (∀ e ∈ values, Value.all Value.built e = true) →
    Document.parseArrayLoop p n values is = .ok (v, rest) →
    Value.all Value.built v = true := by
  induction n with
  | zero => intro values is v rest _ h; simp [Document.parseArrayLoop] at h
  | succ n ih =>
    intro values is v rest hst h
    rw [Document.parseArrayLoop] at h
    by_cases h1 : peek is ≠ some ']'
    · simp only [if_pos h1] at h
      cases hk : p is with
      | timeout => rw [hk] at h; simp at h
      | undefined => rw [hk] at h; simp at h
      | ok a =>
        rw [hk] at h
        obtain ⟨val, is1⟩ := a
        simp only at h
        refine ih _ _ _ _ ?_ h
        intro e he
        simp only [List.mem_append, List.mem_singleton] at he
        rcases he with he | he
        · exact hst e he
        · rw [he]; exact hp _ _ _ hk
    · simp only [if_neg h1, Result.ok.injEq, Prod.mk.injEq] at h
      rw [← h.1, all_Array_iff]
      exact ⟨rfl, hst⟩

theorem parseNumber_built {n : Nat} {is : istream} {v : Value} {rest : istream}
    (hc : ∀ c, peek is = some c → opener c = false)
    (h : Document.parseNumber n is = .ok (v, rest)) : Value.all Value.built v = true := by
  unfold Document.parseNumber at h
  cases hl : Document.parseNumberLoop n [] is with
  | timeout => rw [hl] at h; simp at h
  | undefined => rw [hl] at h; simp at h
  | ok a =>
    rw [hl] at h
    obtain ⟨s, is1⟩ := a
    simp only [Result.ok.injEq, Prod.mk.injEq] at h
    obtain ⟨taken, h1, h2, h3, _⟩ := parseNumberLoop_spec _ _ _ _ _ hl
    simp only [List.nil_append] at h1
    subst h1
    rw [← h.1]
    simp only [Value.all, Value.built, Value.sorted, Value.consistent, Value.readable,
      Bool.true_and, numberText, Bool.and_eq_true]
    refine ⟨h3, ?_⟩
    cases s with
    | nil => rfl
    | cons c cs =>
      have := hc c (by rw [h2]; rfl)
      simp [this]

/-- Every node of a tree the parser returns is built: maps in order, Objects consistent,
texts readable. -/
theorem parse_built (n : Nat) : ∀ (is : istream) (v : Value) (rest : istream),
    Document.parse n is = .ok (v, rest) → Value.all Value.built v = true := by
  induction n with
  | zero => intro is v rest h; simp [Document.parse] at h
  | succ n ih =>
    intro is v rest h
    rw [Document.parse] at h
    cases hc : peek (Document.clrWS is) with
    | none =>
      rw [hc] at h
      simp only at h
      exact parseNumber_built (by intro c e; rw [hc] at e; simp at e) h
    | some c =>
      rw [hc] at h
      simp only at h
      by_cases c1 : c = '"'
      · simp only [if_pos c1] at h
        cases hl : Document.parseStringLoop n [] (ignore (Document.clrWS is) 1) with
        | timeout => rw [hl] at h; simp at h
        | undefined => rw [hl] at h; simp at h
        | ok a =>
          rw [hl] at h
          obtain ⟨s, is1⟩ := a
          simp only [Result.ok.injEq, Prod.mk.injEq] at h
          rw [← h.1]
          have := parseStringLoop_escaped n [] _ _ _ rfl hl
          simpa [Value.all, Value.built, Value.sorted, Value.consistent, Value.readable]
            using this
      · simp only [if_neg c1] at h
        by_cases c2 : c = '{'
        · simp only [if_pos c2] at h
          exact parseObjectLoop_built ih n [] [] _ _ _ rfl h
        · simp only [if_neg c2] at h
          by_cases c3 : c = '['
          · simp only [if_pos c3] at h
            exact parseArrayLoop_built ih n [] _ _ _ (by simp) h
          · simp only [if_neg c3] at h
            by_cases c4 : c = 't'
            · simp only [if_pos c4, Result.ok.injEq, Prod.mk.injEq] at h
              rw [← h.1]; rfl
            · simp only [if_neg c4] at h
              by_cases c5 : c = 'f'
              · simp only [if_pos c5, Result.ok.injEq, Prod.mk.injEq] at h
                rw [← h.1]; rfl
              · simp only [if_neg c5] at h
                by_cases c6 : c = 'n'
                · simp only [if_pos c6, Result.ok.injEq, Prod.mk.injEq] at h
                  rw [← h.1]; rfl
                · simp only [if_neg c6] at h
                  refine parseNumber_built ?_ h
                  intro d hd
                  rw [hc] at hd
                  simp only [Option.some.injEq] at hd
                  subst hd
                  simp [opener, c1, c2, c3, c4, c5, c6]

/-! ## A map filled from a list of entries -/

theorem mapSetAll_cons {α : Type} (m : List (string × α)) (e : string × α)
    (es : List (string × α)) : mapSetAll m (e :: es) = mapSetAll (mapSet m e.1 e.2) es := rfl

theorem mapSetAll_append {α : Type} (m : List (string × α)) (es fs : List (string × α)) :
    mapSetAll m (es ++ fs) = mapSetAll (mapSetAll m es) fs := by
  simp only [mapSetAll, List.foldl_append]

theorem keysSorted_mapSetAll {α : Type} (es : List (string × α)) :
    ∀ (m : List (string × α)), keysSorted (mapKeys m) = true →
      keysSorted (mapKeys (mapSetAll m es)) = true := by
  induction es with
  | nil => intro m h; exact h
  | cons e es ih => intro m h; exact ih _ (keysSorted_mapSet m e.1 e.2 h)

theorem mem_mapKeys_mapSetAll {α : Type} (es : List (string × α)) :
    ∀ (m : List (string × α)) (k : string),
      k ∈ mapKeys (mapSetAll m es) ↔ k ∈ mapKeys m ∨ k ∈ mapKeys es := by
  induction es with
  | nil => intro m k; simp only [mapSetAll, List.foldl_nil, mapKeys, List.map_nil,
      List.not_mem_nil, or_false]
  | cons e es ih =>
    intro m k
    rw [mapSetAll_cons, ih, mem_mapKeys_mapSet]
    simp only [mapKeys, List.map_cons, List.mem_cons]
    tauto

theorem mem_mapSetAll {α : Type} (es : List (string × α)) :
    ∀ (m : List (string × α)) (k : string) (v : α),
      (k, v) ∈ mapSetAll m es → (k, v) ∈ m ∨ (k, v) ∈ es := by
  induction es with
  | nil => intro m k v h; exact Or.inl h
  | cons e es ih =>
    intro m k v h
    rw [mapSetAll_cons] at h
    rcases ih _ _ _ h with h | h
    · rcases mem_mapSet h with ⟨h1, h2⟩ | h
      · right; rw [h1, h2]; exact List.mem_cons_self _ _
      · exact Or.inl h
    · exact Or.inr (List.mem_cons_of_mem _ h)

/-- With no key twice among the entries, the filled map answers with the entry of a key,
and with the old map for any other key. -/
theorem mapGet_mapSetAll {α : Type} (es : List (string × α)) :
    ∀ (m : List (string × α)) (k : string), (mapKeys es).Nodup →
      mapGet (mapSetAll m es) k = (mapGet es k).orElse (fun _ => mapGet m k) := by
  induction es with
  | nil => intro m k _; rfl
  | cons e es ih =>
    intro m k hnd
    obtain ⟨k0, v0⟩ := e
    simp only [mapKeys, List.map_cons, List.nodup_cons] at hnd
    rw [mapSetAll_cons, ih _ _ hnd.2]
    by_cases hk : k = k0
    · subst hk
      have : mapGet es k = none := (mapGet_eq_none_iff es k).mpr hnd.1
      rw [this]
      simp only [Option.orElse, mapGet, if_true, mapGet_mapSet_self]
    · simp only [mapGet, hk, if_false, mapGet_mapSet_other m v0 hk]

/-! ## Filter -/

theorem mapGet_map {α β : Type} (f : α → β) (m : List (string × α)) (k : string) :
    mapGet (m.map fun kv => (kv.1, f kv.2)) k = (mapGet m k).map f := by
  induction m with
  | nil => rfl
  | cons e rest ih =>
    obtain ⟨k0, v0⟩ := e
    simp only [List.map_cons, mapGet]
    by_cases h : k = k0
    · simp only [h, if_true, Option.map_some']
    · simp only [h, if_false, ih]

theorem Filter_visitValues_eq (args : List string) (values : List (string × Value)) :
    Document.Filter.visitValues args values
      = values.map fun kv => (kv.1, Document.Filter.visit args kv.2) := by
  induction values with
  | nil => rfl
  | cons e rest ih =>
    obtain ⟨k0, v0⟩ := e
    simp only [Document.Filter.visitValues, ih, List.map_cons]

theorem Filter_found_eq {args : List string} {v : Value} {r : Option Value}
    (h : Document.Filter.visit args v = .ok r) : Document.Filter.found args v = r := by
  simp only [Document.Filter.found, h]

theorem Filter_entries_cons (args : List string) (values : List (string × Value))
    (k : string) (keys : List string) :
    Document.Filter.entries args values (k :: keys)
      = (match mapGet values k with
          | none => none
          | some v =>
            if k ∈ args then some (k, v)
            else (Document.Filter.found args v).map fun r => (k, r)).toList
        ++ Document.Filter.entries args values keys := by
  simp only [Document.Filter.entries, List.filterMap_cons]
  split <;> simp_all

/-- The loop of Filter::visit(Object*) stores exactly the entries of the description. -/
theorem Filter_objectLoop_eq (args : List string) (values : List (string × Value))
    (keys : List string) :
    (∀ k ∈ keys, ∃ v r, mapGet values k = some v ∧ Document.Filter.visit args v = .ok r) →
    ∀ (newValues : List (string × Value)) (newOrder : List string),
    Document.Filter.objectLoop args values (Document.Filter.visitValues args values)
        newValues newOrder keys
      = .ok (mapSetAll newValues (Document.Filter.entries args values keys),
          newOrder ++ mapKeys (Document.Filter.entries args values keys)) := by
  induction keys with
  | nil =>
    intro _ newValues newOrder
    simp [Document.Filter.objectLoop, Document.Filter.entries, mapSetAll, mapKeys]
  | cons k keys ih =>
    intro hdef newValues newOrder
    obtain ⟨v, r, hv, hr⟩ := hdef k (List.mem_cons_self _ _)
    have ih' := ih (fun k2 hk2 => hdef k2 (List.mem_cons_of_mem _ hk2))
    have hsub : mapGet (Document.Filter.visitValues args values) k = some (.ok r) := by
      rw [Filter_visitValues_eq, mapGet_map, hv, Option.map_some', hr]
    rw [Document.Filter.objectLoop, Filter_entries_cons, hsub, hv]
    simp only [Filter_found_eq hr]
    by_cases hk : k ∈ args
    · simp only [if_pos hk, ih', Option.toList_some, List.singleton_append, mapSetAll_cons,
        mapKeys, List.map_cons, List.append_assoc]
    · simp only [if_neg hk]
      cases r with
      | none =>
        simp only [ih', Option.map_none', Option.toList_none, List.nil_append]
      | some found =>
        simp only [ih', Option.map_some', Option.toList_some, List.singleton_append,
          mapSetAll_cons, mapKeys, List.map_cons, List.append_assoc]

theorem Filter_visitArray_eq (args : List string) (values : List Value)
    (hdef : ∀ e ∈ values, ∃ r, Document.Filter.visit args e = .ok r) :
    Document.Filter.visitArray args values = .ok (Document.Filter.survivors args values) := by
  induction values with
  | nil => rfl
  | cons e rest ih =>
    obtain ⟨r, hr⟩ := hdef e (List.mem_cons_self _ _)
    have ih' := ih (fun e2 he2 => hdef e2 (List.mem_cons_of_mem _ he2))
    rw [Document.Filter.visitArray, hr, ih']
    simp only [Document.Filter.survivors, List.filterMap_cons, Filter_found_eq hr]
    cases r <;> simp

theorem mapGet_of_mem_insertOrder {values : List (string × Value)} {insertOrder : List string}
    (h : Value.consistent (.Object values insertOrder) = true) {k : string}
    (hk : k ∈ insertOrder) : ∃ v, mapGet values k = some v ∧ (k, v) ∈ values := by
  rw [consistent_Object_iff] at h
  have := (mapGet_isSome_iff values k).mpr ((h.2 k).mp hk)
  cases hg : mapGet values k with
  | none => rw [hg] at this; simp at this
  | some v => exact ⟨v, rfl, mem_of_mapGet hg⟩

/-- On a tree whose Objects are consistent the Filter runs to its end. -/
theorem Filter_visit_defined (args : List string) :
    ∀ v, Value.all Value.consistent v = true → ∃ r, Document.Filter.visit args v = .ok r := by
  apply Value.induct
  · intro s _; exact ⟨none, rfl⟩
  · intro values insertOrder ih h
    rw [all_Object_iff] at h
    have hdef : ∀ k ∈ insertOrder, ∃ v r, mapGet values k = some v
        ∧ Document.Filter.visit args v = .ok r := by
      intro k hk
      obtain ⟨v, hv, hm⟩ := mapGet_of_mem_insertOrder h.1 hk
      obtain ⟨r, hr⟩ := ih k v hm (h.2 k v hm)
      exact ⟨v, r, hv, hr⟩
    rw [Document.Filter.visit, Filter_objectLoop_eq args values insertOrder hdef]
    simp only
    split <;> exact ⟨_, rfl⟩
  · intro values ih h
    rw [all_Array_iff] at h
    have hdef : ∀ e ∈ values, ∃ r, Document.Filter.visit args e = .ok r :=
      fun e he => ih e he (h.2 e he)
    rw [Document.Filter.visit, Filter_visitArray_eq args values hdef]
    simp only
    split <;> exact ⟨_, rfl⟩
  · intro _; exact ⟨none, rfl⟩
  · intro _; exact ⟨none, rfl⟩
  · intro _; exact ⟨none, rfl⟩
  · intro s _; exact ⟨none, rfl⟩

theorem Filter_visit_Object (args : List string) {values : List (string × Value)}
    {insertOrder : List string}
    (h : Value.all Value.consistent (.Object values insertOrder) = true) :
    Document.Filter.visit args (.Object values insertOrder)
      = .ok (if (Document.Filter.entries args values insertOrder).isEmpty then none
          else some (.Object (mapSetAll [] (Document.Filter.entries args values insertOrder))
            (mapKeys (Document.Filter.entries args values insertOrder)))) := by
  rw [all_Object_iff] at h
  have hdef : ∀ k ∈ insertOrder, ∃ v r, mapGet values k = some v
      ∧ Document.Filter.visit args v = .ok r := by
    intro k hk
    obtain ⟨v, hv, hm⟩ := mapGet_of_mem_insertOrder h.1 hk
    obtain ⟨r, hr⟩ := Filter_visit_defined args v (h.2 k v hm)
    exact ⟨v, r, hv, hr⟩
  rw [Document.Filter.visit, Filter_objectLoop_eq args values insertOrder hdef]
  simp only [List.nil_append, mapKeys, List.isEmpty_eq_true, List.map_eq_nil_iff]
  split <;> simp_all

theorem Filter_visit_Array (args : List string) {values : List Value}
    (h : Value.all Value.consistent (.Array values) = true) :
    Document.Filter.visit args (.Array values)
      = .ok (if (Document.Filter.survivors args values).isEmpty then none
          else some (.Array (Document.Filter.survivors args values))) := by
  rw [all_Array_iff] at h
  have hdef : ∀ e ∈ values, ∃ r, Document.Filter.visit args e = .ok r :=
    fun e he => Filter_visit_defined args e (h.2 e he)
  rw [Document.Filter.visit, Filter_visitArray_eq args values hdef]
  simp only
  split <;> simp_all

/-! ## Duplicator -/

theorem entriesOf_cons {α : Type} (values : List (string × α)) (k : string)
    (keys : List string) {v : α} (h : mapGet values k = some v) :
    entriesOf values (k :: keys) = (k, v) :: entriesOf values keys := by
  simp only [entriesOf, List.filterMap_cons, h, Option.map_some']

theorem mapKeys_entriesOf {α : Type} (values : List (string × α)) (keys : List string)
    (h : ∀ k ∈ keys, k ∈ mapKeys values) : mapKeys (entriesOf values keys) = keys := by
  induction keys with
  | nil => rfl
  | cons k keys ih =>
    have hk := (mapGet_isSome_iff values k).mpr (h k (List.mem_cons_self _ _))
    cases hg : mapGet values k with
    | none => rw [hg] at hk; exact absurd hk (by simp)
    | some v =>
      rw [entriesOf_cons values k keys hg]
      simp only [mapKeys, List.map_cons, List.cons.injEq, true_and]
      exact ih (fun k2 hk2 => h k2 (List.mem_cons_of_mem _ hk2))

theorem mapGet_entriesOf {α : Type} (values : List (string × α)) (keys : List string)
    (h : ∀ k ∈ keys, k ∈ mapKeys values) (k : string) :
    mapGet (entriesOf values keys) k = if k ∈ keys then mapGet values k else none := by
  induction keys with
  | nil => rfl
  | cons k0 keys ih =>
    have hk := (mapGet_isSome_iff values k0).mpr (h k0 (List.mem_cons_self _ _))
    have ih' := ih (fun k2 hk2 => h k2 (List.mem_cons_of_mem _ hk2))
    cases hg : mapGet values k0 with
    | none => rw [hg] at hk; exact absurd hk (by simp)
    | some v =>
      rw [entriesOf_cons values k0 keys hg]
      simp only [mapGet, List.mem_cons]
      by_cases e : k = k0
      · subst e
        simp only [if_true, true_or, hg]
      · simp only [e, if_false, false_or, ih']

/-- Storing the entries of a consistent Object, in insertion order, into an empty map
gives its map back. -/
theorem mapSetAll_entriesOf {α : Type} {values : List (string × α)} {insertOrder : List string}
    (hs : keysSorted (mapKeys values) = true) (hnd : insertOrder.Nodup)
    (hk : ∀ k, k ∈ insertOrder ↔ k ∈ mapKeys values) :
    mapSetAll [] (entriesOf values insertOrder) = values := by
  have hsub : ∀ k ∈ insertOrder, k ∈ mapKeys values := fun k h => (hk k).mp h
  apply map_ext _ _ (keysSorted_mapSetAll _ [] rfl) hs
  intro k
  rw [mapGet_mapSetAll _ _ _ (by rw [mapKeys_entriesOf values insertOrder hsub]; exact hnd),
    mapGet_entriesOf values insertOrder hsub]
  by_cases e : k ∈ insertOrder
  · simp only [e, if_true]
    cases mapGet values k <;> rfl
  · simp only [e, if_false, Option.orElse, mapGet]
    exact ((mapGet_eq_none_iff values k).mpr (fun h => e ((hk k).mpr h))).symm

theorem Duplicator_visitValues_eq (values : List (string × Value)) :
    Document.Duplicator.visitValues values
      = values.map fun kv => (kv.1, Document.Duplicator.visit kv.2) := by
  induction values with
  | nil => rfl
  | cons e rest ih =>
    obtain ⟨k0, v0⟩ := e
    simp only [Document.Duplicator.visitValues, ih, List.map_cons]

theorem Duplicator_objectLoop_eq (values : List (string × Value)) (keys : List string) :
    (∀ k ∈ keys, ∃ v, mapGet values k = some v ∧ Document.Duplicator.visit v = .ok v) →
    ∀ (newValues : List (string × Value)) (newOrder : List string),
    Document.Duplicator.objectLoop (Document.Duplicator.visitValues values)
        newValues newOrder keys
      = .ok (mapSetAll newValues (entriesOf values keys), newOrder ++ keys) := by
  induction keys with
  | nil =>
    intro _ newValues newOrder
    simp [Document.Duplicator.objectLoop, entriesOf, mapSetAll]
  | cons k keys ih =>
    intro hdef newValues newOrder
    obtain ⟨v, hv, hr⟩ := hdef k (List.mem_cons_self _ _)
    have ih' := ih (fun k2 hk2 => hdef k2 (List.mem_cons_of_mem _ hk2))
    have hsub : mapGet (Document.Duplicator.visitValues values) k = some (.ok v) := by
      rw [Duplicator_visitValues_eq, mapGet_map, hv, Option.map_some', hr]
    rw [Document.Duplicator.objectLoop, hsub]
    simp only [ih', entriesOf_cons values k keys hv, mapSetAll_cons, List.append_assoc,
      List.singleton_append]

theorem Duplicator_visitArray_eq (values : List Value)
    (h : ∀ e ∈ values, Document.Duplicator.visit e = .ok e) :
    Document.Duplicator.visitArray values = .ok values := by
  induction values with
  | nil => rfl
  | cons e rest ih =>
    rw [Document.Duplicator.visitArray, h e (List.mem_cons_self _ _),
      ih (fun e2 he2 => h e2 (List.mem_cons_of_mem _ he2))]

theorem wellFormed_Object_iff (values : List (string × Value)) (insertOrder : List string) :
    Value.wellFormed (.Object values insertOrder) = true ↔
      (keysSorted (mapKeys values) = true ∧ insertOrder.Nodup
        ∧ ∀ k, k ∈ insertOrder ↔ k ∈ mapKeys values)
      ∧ ∀ k v, (k, v) ∈ values → Value.wellFormed v = true := by
  simp only [Value.wellFormed, all_Object_iff, Bool.and_eq_true, consistent_Object_iff,
    Value.sorted]

theorem wellFormed_Array_iff (values : List Value) :
    Value.wellFormed (.Array values) = true ↔ ∀ v ∈ values, Value.wellFormed v = true := by
  simp only [Value.wellFormed, all_Array_iff, Bool.and_eq_true, Value.sorted, Value.consistent,
    and_self, true_and]

theorem wellFormed_consistent {v : Value} (h : Value.wellFormed v = true) :
    Value.all Value.consistent v = true :=
  Value.all_mono (fun n hn => by simp only [Bool.and_eq_true] at hn; exact hn.2) v h

/-- The Duplicator returns a tree equal to the one it visits. -/
theorem Duplicator_visit_eq : ∀ v, Value.wellFormed v = true →
    Document.Duplicator.visit v = .ok v := by
  apply Value.induct
  · intro s _; rfl
  · intro values insertOrder ih h
    have hc := wellFormed_consistent h
    rw [all_Object_iff] at hc
    rw [wellFormed_Object_iff] at h
    obtain ⟨⟨hs, hnd, hk⟩, hv⟩ := h
    have hdef : ∀ k ∈ insertOrder, ∃ v, mapGet values k = some v
        ∧ Document.Duplicator.visit v = .ok v := by
      intro k hk2
      obtain ⟨v, hg, hm⟩ := mapGet_of_mem_insertOrder hc.1 hk2
      exact ⟨v, hg, ih k v hm (hv k v hm)⟩
    rw [Document.Duplicator.visit, Duplicator_objectLoop_eq values insertOrder hdef]
    simp only [List.nil_append, mapSetAll_entriesOf hs hnd hk]
  · intro values ih h
    rw [wellFormed_Array_iff] at h
    rw [Document.Duplicator.visit, Duplicator_visitArray_eq values (fun e he => ih e he (h e he))]
  · intro _; rfl
  · intro _; rfl
  · intro _; rfl
  · intro s _; rfl

theorem mapGet_of_mem {α : Type} {m : List (string × α)} (hs : keysSorted (mapKeys m) = true)
    {k : string} {v : α} (h : (k, v) ∈ m) : mapGet m k = some v := by
  induction m with
  | nil => simp at h
  | cons e rest ih =>
    obtain ⟨k0, v0⟩ := e
    simp only [mapKeys, List.map_cons, keysSorted_cons] at hs
    simp only [List.mem_cons, Prod.mk.injEq] at h
    rcases h with ⟨h1, h2⟩ | h
    · simp only [mapGet, h1, h2, if_true]
    · have hne : k ≠ k0 := by
        intro e
        have hk : k ∈ mapKeys rest := by
          simp only [mapKeys, List.mem_map]
          exact ⟨(k, v), h, rfl⟩
        have := hs.1 k hk
        rw [e, strLt_irrefl] at this
        exact absurd this (by simp)
      simp only [mapGet, hne, if_false]
      exact ih hs.2 h

theorem Filter_found_some {args : List string} {v r : Value}
    (h : Document.Filter.found args v = some r) : Document.Filter.visit args v = .ok (some r) := by
  unfold Document.Filter.found at h
  cases hv : Document.Filter.visit args v with
  | ok res => rw [hv] at h; simp only at h; rw [h]
  | undefined => rw [hv] at h; simp at h
  | timeout => rw [hv] at h; simp at h

theorem Filter_mapKeys_entries_sublist (args : List string) (values : List (string × Value))
    (keys : List string) : (mapKeys (Document.Filter.entries args values keys)).Sublist keys := by
  induction keys with
  | nil => simp [Document.Filter.entries, mapKeys]
  | cons k keys ih =>
    rw [Filter_entries_cons]
    cases hg : mapGet values k with
    | none => simpa [mapKeys] using List.Sublist.cons k ih
    | some v =>
      simp only
      by_cases hk : k ∈ args
      · simpa [mapKeys, hk] using List.Sublist.cons₂ k ih
      · simp only [if_neg hk]
        cases Document.Filter.found args v with
        | none => simpa [mapKeys] using List.Sublist.cons k ih
        | some r => simpa [mapKeys] using List.Sublist.cons₂ k ih

theorem Filter_mem_entries {args : List string} {values : List (string × Value)}
    {keys : List string} {k : string} {r : Value}
    (h : (k, r) ∈ Document.Filter.entries args values keys) :
    ∃ v, mapGet values k = some v ∧ k ∈ keys
      ∧ ((k ∈ args ∧ r = v) ∨ (k ∉ args ∧ Document.Filter.found args v = some r)) := by
  simp only [Document.Filter.entries, List.mem_filterMap] at h
  obtain ⟨k2, hk2, hf⟩ := h
  cases hg : mapGet values k2 with
  | none => rw [hg] at hf; simp at hf
  | some v =>
    rw [hg] at hf
    simp only at hf
    by_cases ha : k2 ∈ args
    · simp only [if_pos ha, Option.some.injEq, Prod.mk.injEq] at hf
      obtain ⟨e1, e2⟩ := hf
      subst e1
      exact ⟨v, hg, hk2, Or.inl ⟨ha, e2.symm⟩⟩
    · simp only [if_neg ha, Option.map_eq_some', Prod.mk.injEq] at hf
      obtain ⟨r2, hr2, e1, e2⟩ := hf
      subst e1
      subst e2
      exact ⟨v, hg, hk2, Or.inr ⟨ha, hr2⟩⟩

/-- What the Filter leaves in `result` for a well-formed tree is well-formed. -/
theorem Filter_visit_wellFormed (args : List string) : ∀ v, Value.wellFormed v = true →
    ∀ r, Document.Filter.visit args v = .ok (some r) → Value.wellFormed r = true := by
  apply Value.induct
  · intro s _ r h; simp [Document.Filter.visit] at h
  · intro values insertOrder ih h r hr
    rw [Filter_visit_Object args (wellFormed_consistent h)] at hr
    rw [wellFormed_Object_iff] at h
    obtain ⟨⟨hs, hnd, hk⟩, hv⟩ := h
    split at hr
    · simp at hr
    · simp only [Result.ok.injEq, Option.some.injEq] at hr
      rw [← hr, wellFormed_Object_iff]
      refine ⟨⟨keysSorted_mapSetAll _ [] rfl, ?_, ?_⟩, ?_⟩
      · exact (Filter_mapKeys_entries_sublist args values insertOrder).nodup hnd
      · intro k
        rw [mem_mapKeys_mapSetAll]
        simp [mapKeys]
      · intro k v hm
        rcases mem_mapSetAll _ _ _ _ hm with hm | hm
        · simp at hm
        · obtain ⟨v0, hg, _, hcase⟩ := Filter_mem_entries hm
          have hm0 := mem_of_mapGet hg
          rcases hcase with ⟨_, e⟩ | ⟨_, hf⟩
          · rw [e]; exact hv k v0 hm0
          · exact ih k v0 hm0 (hv k v0 hm0) v (Filter_found_some hf)
  · intro values ih h r hr
    rw [Filter_visit_Array args (wellFormed_consistent h)] at hr
    rw [wellFormed_Array_iff] at h
    split at hr
    · simp at hr
    · simp only [Result.ok.injEq, Option.some.injEq] at hr
      rw [← hr, wellFormed_Array_iff]
      intro v hm
      simp only [Document.Filter.survivors, List.mem_filterMap] at hm
      obtain ⟨e, he, hf⟩ := hm
      exact ih e he (h e he) v (Filter_found_some hf)
  · intro _ r h; simp [Document.Filter.visit] at h
  · intro _ r h; simp [Document.Filter.visit] at h
  · intro _ r h; simp [Document.Filter.visit] at h
  · intro s _ r h; simp [Document.Filter.visit] at h

/-- Document::filter of a well-formed tree holds what the Filter found, copied. -/
theorem Document_filter_eq (args : List string) {v : Value} (h : Value.wellFormed v = true) :
    Document.filter ⟨some v⟩ args = .ok ⟨Document.Filter.found args v⟩ := by
  obtain ⟨r, hr⟩ := Filter_visit_defined args v (wellFormed_consistent h)
  simp only [Document.filter, hr, Filter_found_eq hr]
  cases r with
  | none => rfl
  | some x =>
    simp only [Duplicator_visit_eq x (Filter_visit_wellFormed args v h x hr)]

theorem parse_wellFormed {n : Nat} {is : istream} {v : Value} {rest : istream}
    (h : Document.parse n is = .ok (v, rest)) : Value.wellFormed v = true :=
  Value.all_mono (fun x hx => by
    simp only [Value.built, Bool.and_eq_true] at hx ⊢
    exact hx.1) v (parse_built n is v rest h)

/-- The Filter finds nothing exactly when no Object of the tree has a key in `args`. -/
theorem Filter_visit_none_iff (args : List string) : ∀ v, Value.wellFormed v = true →
    (Document.Filter.visit args v = .ok none ↔ Value.all (Value.noKeyIn args) v = true) := by
  apply Value.induct
  · intro s _; simp [Document.Filter.visit, Value.all, Value.noKeyIn]
  · intro values insertOrder ih h
    have hc := wellFormed_consistent h
    rw [Filter_visit_Object args hc]
    rw [all_Object_iff] at hc
    rw [wellFormed_Object_iff] at h
    obtain ⟨⟨hs, hnd, hk⟩, hv⟩ := h
    rw [all_Object_iff]
    have hfound : ∀ k v, (k, v) ∈ values →
        (Document.Filter.found args v = none ↔ Value.all (Value.noKeyIn args) v = true) := by
      intro k v hm
      obtain ⟨r, hr⟩ := Filter_visit_defined args v (wellFormed_consistent (hv k v hm))
      rw [← ih k v hm (hv k v hm), Filter_found_eq hr, hr]
      simp
    constructor
    · intro hnone
      have hnil : Document.Filter.entries args values insertOrder = [] := by
        by_contra hne
        have : (Document.Filter.entries args values insertOrder).isEmpty = false := by
          simpa using hne
        rw [this] at hnone
        simp at hnone
      simp only [Document.Filter.entries, List.filterMap_eq_nil_iff] at hnil
      have key : ∀ k v, (k, v) ∈ values → k ∉ args ∧ Document.Filter.found args v = none := by
        intro k v hm
        have hko : k ∈ insertOrder := (hk k).mpr (by
          simp only [mapKeys, List.mem_map]; exact ⟨(k, v), hm, rfl⟩)
        have := hnil k hko
        rw [mapGet_of_mem hs hm] at this
        simp only at this
        by_cases ha : k ∈ args
        · simp [ha] at this
        · simpa [ha] using this
      refine ⟨?_, fun k v hm => (hfound k v hm).mp (key k v hm).2⟩
      simp only [Value.noKeyIn, List.all_eq_true, decide_eq_true_eq]
      intro k hko
      obtain ⟨v, _, hm⟩ := mapGet_of_mem_insertOrder hc.1 hko
      exact (key k v hm).1
    · rintro ⟨hno, hvals⟩
      simp only [Value.noKeyIn, List.all_eq_true, decide_eq_true_eq] at hno
      have hnil : Document.Filter.entries args values insertOrder = [] := by
        simp only [Document.Filter.entries, List.filterMap_eq_nil_iff]
        intro k hko
        obtain ⟨v, hg, hm⟩ := mapGet_of_mem_insertOrder hc.1 hko
        rw [hg]
        simp only [if_neg (hno k hko), Option.map_eq_none']
        exact (hfound k v hm).mpr (hvals k v hm)
      rw [hnil]
      rfl
  · intro values ih h
    rw [Filter_visit_Array args (wellFormed_consistent h)]
    rw [wellFormed_Array_iff] at h
    rw [all_Array_iff]
    have hfound : ∀ e ∈ values,
        (Document.Filter.found args e = none ↔ Value.all (Value.noKeyIn args) e = true) := by
      intro e hm
      obtain ⟨r, hr⟩ := Filter_visit_defined args e (wellFormed_consistent (h e hm))
      rw [← ih e hm (h e hm), Filter_found_eq hr, hr]
      simp
    constructor
    · intro hnone
      have hnil : Document.Filter.survivors args values = [] := by
        by_contra hne
        have : (Document.Filter.survivors args values).isEmpty = false := by
          simpa using hne
        rw [this] at hnone
        simp at hnone
      simp only [Document.Filter.survivors, List.filterMap_eq_nil_iff] at hnil
      exact ⟨rfl, fun e he => (hfound e he).mp (hnil e he)⟩
    · rintro ⟨_, hvals⟩
      have hnil : Document.Filter.survivors args values = [] := by
        simp only [Document.Filter.survivors, List.filterMap_eq_nil_iff]
        exact fun e he => (hfound e he).mpr (hvals e he)
      rw [hnil]
      rfl
  · intro _; simp [Document.Filter.visit, Value.all, Value.noKeyIn]
  · intro _; simp [Document.Filter.visit, Value.all, Value.noKeyIn]
  · intro _; simp [Document.Filter.visit, Value.all, Value.noKeyIn]
  · intro s _; simp [Document.Filter.visit, Value.all, Value.noKeyIn]

/-! ## Claims on the Object parser and on the Filter -/

/-- C2: the overwrite policy of the Object parser.  When the key of a parsed pair is already
in `insertOrder` (which never holds a key twice), the store of the pair leaves the other keys
in their relative order, puts the key at the end, makes the map answer the key with the new
value and every other key as before.  In particular `{"a":1,"b":2,"a":3}` parses to the key
order [b, a] with `a` mapped to the Number `3`, and serializes as `{"b": 2, "a": 3}`. -/
theorem insertEntry_overwrite :
    (∀ (values : List (string × Value)) (insertOrder : List string) (key : string) (val : Value),
      insertOrder.Nodup → key ∈ insertOrder →
      (Document.insertEntry values insertOrder key val).2
          = insertOrder.filter (fun k => k ≠ key) ++ [key]
        ∧ mapGet (Document.insertEntry values insertOrder key val).1 key = some val
        ∧ ∀ k, k ≠ key →
            mapGet (Document.insertEntry values insertOrder key val).1 k = mapGet values k)
    ∧ (∀ fuel, Document.parse (fuel + 5) overwriteText = .ok (overwriteTree, []))
    ∧ mapGet [("a".toList, Value.Number "3".toList), ("b".toList, Value.Number "2".toList)]
        "a".toList = some (Value.Number "3".toList)
    ∧ Document.output ⟨some overwriteTree⟩ = .ok "\x7b\"b\": 2, \"a\": 3\x7d".toList := by
  refine ⟨?_, ?_, rfl, rfl⟩
  · intro values insertOrder key val hnd _
    refine ⟨?_, mapGet_mapSet_self _ _ _, fun k hk => mapGet_mapSet_other _ _ hk⟩
    simp only [Document.insertEntry, hnd.erase_eq_filter]
    congr 1
    apply List.filter_congr
    intro x _
    by_cases e : x = key <;> simp [e]
  · intro fuel
    have h : Document.parse 5 overwriteText = .ok (overwriteTree, []) := rfl
    rw [parse_mono (Nat.le_add_left 5 fuel) (by rw [h]; simp), h]

/-- C2, at the third pair of `{"a":1,"b":2,"a":3}`: the key `a` is already stored. -/
theorem insertEntry_overwrite_witness :
    (Document.insertEntry
        [("a".toList, Value.Number "1".toList), ("b".toList, Value.Number "2".toList)]
        ["a".toList, "b".toList] "a".toList (Value.Number "3".toList)).2
      = ["a".toList, "b".toList].filter (fun k => k ≠ "a".toList) ++ ["a".toList]
    ∧ ["a".toList, "b".toList].filter (fun k => k ≠ "a".toList) ++ ["a".toList]
      = ["b".toList, "a".toList] :=
  ⟨(insertEntry_overwrite.1 _ ["a".toList, "b".toList] "a".toList _ (by decide) (by decide)).1,
    by decide⟩

/-- C3: in every tree the parser returns, in the copy the Duplicator makes of it and in
the tree of the document `Document::filter` returns for it, every Object node has an
`insertOrder` without a repeated key whose keys are exactly the keys of `values`. -/
theorem parsed_objects_consistent (fuel : Nat) (is : istream) (v : Value) (rest : istream)
    (h : Document.parse fuel is = .ok (v, rest)) :
    v.all Value.consistent = true
    ∧ (∃ c, Document.Duplicator.visit v = .ok c ∧ c.all Value.consistent = true)
    ∧ (∃ d, Document.copy ⟨some v⟩ = .ok d ∧ ∀ r, d.head = some r → r.all Value.consistent = true)
    ∧ ∀ args, ∃ d, Document.filter ⟨some v⟩ args = .ok d
        ∧ ∀ r, d.head = some r → r.all Value.consistent = true := by
  have hw := parse_wellFormed h
  have hc := wellFormed_consistent hw
  refine ⟨hc, ⟨v, Duplicator_visit_eq v hw, hc⟩, ?_, ?_⟩
  · refine ⟨⟨some v⟩, ?_, ?_⟩
    · simp only [Document.copy, Duplicator_visit_eq v hw]
    · intro r hr
      simp only [Option.some.injEq] at hr
      rw [← hr]; exact hc
  · intro args
    refine ⟨_, Document_filter_eq args hw, ?_⟩
    intro r hr
    simp only at hr
    exact wellFormed_consistent (Filter_visit_wellFormed args v hw r (Filter_found_some hr))

/-- C3, on `{"a":1,"b":{"a":2,"c":3}}`. -/
theorem parsed_objects_consistent_witness :
    Document.parse 6 nestedText = .ok (nestedTree, [])
    ∧ nestedTree.all Value.consistent = true
    ∧ Document.filter ⟨some nestedTree⟩ ["a".toList] = .ok ⟨some nestedTreeA⟩
    ∧ nestedTreeA.all Value.consistent = true :=
  ⟨rfl, (parsed_objects_consistent 6 nestedText nestedTree [] rfl).1, rfl, rfl⟩

/-- C4: the Filter on a well-formed Object.  The entries of the description are, in
insertion order, each key of `args` with its stored value as it is and each other key
with the Filter result of its stored value when there is one.  The Filter leaves the
Object of exactly these entries (the keys in this order, the map answering each key with
its entry), and `Document::filter` returns that tree; with no entry at all the result is
null and the document empty. -/
theorem filter_object_entries (args : List string) (values : List (string × Value))
    (insertOrder : List string) (h : Value.wellFormed (.Object values insertOrder) = true) :
    ∃ newValues,
      (∀ k, mapGet newValues k = mapGet (Document.Filter.entries args values insertOrder) k)
      ∧ Document.Filter.visit args (.Object values insertOrder)
          = .ok (if (Document.Filter.entries args values insertOrder).isEmpty then none
              else some (.Object newValues
                (mapKeys (Document.Filter.entries args values insertOrder))))
      ∧ Document.filter ⟨some (.Object values insertOrder)⟩ args
          = .ok ⟨if (Document.Filter.entries args values insertOrder).isEmpty then none
              else some (.Object newValues
                (mapKeys (Document.Filter.entries args values insertOrder)))⟩
      ∧ ∀ k v, mapGet values k = some v → ∃ r, Document.Filter.visit args v = .ok r := by
  have hv := Filter_visit_Object args (wellFormed_consistent h)
  refine ⟨mapSetAll [] (Document.Filter.entries args values insertOrder), ?_, hv, ?_, ?_⟩
  · intro k
    have hnd : (mapKeys (Document.Filter.entries args values insertOrder)).Nodup :=
      (Filter_mapKeys_entries_sublist args values insertOrder).nodup
        ((wellFormed_Object_iff _ _).mp h).1.2.1
    rw [mapGet_mapSetAll _ _ _ hnd]
    cases mapGet (Document.Filter.entries args values insertOrder) k <;> rfl
  · rw [Document_filter_eq args h, Filter_found_eq hv]
  · intro k v hg
    exact Filter_visit_defined args v
      (wellFormed_consistent (((wellFormed_Object_iff _ _).mp h).2 k v (mem_of_mapGet hg)))

/-- C4, on `{"a":1,"b":{"a":2,"c":3}}` filtered by [a]: the result is `{"a":1,"b":{"a":2}}`. -/
theorem filter_object_entries_witness :
    Value.wellFormed nestedTree = true
    ∧ Document.filter ⟨some nestedTree⟩ ["a".toList] = .ok ⟨some nestedTreeA⟩
    ∧ Document.output ⟨some nestedTreeA⟩ = .ok "\x7b\"a\": 1, \"b\": \x7b\"a\": 2\x7d\x7d".toList
    ∧ ∃ newValues, Document.filter ⟨some nestedTree⟩ ["a".toList]
        = .ok ⟨some (.Object newValues ["a".toList, "b".toList])⟩ := by
  refine ⟨rfl, rfl, rfl, ?_⟩
  obtain ⟨newValues, _, _, h3, _⟩ := filter_object_entries ["a".toList]
    [("a".toList, .Number "1".toList),
     ("b".toList, .Object [("a".toList, .Number "2".toList), ("c".toList, .Number "3".toList)]
        ["a".toList, "c".toList])]
    ["a".toList, "b".toList] rfl
  exact ⟨newValues, h3⟩

/-- C5: the Filter result of a well-formed tree is null, and `Document::filter` returns the
empty document, exactly when no Object of the tree, at any depth, has a key in `args`.  In
particular String, Number, True, False and Null give null, and `{"a":1,"b":{"a":2,"c":3}}`
filtered by [z] gives the empty document. -/
theorem filter_absent_iff :
    (∀ (args : List string) (v : Value), Value.wellFormed v = true →
      (Document.Filter.visit args v = .ok none ↔ v.all (Value.noKeyIn args) = true)
      ∧ (Document.filter ⟨some v⟩ args = .ok ⟨none⟩ ↔ v.all (Value.noKeyIn args) = true))
    ∧ (∀ args s, Document.Filter.visit args (.String s) = .ok none)
    ∧ (∀ args s, Document.Filter.visit args (.Number s) = .ok none)
    ∧ (∀ args, Document.Filter.visit args .True = .ok none)
    ∧ (∀ args, Document.Filter.visit args .False = .ok none)
    ∧ (∀ args, Document.Filter.visit args .Null = .ok none)
    ∧ Document.filter ⟨some nestedTree⟩ ["z".toList] = .ok ⟨none⟩ := by
  refine ⟨?_, fun _ _ => rfl, fun _ _ => rfl, fun _ => rfl, fun _ => rfl, fun _ => rfl, rfl⟩
  intro args v h
  have h1 := Filter_visit_none_iff args v h
  refine ⟨h1, ?_⟩
  rw [Document_filter_eq args h, ← h1]
  obtain ⟨r, hr⟩ := Filter_visit_defined args v (wellFormed_consistent h)
  rw [Filter_found_eq hr, hr]
  cases r <;> simp

/-- C5, on `{"a":1,"b":{"a":2,"c":3}}` and the key z, which no Object of it has. -/
theorem filter_absent_iff_witness :
    Value.wellFormed nestedTree = true
    ∧ nestedTree.all (Value.noKeyIn ["z".toList]) = true
    ∧ Document.Filter.visit ["z".toList] nestedTree = .ok none :=
  ⟨rfl, rfl, ((filter_absent_iff.1 ["z".toList] nestedTree rfl).1).mpr rfl⟩

/-- C6: the Filter on an Array of a well-formed tree runs on every element and leaves the
Array of the results that are not null, in the order of their elements, or null when there
is none; `Document::filter` returns that tree, or the empty document. -/
theorem filter_array_survivors (args : List string) (values : List Value)
    (h : Value.wellFormed (.Array values) = true) :
    (∀ e ∈ values, ∃ r, Document.Filter.visit args e = .ok r)
    ∧ Document.Filter.visit args (.Array values)
        = .ok (if (Document.Filter.survivors args values).isEmpty then none
            else some (.Array (Document.Filter.survivors args values)))
    ∧ Document.filter ⟨some (.Array values)⟩ args
        = .ok ⟨if (Document.Filter.survivors args values).isEmpty then none
            else some (.Array (Document.Filter.survivors args values))⟩ := by
  have hv := Filter_visit_Array args (wellFormed_consistent h)
  refine ⟨?_, hv, ?_⟩
  · intro e he
    exact Filter_visit_defined args e
      (wellFormed_consistent ((wellFormed_Array_iff values).mp h e he))
  · rw [Document_filter_eq args h, Filter_found_eq hv]

/-- C6, on `[{"a":1},{"b":2}]` filtered by [a]: the one-element array `[{"a":1}]`. -/
theorem filter_array_survivors_witness :
    Value.wellFormed arrayTree = true
    ∧ Document.Filter.survivors ["a".toList]
        [.Object [("a".toList, .Number "1".toList)] ["a".toList],
         .Object [("b".toList, .Number "2".toList)] ["b".toList]]
      = [.Object [("a".toList, .Number "1".toList)] ["a".toList]]
    ∧ Document.filter ⟨some arrayTree⟩ ["a".toList]
      = .ok ⟨some (.Array [.Object [("a".toList, .Number "1".toList)] ["a".toList]])⟩ :=
  ⟨rfl, rfl, (filter_array_survivors ["a".toList] _ (rfl : Value.wellFormed arrayTree = true)).2.2⟩

/-! ## Reading back a text -/

theorem clrWS_cons_ne {c : Char} (r : istream) (h : c ≠ ' ') :
    Document.clrWS (c :: r) = c :: r := by
  simp only [Document.clrWS, h, if_false]

theorem clrWS_space (r : istream) : Document.clrWS (' ' :: r) = Document.clrWS r := by
  simp only [Document.clrWS, if_true]

theorem clrWS_idem (is : istream) : Document.clrWS (Document.clrWS is) = Document.clrWS is := by
  induction is with
  | nil => rfl
  | cons c r ih =>
    by_cases h : c = ' '
    · subst h; simp only [clrWS_space, ih]
    · rw [clrWS_cons_ne r h, clrWS_cons_ne r h]

theorem parse_clrWS (n : Nat) (is : istream) :
    Document.parse n (Document.clrWS is) = Document.parse n is := by
  cases n with
  | zero => rfl
  | succ n => simp only [Document.parse, clrWS_idem]

/-- The String loop reads an escaped body up to the closing quote. -/
theorem parseStringLoop_read : ∀ (s : string), escaped s = true →
    ∀ (n : Nat), s.length + 1 ≤ n → ∀ (value : string) (rest : istream),
    Document.parseStringLoop n value (s ++ '"' :: rest) = .ok (value ++ s, '"' :: rest)
  | [], _, n, hn, value, rest => by
    obtain ⟨m, rfl⟩ : ∃ m, n = m + 1 := ⟨n - 1, by simp at hn; omega⟩
    simp [Document.parseStringLoop, peek]
  | [c], h, n, hn, value, rest => by
    obtain ⟨m, rfl⟩ : ∃ m, n = m + 1 := ⟨n - 1, by simp at hn; omega⟩
    have h1 : c ≠ '\\' := by intro e; simp [escaped, e] at h
    have h2 : c ≠ '"' := by intro e; simp [escaped, e] at h
    rw [Document.parseStringLoop]
    simp only [List.singleton_append, peek, List.head?_cons, ne_eq, Option.some.injEq, h2,
      not_false_eq_true, if_true, h1, if_false, get]
    have := parseStringLoop_read [] rfl m (by simp at hn ⊢; omega) (value ++ [c]) rest
    simpa using this
  | c :: d :: s, h, n, hn, value, rest => by
    obtain ⟨m, rfl⟩ : ∃ m, n = m + 1 := ⟨n - 1, by simp at hn; omega⟩
    by_cases h1 : c = '\\'
    · subst h1
      simp only [escaped, if_true] at h
      rw [Document.parseStringLoop]
      simp only [List.cons_append, peek, List.head?_cons, ne_eq, Option.some.injEq,
        Char.reduceEq, not_false_eq_true, if_true, get]
      have := parseStringLoop_read s h m (by simp at hn ⊢; omega)
        (value ++ ['\\'] ++ [d]) rest
      rw [this]
      simp
    · have h2 : c ≠ '"' := by intro e; simp [escaped, e] at h
      rw [escaped_cons_other _ h1 h2] at h
      rw [Document.parseStringLoop]
      simp only [List.cons_append, peek, List.head?_cons, ne_eq, Option.some.injEq, h2,
        not_false_eq_true, if_true, h1, if_false, get]
      have := parseStringLoop_read (d :: s) h m (by simp at hn ⊢; omega) (value ++ [c]) rest
      simp only [List.cons_append] at this
      rw [this]
      simp

/-- A quoted escaped body is parsed as the String of that body. -/
theorem parse_String_read {s : string} (h : escaped s = true) {n : Nat}
    (hn : s.length + 2 ≤ n) (rest : istream) :
    Document.parse n ('"' :: s ++ '"' :: rest) = .ok (.String s, rest) := by
  obtain ⟨m, rfl⟩ : ∃ m, n = m + 1 := ⟨n - 1, by omega⟩
  rw [Document.parse]
  simp only [List.cons_append, clrWS_cons_ne _ (by decide : '"' ≠ ' '), peek, List.head?_cons,
    if_true, ignore, List.drop_succ_cons, List.drop_zero]
  rw [parseStringLoop_read s h m (by omega) [] rest]
  simp

/-- The Number loop reads a text without terminator up to the terminator that follows. -/
theorem parseNumberLoop_read : ∀ (s : string), s.all (fun c => !terminator c) = true →
    ∀ (rest : istream), (∃ c, peek rest = some c ∧ terminator c = true) →
    ∀ (n : Nat), s.length + 1 ≤ n → ∀ (value : string),
    Document.parseNumberLoop n value (s ++ rest) = .ok (value ++ s, rest)
  | [], _, rest, hrest, n, hn, value => by
    obtain ⟨m, rfl⟩ : ∃ m, n = m + 1 := ⟨n - 1, by simp at hn; omega⟩
    obtain ⟨c, hc, ht⟩ := hrest
    have : (peek rest = some ' ' ∨ peek rest = some ',' ∨ peek rest = some '}'
        ∨ peek rest = some ']') := by
      rw [hc]; simpa [terminator, or_assoc] using ht
    simp [Document.parseNumberLoop, this]
  | c :: s, h, rest, hrest, n, hn, value => by
    obtain ⟨m, rfl⟩ : ∃ m, n = m + 1 := ⟨n - 1, by simp at hn; omega⟩
    simp only [List.all_cons, Bool.and_eq_true, Bool.not_eq_true'] at h
    have : ¬ (peek (c :: (s ++ rest)) = some ' ' ∨ peek (c :: (s ++ rest)) = some ','
        ∨ peek (c :: (s ++ rest)) = some '}' ∨ peek (c :: (s ++ rest)) = some ']') := by
      have := h.1
      simpa [terminator, peek, or_assoc, and_assoc] using this
    rw [List.cons_append, Document.parseNumberLoop]
    simp only [this, not_false_eq_true, if_true, get]
    rw [parseNumberLoop_read s h.2 rest hrest m (by simp at hn ⊢; omega)]
    simp

theorem parse_default {n : Nat} {is : istream}
    (h : ∀ c, peek (Document.clrWS is) = some c → opener c = false) :
    Document.parse (n + 1) is = Document.parseNumber n (Document.clrWS is) := by
  rw [Document.parse]
  cases hc : peek (Document.clrWS is) with
  | none => rfl
  | some c =>
    have := h c hc
    simp only [opener, Bool.or_eq_false_iff, decide_eq_false_iff_not] at this
    obtain ⟨⟨⟨⟨⟨c1, c2⟩, c3⟩, c4⟩, c5⟩, c6⟩ := this
    simp only [c1, c2, c3, c4, c5, c6, if_false]

theorem exists_bound {α : Type} (Q : α → Nat → Prop)
    (hmono : ∀ x N M, N ≤ M → Q x N → Q x M) :
    ∀ (l : List α), (∀ x ∈ l, ∃ N, Q x N) → ∃ N, ∀ x ∈ l, Q x N
  | [], _ => ⟨0, fun _ h => by simp at h⟩
  | a :: l, h => by
    obtain ⟨N1, h1⟩ := h a (List.mem_cons_self _ _)
    obtain ⟨N2, h2⟩ := exists_bound Q hmono l (fun x hx => h x (List.mem_cons_of_mem _ hx))
    refine ⟨max N1 N2, ?_⟩
    intro x hx
    simp only [List.mem_cons] at hx
    rcases hx with rfl | hx
    · exact hmono _ _ _ (Nat.le_max_left _ _) h1
    · exact hmono _ _ _ (Nat.le_max_right _ _) (h2 x hx)

theorem readsBack_mono {v : Value} {N M : Nat} (h : N ≤ M) (hv : v.readsBack N) :
    v.readsBack M := by
  obtain ⟨t, ht, hp⟩ := hv
  exact ⟨t, ht, fun n hn rest hr => hp n (Nat.le_trans h hn) rest hr⟩

theorem Exporter_visitValues_eq (values : List (string × Value)) :
    Document.Exporter.visitValues values
      = values.map fun kv => (kv.1, Document.Exporter.visit kv.2) := by
  induction values with
  | nil => rfl
  | cons e rest ih =>
    obtain ⟨k0, v0⟩ := e
    simp only [Document.Exporter.visitValues, ih, List.map_cons]

/-- The exported text of a readable value is empty for the Number of no text only, and
otherwise starts with a character that is no terminator. -/
theorem Exporter_head {v : Value} {t : string} (hr : Value.readable v = true)
    (ht : Document.Exporter.visit v = .ok t) :
    (t = [] ∧ v = .Number []) ∨ ∃ c s, t = c :: s ∧ terminator c = false := by
  cases v with
  | String s =>
    simp only [Document.Exporter.visit, Result.ok.injEq] at ht
    exact Or.inr ⟨'"', s ++ ['"'], by rw [← ht]; rfl, by decide⟩
  | Object values insertOrder =>
    simp only [Document.Exporter.visit] at ht
    split at ht
    · rename_i text _
      simp only [Result.ok.injEq] at ht
      exact Or.inr ⟨'{', text ++ ['}'], by rw [← ht]; rfl, by decide⟩
    · simp at ht
    · simp at ht
  | Array values =>
    simp only [Document.Exporter.visit] at ht
    split at ht
    · rename_i text _
      simp only [Result.ok.injEq] at ht
      exact Or.inr ⟨'[', text ++ [']'], by rw [← ht]; rfl, by decide⟩
    · simp at ht
    · simp at ht
  | True =>
    simp only [Document.Exporter.visit, Result.ok.injEq] at ht
    exact Or.inr ⟨'t', _, ht.symm, by decide⟩
  | False =>
    simp only [Document.Exporter.visit, Result.ok.injEq] at ht
    exact Or.inr ⟨'f', _, ht.symm, by decide⟩
  | Null =>
    simp only [Document.Exporter.visit, Result.ok.injEq] at ht
    exact Or.inr ⟨'n', _, ht.symm, by decide⟩
  | Number s =>
    simp only [Document.Exporter.visit, Result.ok.injEq] at ht
    subst ht
    cases s with
    | nil => exact Or.inl ⟨rfl, rfl⟩
    | cons c s =>
      simp only [Value.readable, numberText, List.all_cons, Bool.and_eq_true,
        Bool.not_eq_true'] at hr
      exact Or.inr ⟨c, s, rfl, hr.1.1⟩

theorem clrWS_of_not_terminator {c : Char} (s : istream) (h : terminator c = false) :
    Document.clrWS (c :: s) = c :: s := by
  apply clrWS_cons_ne
  intro e
  rw [e] at h
  exact absurd h (by decide)

theorem skipComma_comma_space (s : istream) :
    Document.skipComma (',' :: ' ' :: s) = Document.clrWS s := by
  simp [Document.skipComma, clrWS_cons_ne, peek, ignore, clrWS_space]

theorem skipComma_close (c : Char) (s : istream) (h1 : c ≠ ' ') (h2 : c ≠ ',') :
    Document.skipComma (c :: s) = c :: s := by
  simp [Document.skipComma, clrWS_cons_ne _ h1, peek, h2]

/-- The Array loop reads the exported elements back, provided the last of them is not the
Number of no text. -/
theorem parseArrayLoop_read {p : istream → Result (Value × istream)} :
    ∀ (es : List Value),
    (∀ e ∈ es, Value.readable e = true) →
    (∀ e ∈ es, ∃ t, Document.Exporter.visit e = .ok t
      ∧ ∀ rest, e.delimited rest = true → p (t ++ rest) = .ok (e, rest)) →
    es.getLast? ≠ some (.Number []) →
    ∃ body, Document.Exporter.visitArray es = .ok body
      ∧ (∀ rest, Document.clrWS (body ++ ']' :: rest) = body ++ ']' :: rest)
      ∧ ∀ f, es.length + 1 ≤ f → ∀ acc rest,
          Document.parseArrayLoop p f acc (body ++ ']' :: rest) = .ok (.Array (acc ++ es), rest)
  | [], _, _, _ => by
    refine ⟨[], rfl, fun rest => clrWS_cons_ne _ (by decide), ?_⟩
    intro f hf acc rest
    obtain ⟨m, rfl⟩ : ∃ m, f = m + 1 := ⟨f - 1, by simp at hf; omega⟩
    simp [Document.parseArrayLoop, peek, ignore]
  | e :: es, hread, hp, hlast => by
    obtain ⟨t, ht, hpe⟩ := hp e (List.mem_cons_self _ _)
    have hlast' : es.getLast? ≠ some (.Number []) := by
      cases es with
      | nil => simp
      | cons e2 es2 => simpa [List.getLast?_cons_cons] using hlast
    obtain ⟨body', hb', hclr', hloop'⟩ := parseArrayLoop_read es
      (fun x hx => hread x (List.mem_cons_of_mem _ hx))
      (fun x hx => hp x (List.mem_cons_of_mem _ hx)) hlast'
    have hhead := Exporter_head (hread e (List.mem_cons_self _ _)) ht
    -- the separator and what follows the element
    have hbody : Document.Exporter.visitArray (e :: es)
        = .ok (t ++ (if es.isEmpty then [] else [',', ' ']) ++ body') := by
      rw [Document.Exporter.visitArray, ht, hb']
    cases es with
    | nil =>
      -- the last element: its text is not empty
      have hb0 : body' = [] := by
        simpa [Document.Exporter.visitArray] using hb'.symm
      subst hb0
      have hne : ∃ c s, t = c :: s ∧ terminator c = false := by
        rcases hhead with ⟨_, hv⟩ | h
        · rw [hv] at hlast; simp at hlast
        · exact h
      obtain ⟨c, s, hts, hc⟩ := hne
      refine ⟨t, by simpa using hbody, ?_, ?_⟩
      · intro rest; rw [hts]; exact clrWS_of_not_terminator _ hc
      · intro f hf acc rest
        obtain ⟨m, rfl⟩ : ∃ m, f = m + 1 := ⟨f - 1, by simp at hf; omega⟩
        have hpk : peek (t ++ ']' :: rest) ≠ some ']' := by
          rw [hts]
          simp only [List.cons_append, peek, List.head?_cons, ne_eq, Option.some.injEq]
          intro e1; rw [e1] at hc; exact absurd hc (by decide)
        have hdel : e.delimited (']' :: rest) = true := by
          simp [Value.delimited, closer]
        rw [Document.parseArrayLoop, if_pos hpk, hpe _ hdel]
        simp only [skipComma_close ']' rest (by decide) (by decide)]
        have := hloop' m (by simp at hf ⊢; omega) (acc ++ [e]) rest
        simpa using this
    | cons e2 es2 =>
      simp only [List.isEmpty_cons, Bool.false_eq_true, if_false] at hbody
      refine ⟨t ++ [',', ' '] ++ body', hbody, ?_, ?_⟩
      · intro rest
        rcases hhead with ⟨ht0, _⟩ | ⟨c, s, hts, hc⟩
        · rw [ht0]; exact clrWS_cons_ne _ (by decide)
        · rw [hts]; exact clrWS_of_not_terminator _ hc
      · intro f hf acc rest
        obtain ⟨m, rfl⟩ : ∃ m, f = m + 1 := ⟨f - 1, by simp at hf; omega⟩
        have hpk : peek (t ++ [',', ' '] ++ body' ++ ']' :: rest) ≠ some ']' := by
          rcases hhead with ⟨ht0, _⟩ | ⟨c, s, hts, hc⟩
          · rw [ht0]; simp [peek]
          · rw [hts]
            simp only [List.cons_append, peek, List.head?_cons, ne_eq, Option.some.injEq]
            intro e1; rw [e1] at hc; exact absurd hc (by decide)
        have hdel : e.delimited (',' :: ' ' :: (body' ++ ']' :: rest)) = true := by
          simp [Value.delimited, closer]
        have hstream : t ++ [',', ' '] ++ body' ++ ']' :: rest
            = t ++ (',' :: ' ' :: (body' ++ ']' :: rest)) := by simp
        rw [Document.parseArrayLoop, if_pos hpk, hstream, hpe _ hdel]
        simp only [skipComma_comma_space, hclr']
        have := hloop' m (by simp at hf ⊢; omega) (acc ++ [e]) rest
        simpa using this

theorem clrWS_replicate (a : Nat) (s : istream) :
    Document.clrWS (List.replicate a ' ' ++ s) = Document.clrWS s := by
  induction a with
  | zero => rfl
  | succ a ih => simp only [List.replicate_succ, List.cons_append, clrWS_space, ih]

theorem skipComma_comma (b : Nat) (s : istream) :
    Document.skipComma (',' :: (List.replicate b ' ' ++ s)) = Document.clrWS s := by
  simp [Document.skipComma, clrWS_cons_ne, peek, ignore, clrWS_replicate]

theorem Value.text_eq {v : Value} {t : string} (h : Document.Exporter.visit v = .ok t) :
    v.text = t := by
  simp only [Value.text, h]

/-- The Object loop reads an object text back, for keys that are pairwise distinct and
values whose texts the recursive call reads back: it stores the entries in their order. -/
theorem parseObjectLoop_read {p : istream → Result (Value × istream)}
    (hclr : ∀ is, p (Document.clrWS is) = p is) (a b : Nat) :
    ∀ (entries : List (string × Value)), (mapKeys entries).Nodup →
    (∀ k ∈ mapKeys entries, ∀ more, p ('"' :: k ++ '"' :: more) = .ok (.String k, more)) →
    (∀ k v, (k, v) ∈ entries →
      ∀ rest, v.delimited rest = true → p (v.text ++ rest) = .ok (v, rest)) →
    (∀ rest, Document.clrWS (entriesText a b entries ++ '}' :: rest)
        = entriesText a b entries ++ '}' :: rest)
    ∧ ∀ f, entries.length + 1 ≤ f → ∀ vals order rest, (∀ k ∈ mapKeys entries, k ∉ order) →
        Document.parseObjectLoop p f vals order (entriesText a b entries ++ '}' :: rest)
          = .ok (.Object (mapSetAll vals entries) (order ++ mapKeys entries), rest)
  | [], _, _, _ => by
    refine ⟨fun rest => clrWS_cons_ne _ (by decide), ?_⟩
    intro f hf vals order rest _
    obtain ⟨m, rfl⟩ : ∃ m, f = m + 1 := ⟨f - 1, by simp at hf; omega⟩
    simp [Document.parseObjectLoop, peek, ignore, entriesText, mapSetAll, mapKeys]
  | (k, v) :: entries, hnd, hkey, hval => by
    simp only [mapKeys, List.map_cons, List.nodup_cons] at hnd
    have hpv := hval k v (List.mem_cons_self _ _)
    obtain ⟨hclr', hloop'⟩ := parseObjectLoop_read hclr a b entries hnd.2
      (fun x hx => hkey x (List.mem_cons_of_mem _ hx))
      (fun x y hx => hval x y (List.mem_cons_of_mem _ hx))
    refine ⟨fun rest => clrWS_cons_ne _ (by decide), ?_⟩
    intro f hf vals order rest hnot
    obtain ⟨m, rfl⟩ : ∃ m, f = m + 1 := ⟨f - 1, by simp at hf; omega⟩
    have hko : k ∉ order := hnot k (List.mem_cons_self _ _)
    have hnot' : ∀ k2 ∈ mapKeys entries, k2 ∉ order ++ [k] := by
      intro k2 hk2 hmem
      simp only [List.mem_append, List.mem_singleton] at hmem
      rcases hmem with hmem | hmem
      · exact hnot k2 (List.mem_cons_of_mem _ hk2) hmem
      · rw [hmem] at hk2; exact hnd.1 hk2
    have hloop := hloop' m (by simp at hf ⊢; omega) (mapSet vals k v) (order ++ [k]) rest hnot'
    have hins : Document.insertEntry vals order k v = (mapSet vals k v, order ++ [k]) := by
      simp only [Document.insertEntry, List.erase_of_not_mem hko]
    have hres : Value.Object (mapSetAll (mapSet vals k v) entries)
          (order ++ [k] ++ mapKeys entries)
        = Value.Object (mapSetAll vals ((k, v) :: entries))
          (order ++ mapKeys ((k, v) :: entries)) := by
      rw [mapSetAll_cons]
      simp [mapKeys]
    rw [hres] at hloop
    have hpk : ∀ s, peek ('"' :: k ++ '"' :: s) ≠ some '}' := by
      intro s; simp [peek]
    cases entries with
    | nil =>
      have hdel : v.delimited ('}' :: rest) = true := by simp [Value.delimited, closer]
      have hstream : entriesText a b [(k, v)] ++ '}' :: rest
          = '"' :: k ++ '"' :: (':' :: (List.replicate a ' ' ++ (v.text ++ '}' :: rest))) := by
        simp [entriesText]
      rw [hstream, Document.parseObjectLoop, if_pos (hpk _), hkey k (List.mem_cons_self _ _)]
      simp only [clrWS_cons_ne _ (by decide : ':' ≠ ' '), ignore, List.drop_succ_cons,
        List.drop_zero, clrWS_replicate, hclr, hpv _ hdel, hins,
        skipComma_close '}' rest (by decide) (by decide)]
      simpa [entriesText] using hloop
    | cons e2 entries2 =>
      have hdel : v.delimited (',' :: (List.replicate b ' '
          ++ (entriesText a b (e2 :: entries2) ++ '}' :: rest))) = true := by
        simp [Value.delimited, closer]
      have hstream : entriesText a b ((k, v) :: e2 :: entries2) ++ '}' :: rest
          = '"' :: k ++ '"' :: (':' :: (List.replicate a ' ' ++ (v.text ++ ',' ::
              (List.replicate b ' ' ++ (entriesText a b (e2 :: entries2) ++ '}' :: rest))))) := by
        rw [entriesText]
        simp
      rw [hstream, Document.parseObjectLoop, if_pos (hpk _), hkey k (List.mem_cons_self _ _)]
      simp only [clrWS_cons_ne _ (by decide : ':' ≠ ' '), ignore, List.drop_succ_cons,
        List.drop_zero, clrWS_replicate, hclr, hpv _ hdel, hins, skipComma_comma, hclr']
      exact hloop

/-- The loop of Exporter::visit(Object*) writes the entries of the keys, with one space
after each colon and each comma. -/
theorem Exporter_objectLoop_eq (values : List (string × Value)) :
    ∀ (keys : List string),
    (∀ k ∈ keys, ∃ v t, mapGet values k = some v ∧ Document.Exporter.visit v = .ok t) →
    Document.Exporter.objectLoop (Document.Exporter.visitValues values) keys
      = .ok (entriesText 1 1 (entriesOf values keys))
  | [], _ => rfl
  | k :: keys, h => by
    obtain ⟨v, t, hg, ht⟩ := h k (List.mem_cons_self _ _)
    have ih := Exporter_objectLoop_eq values keys (fun x hx => h x (List.mem_cons_of_mem _ hx))
    have hsub : mapGet (Document.Exporter.visitValues values) k = some (.ok t) := by
      rw [Exporter_visitValues_eq, mapGet_map, hg, Option.map_some', ht]
    have hempty : (entriesOf values keys).isEmpty = keys.isEmpty := by
      cases keys with
      | nil => rfl
      | cons k2 keys2 =>
        obtain ⟨v2, _, hg2, _⟩ := h k2 (List.mem_cons_of_mem _ (List.mem_cons_self _ _))
        rw [entriesOf_cons values k2 keys2 hg2]
        rfl
    rw [Document.Exporter.objectLoop, hsub, ih, entriesOf_cons values k keys hg, entriesText,
      Value.text_eq ht, hempty]
    simp

theorem mem_entriesOf {α : Type} {values : List (string × α)} {keys : List string}
    {k : string} {v : α} (h : (k, v) ∈ entriesOf values keys) :
    mapGet values k = some v ∧ k ∈ keys := by
  simp only [entriesOf, List.mem_filterMap, Option.map_eq_some', Prod.mk.injEq] at h
  obtain ⟨k2, hk2, v2, hg, e1, e2⟩ := h
  subst e1
  subst e2
  exact ⟨hg, hk2⟩

theorem readsBack_of_read {v : Value} {t : string} (N : Nat)
    (ht : Document.Exporter.visit v = .ok t)
    (h : ∀ n, N ≤ n → ∀ rest, v.delimited rest = true →
      Document.parse n (t ++ rest) = .ok (v, rest)) : ∃ N, v.readsBack N :=
  ⟨N, t, ht, h⟩

/-- Every built tree in which no Array ends with the Number of no text is read back from
its exported text. -/
theorem readsBack_of_built : ∀ v, Value.all Value.built v = true →
    Value.all Value.keepsLast v = true → ∃ N, v.readsBack N := by
  apply Value.induct
  · -- String
    intro s hb _
    have hs : escaped s = true := by
      simpa [Value.all, Value.built, Value.sorted, Value.consistent, Value.readable] using hb
    refine readsBack_of_read (s.length + 2) rfl ?_
    intro n hn rest _
    have := parse_String_read hs hn rest
    simpa using this
  · -- Object
    intro values insertOrder ih hb hk
    rw [all_Object_iff] at hb hk
    obtain ⟨hnode, hvals⟩ := hb
    rw [built_Object_iff] at hnode
    obtain ⟨hs, hnd, hkeys, hesc⟩ := hnode
    have hcons : Value.consistent (.Object values insertOrder) = true :=
      (consistent_Object_iff _ _).mpr ⟨hnd, hkeys⟩
    have hsubset : ∀ k ∈ insertOrder, k ∈ mapKeys values := fun k h => (hkeys k).mp h
    obtain ⟨N1, hN1⟩ := exists_bound (fun (kv : string × Value) N => kv.2.readsBack N)
      (fun _ _ _ h hv => readsBack_mono h hv) values
      (fun kv hkv => ih kv.1 kv.2 hkv (hvals kv.1 kv.2 hkv) (hk.2 kv.1 kv.2 hkv))
    obtain ⟨N2, hN2⟩ := exists_bound (fun (k : string) N => k.length + 2 ≤ N)
      (fun _ _ _ h hv => Nat.le_trans hv h) insertOrder (fun k _ => ⟨k.length + 2, Nat.le_refl _⟩)
    have hbody : Document.Exporter.objectLoop (Document.Exporter.visitValues values) insertOrder
        = .ok (entriesText 1 1 (entriesOf values insertOrder)) := by
      apply Exporter_objectLoop_eq
      intro k hk2
      obtain ⟨v, hg, hmem⟩ := mapGet_of_mem_insertOrder hcons hk2
      obtain ⟨t, ht, _⟩ := hN1 (k, v) hmem
      exact ⟨v, t, hg, ht⟩
    refine readsBack_of_read (max (max N1 N2) (insertOrder.length + 1) + 1)
      (by rw [Document.Exporter.visit, hbody]) ?_
    intro n hn rest _
    obtain ⟨m, rfl⟩ : ∃ m, n = m + 1 := ⟨n - 1, by omega⟩
    have hm : max (max N1 N2) (insertOrder.length + 1) ≤ m := by omega
    have hm1 : N1 ≤ m := Nat.le_trans (Nat.le_trans (Nat.le_max_left _ _) (Nat.le_max_left _ _)) hm
    have hm2 : N2 ≤ m :=
      Nat.le_trans (Nat.le_trans (Nat.le_max_right _ _) (Nat.le_max_left _ _)) hm
    have hkk : mapKeys (entriesOf values insertOrder) = insertOrder :=
      mapKeys_entriesOf values insertOrder hsubset
    obtain ⟨hclr2, hloop2⟩ := parseObjectLoop_read (parse_clrWS m) 1 1
      (entriesOf values insertOrder) (by rw [hkk]; exact hnd)
      (by
        intro k hk2 more
        rw [hkk] at hk2
        exact parse_String_read (hesc k hk2) (Nat.le_trans (hN2 k hk2) hm2) more)
      (by
        intro k v hmem rest2 hr
        obtain ⟨t, ht, hp⟩ := hN1 (k, v) (mem_of_mapGet (mem_entriesOf hmem).1)
        rw [Value.text_eq ht]
        exact hp m hm1 rest2 hr)
    have hlen : (entriesOf values insertOrder).length = insertOrder.length := by
      have := congrArg List.length hkk
      simpa [mapKeys] using this
    have hstream : (['{'] ++ entriesText 1 1 (entriesOf values insertOrder) ++ ['}']) ++ rest
        = '{' :: (entriesText 1 1 (entriesOf values insertOrder) ++ '}' :: rest) := by simp
    rw [hstream, Document.parse]
    simp only [clrWS_cons_ne _ (by decide : '{' ≠ ' '), peek, List.head?_cons, Char.reduceEq,
      if_false, if_true, ignore, List.drop_succ_cons, List.drop_zero, hclr2]
    rw [hloop2 m (by rw [hlen]; exact Nat.le_trans (Nat.le_max_right _ _) hm) [] [] rest
      (by simp)]
    simp only [List.nil_append, mapSetAll_entriesOf hs hnd hkeys, hkk]
  · -- Array
    intro values ih hb hk
    rw [all_Array_iff] at hb hk
    obtain ⟨N1, hN1⟩ := exists_bound (fun (e : Value) N => e.readsBack N)
      (fun _ _ _ h hv => readsBack_mono h hv) values
      (fun e he => ih e he (hb.2 e he) (hk.2 e he))
    have hlast : values.getLast? ≠ some (.Number []) := by
      have := hk.1
      simp only [Value.keepsLast] at this
      intro e
      rw [e] at this
      simp at this
    have hread : ∀ e ∈ values, Value.readable e = true := by
      intro e he
      have := hb.2 e he
      have h2 : Value.built e = true := by
        cases e <;> simp only [Value.all, Bool.and_eq_true] at this <;>
          first | exact this | exact this.1
      simp only [Value.built, Bool.and_eq_true] at h2
      exact h2.2
    have hloop : ∀ m, N1 ≤ m →
        ∃ body, Document.Exporter.visitArray values = .ok body
          ∧ (∀ rest, Document.clrWS (body ++ ']' :: rest) = body ++ ']' :: rest)
          ∧ ∀ f, values.length + 1 ≤ f → ∀ acc rest,
              Document.parseArrayLoop (Document.parse m) f acc (body ++ ']' :: rest)
                = .ok (.Array (acc ++ values), rest) := by
      intro m hm1
      apply parseArrayLoop_read values hread _ hlast
      intro e he
      obtain ⟨t, ht, hp⟩ := hN1 e he
      exact ⟨t, ht, fun rest hr => hp m hm1 rest hr⟩
    obtain ⟨body, hbody, _, _⟩ := hloop N1 (Nat.le_refl _)
    refine readsBack_of_read (max N1 (values.length + 1) + 1)
      (by rw [Document.Exporter.visit, hbody]) ?_
    intro n hn rest _
    obtain ⟨m, rfl⟩ : ∃ m, n = m + 1 := ⟨n - 1, by omega⟩
    have hm : max N1 (values.length + 1) ≤ m := by omega
    obtain ⟨body2, hbody2, hclr2, hloop2⟩ := hloop m (Nat.le_trans (Nat.le_max_left _ _) hm)
    have hbb : body2 = body := by
      rw [hbody] at hbody2
      simpa using hbody2.symm
    subst hbb
    have hstream : (['['] ++ body2 ++ [']']) ++ rest = '[' :: (body2 ++ ']' :: rest) := by simp
    rw [hstream, Document.parse]
    simp only [clrWS_cons_ne _ (by decide : '[' ≠ ' '), peek, List.head?_cons, Char.reduceEq,
      if_false, if_true, ignore, List.drop_succ_cons, List.drop_zero, hclr2]
    rw [hloop2 m (Nat.le_trans (Nat.le_max_right _ _) hm) [] rest]
    simp
  · -- True
    intro _ _
    refine readsBack_of_read 1 rfl ?_
    intro n hn rest _
    obtain ⟨m, rfl⟩ : ∃ m, n = m + 1 := ⟨n - 1, by omega⟩
    simp [Document.parse, Document.clrWS, peek, ignore]
  · -- False
    intro _ _
    refine readsBack_of_read 1 rfl ?_
    intro n hn rest _
    obtain ⟨m, rfl⟩ : ∃ m, n = m + 1 := ⟨n - 1, by omega⟩
    simp [Document.parse, Document.clrWS, peek, ignore]
  · -- Null
    intro _ _
    refine readsBack_of_read 1 rfl ?_
    intro n hn rest _
    obtain ⟨m, rfl⟩ : ∃ m, n = m + 1 := ⟨n - 1, by omega⟩
    simp [Document.parse, Document.clrWS, peek, ignore]
  · -- Number
    intro s hb _
    have hs : numberText s = true := by
      simpa [Value.all, Value.built, Value.sorted, Value.consistent, Value.readable] using hb
    simp only [numberText, Bool.and_eq_true] at hs
    refine readsBack_of_read (s.length + 2) rfl ?_
    intro n hn rest hdel
    obtain ⟨m, rfl⟩ : ∃ m, n = m + 1 := ⟨n - 1, by omega⟩
    simp only [Value.delimited, Value.isNumber, Bool.not_true, Bool.false_or] at hdel
    obtain ⟨c, rest2, rfl, hc⟩ : ∃ c rest2, rest = c :: rest2 ∧ closer c = true := by
      cases rest with
      | nil => simp at hdel
      | cons c rest2 => exact ⟨c, rest2, rfl, by simpa using hdel⟩
    have hterm : terminator c = true := by
      simp only [closer, Bool.or_eq_true, decide_eq_true_eq] at hc
      simp only [terminator, Bool.or_eq_true, decide_eq_true_eq]
      tauto
    have hnot : opener c = false := by
      simp only [closer, Bool.or_eq_true, decide_eq_true_eq] at hc
      rcases hc with (rfl | rfl) | rfl <;> decide
    have hclr : Document.clrWS (s ++ c :: rest2) = s ++ c :: rest2 := by
      cases s with
      | nil =>
        apply clrWS_cons_ne
        intro e
        rw [e] at hc
        exact absurd hc (by decide)
      | cons d s2 =>
        simp only [List.all_cons, Bool.and_eq_true, Bool.not_eq_true'] at hs
        exact clrWS_of_not_terminator _ hs.1.1
    have hdisp : ∀ d, peek (Document.clrWS (s ++ c :: rest2)) = some d → opener d = false := by
      intro d hd
      rw [hclr] at hd
      cases s with
      | nil =>
        simp only [List.nil_append, peek, List.head?_cons, Option.some.injEq] at hd
        rw [← hd]; exact hnot
      | cons d2 s2 =>
        simp only [List.cons_append, peek, List.head?_cons, Option.some.injEq] at hd
        have := hs.2
        simp only [List.head?_cons, Option.all_some, Bool.not_eq_true'] at this
        rw [← hd]; exact this
    rw [parse_default hdisp, hclr, Document.parseNumber,
      parseNumberLoop_read s hs.1 (c :: rest2) ⟨c, rfl, hterm⟩ m (by omega) []]
    simp

/-! ## Printer -/

theorem Printer_visitValues_eq (tab : Nat) (values : List (string × Value)) :
    Document.Printer.visitValues tab values
      = values.map fun kv => (kv.1, Document.Printer.visit tab kv.2) := by
  induction values with
  | nil => rfl
  | cons e rest ih =>
    obtain ⟨k0, v0⟩ := e
    simp only [Document.Printer.visitValues, ih, List.map_cons]

theorem Value.printed_eq {tab : Nat} {v : Value} {t : string}
    (h : Document.Printer.visit tab v = .ok t) : v.printed tab = t := by
  simp only [Value.printed, h]

/-- The loop of Printer::visit(Object*) writes one line for each key of `insertOrder`, in
the order of `insertOrder`. -/
theorem Printer_objectLoop_eq (tab : Nat) (values : List (string × Value)) :
    ∀ (keys : List string),
    (∀ k ∈ keys, ∃ v t, mapGet values k = some v ∧ Document.Printer.visit tab v = .ok t) →
    Document.Printer.objectLoop tab (Document.Printer.visitValues tab values) keys
      = .ok (printedEntries tab (entriesOf values keys))
  | [], _ => rfl
  | k :: keys, h => by
    obtain ⟨v, t, hg, ht⟩ := h k (List.mem_cons_self _ _)
    have ih := Printer_objectLoop_eq tab values keys
      (fun x hx => h x (List.mem_cons_of_mem _ hx))
    have hsub : mapGet (Document.Printer.visitValues tab values) k = some (.ok t) := by
      rw [Printer_visitValues_eq, mapGet_map, hg, Option.map_some', ht]
    have hempty : (entriesOf values keys).isEmpty = keys.isEmpty := by
      cases keys with
      | nil => rfl
      | cons k2 keys2 =>
        obtain ⟨v2, _, hg2, _⟩ := h k2 (List.mem_cons_of_mem _ (List.mem_cons_self _ _))
        rw [entriesOf_cons values k2 keys2 hg2]
        rfl
    rw [Document.Printer.objectLoop, hsub, ih, entriesOf_cons values k keys hg, printedEntries,
      Value.printed_eq ht, hempty]
    simp

theorem Printer_visitArray_defined (tab : Nat) :
    ∀ (values : List Value), (∀ e ∈ values, ∃ t, Document.Printer.visit tab e = .ok t) →
    ∃ t, Document.Printer.visitArray tab values = .ok t
  | [], _ => ⟨[], rfl⟩
  | e :: es, h => by
    obtain ⟨t, ht⟩ := h e (List.mem_cons_self _ _)
    obtain ⟨t2, ht2⟩ := Printer_visitArray_defined tab es
      (fun x hx => h x (List.mem_cons_of_mem _ hx))
    exact ⟨_, by rw [Document.Printer.visitArray, ht, ht2]⟩

/-- On a tree whose Objects are consistent the Printer runs to its end, at every level. -/
theorem Printer_visit_defined : ∀ v, Value.all Value.consistent v = true →
    ∀ tab, ∃ t, Document.Printer.visit tab v = .ok t := by
  apply Value.induct
  · intro s _ tab; exact ⟨_, rfl⟩
  · intro values insertOrder ih h tab
    rw [all_Object_iff] at h
    have hdef : ∀ k ∈ insertOrder, ∃ v t, mapGet values k = some v
        ∧ Document.Printer.visit (tab + 1) v = .ok t := by
      intro k hk
      obtain ⟨v, hv, hm⟩ := mapGet_of_mem_insertOrder h.1 hk
      obtain ⟨t, ht⟩ := ih k v hm (h.2 k v hm) (tab + 1)
      exact ⟨v, t, hv, ht⟩
    exact ⟨_, by rw [Document.Printer.visit, Printer_objectLoop_eq (tab + 1) values insertOrder hdef]⟩
  · intro values ih h tab
    rw [all_Array_iff] at h
    obtain ⟨t, ht⟩ := Printer_visitArray_defined (tab + 1) values
      (fun e he => ih e he (h.2 e he) (tab + 1))
    exact ⟨_, by rw [Document.Printer.visit, ht]⟩
  · intro _ tab; exact ⟨_, rfl⟩
  · intro _ tab; exact ⟨_, rfl⟩
  · intro _ tab; exact ⟨_, rfl⟩
  · intro s _ tab; exact ⟨_, rfl⟩

/-- The entries stored into an empty map, looked up again under their keys in order, are
the entries. -/
theorem entriesOf_mapSetAll {α : Type} (entries : List (string × α))
    (hnd : (mapKeys entries).Nodup) :
    entriesOf (mapSetAll [] entries) (mapKeys entries) = entries := by
  have hget : ∀ k, mapGet (mapSetAll [] entries) k = mapGet entries k := by
    intro k
    rw [mapGet_mapSetAll entries [] k hnd]
    cases mapGet entries k <;> rfl
  have key : ∀ (es : List (string × α)), (mapKeys es).Nodup →
      ∀ (m : List (string × α)), (∀ k ∈ mapKeys es, mapGet m k = mapGet es k) →
      entriesOf m (mapKeys es) = es := by
    intro es
    induction es with
    | nil => intro _ m _; rfl
    | cons e es ih =>
      intro hnd2 m hm
      obtain ⟨k0, v0⟩ := e
      simp only [mapKeys, List.map_cons, List.nodup_cons] at hnd2
      have h0 : mapGet m k0 = some v0 := by
        rw [hm k0 (by simp only [mapKeys, List.map_cons, List.mem_cons, true_or])]
        simp only [mapGet, if_true]
      have : mapKeys ((k0, v0) :: es) = k0 :: mapKeys es := rfl
      rw [this, entriesOf_cons m k0 (mapKeys es) h0]
      congr 1
      apply ih hnd2.2
      intro k hk
      rw [hm k (by simp only [mapKeys, List.map_cons, List.mem_cons]; exact Or.inr hk)]
      have hne : k ≠ k0 := by
        intro e
        rw [e] at hk
        exact hnd2.1 hk
      simp only [mapGet, hne, if_false]
  exact key entries hnd _ (fun k _ => hget k)

/-! ## Norming a tree changes no text -/

theorem normValues_eq (values : List (string × Value)) :
    Value.normValues values = values.map fun kv => (kv.1, Value.norm kv.2) := by
  induction values with
  | nil => rfl
  | cons e rest ih =>
    obtain ⟨k0, v0⟩ := e
    simp only [Value.normValues, ih, List.map_cons]

theorem normArray_eq (values : List Value) :
    Value.normArray values = values.map Value.norm := by
  induction values with
  | nil => rfl
  | cons e rest ih => simp only [Value.normArray, ih, List.map_cons]

theorem norm_Array_of_ne {values : List Value} (h : values ≠ [.Number []]) :
    Value.norm (.Array values) = .Array (values.map Value.norm) := by
  rw [Value.norm, normArray_eq]
  intro e
  exact h e

theorem norm_eq_Number {v : Value} {s : string} (h : Value.norm v = .Number s) :
    v = .Number s := by
  cases v <;> simp [Value.norm] at h ⊢
  exact h

theorem isNumber_norm (v : Value) : (Value.norm v).isNumber = v.isNumber := by
  cases v <;> simp [Value.norm, Value.isNumber]

theorem mapKeys_normValues (values : List (string × Value)) :
    mapKeys (Value.normValues values) = mapKeys values := by
  rw [normValues_eq]
  simp [mapKeys]

theorem mem_normValues {values : List (string × Value)} {k : string} {w : Value}
    (h : (k, w) ∈ Value.normValues values) : ∃ v, (k, v) ∈ values ∧ w = Value.norm v := by
  rw [normValues_eq] at h
  simp only [List.mem_map, Prod.mk.injEq] at h
  obtain ⟨⟨k2, v2⟩, hm, e1, e2⟩ := h
  simp only at e1 e2
  subst e1
  exact ⟨v2, hm, e2.symm⟩

theorem Exporter_visitArray_congr : ∀ (es : List Value),
    (∀ e ∈ es, Document.Exporter.visit (Value.norm e) = Document.Exporter.visit e) →
    Document.Exporter.visitArray (es.map Value.norm) = Document.Exporter.visitArray es
  | [], _ => rfl
  | e :: es, h => by
    have ih := Exporter_visitArray_congr es (fun x hx => h x (List.mem_cons_of_mem _ hx))
    have hemp : (es.map Value.norm).isEmpty = es.isEmpty := by cases es <;> rfl
    simp only [List.map_cons, Document.Exporter.visitArray, h e (List.mem_cons_self _ _), ih,
      hemp]

/-- The normed tree is serialized to the same text. -/
theorem Exporter_visit_norm : ∀ v,
    Document.Exporter.visit (Value.norm v) = Document.Exporter.visit v := by
  apply Value.induct
  · intro s; rfl
  · intro values insertOrder ih
    have hsub : Document.Exporter.visitValues (Value.normValues values)
        = Document.Exporter.visitValues values := by
      rw [Exporter_visitValues_eq, Exporter_visitValues_eq, normValues_eq, List.map_map]
      apply List.map_congr_left
      intro kv hkv
      simp only [Function.comp, ih kv.1 kv.2 hkv]
    simp only [Value.norm, Document.Exporter.visit, hsub]
  · intro values ih
    by_cases h : values = [.Number []]
    · subst h; rfl
    · rw [norm_Array_of_ne h]
      simp only [Document.Exporter.visit, Exporter_visitArray_congr values ih]
  · rfl
  · rfl
  · rfl
  · intro s; rfl

theorem built_of_all {v : Value} (h : Value.all Value.built v = true) :
    Value.built v = true := by
  cases v <;> simp only [Value.all, Bool.and_eq_true] at h <;> first | exact h | exact h.1

/-- The normed tree of a built tree is built. -/
theorem all_built_norm : ∀ v, Value.all Value.built v = true →
    Value.all Value.built (Value.norm v) = true := by
  apply Value.induct
  · intro s h; exact h
  · intro values insertOrder ih h
    rw [all_Object_iff, built_Object_iff] at h
    rw [Value.norm, all_Object_iff, built_Object_iff, mapKeys_normValues]
    refine ⟨h.1, ?_⟩
    intro k w hm
    obtain ⟨v, hv, e⟩ := mem_normValues hm
    rw [e]
    exact ih k v hv (h.2 k v hv)
  · intro values ih h
    rw [all_Array_iff] at h
    by_cases he : values = [.Number []]
    · subst he; rfl
    · rw [norm_Array_of_ne he, all_Array_iff]
      refine ⟨rfl, ?_⟩
      intro w hw
      simp only [List.mem_map] at hw
      obtain ⟨e, hm, rfl⟩ := hw
      exact ih e hm (h.2 e hm)
  · intro h; exact h
  · intro h; exact h
  · intro h; exact h
  · intro s h; exact h

/-- In the normed tree no Array ends with a Number of empty text, provided no Array of two
or more elements did. -/
theorem all_keepsLast_norm : ∀ v, Value.all Value.keepsLastOfMany v = true →
    Value.all Value.keepsLast (Value.norm v) = true := by
  apply Value.induct
  · intro s _; rfl
  · intro values insertOrder ih h
    rw [all_Object_iff] at h
    rw [Value.norm, all_Object_iff]
    refine ⟨rfl, ?_⟩
    intro k w hm
    obtain ⟨v, hv, e⟩ := mem_normValues hm
    rw [e]
    exact ih k v hv (h.2 k v hv)
  · intro values ih h
    rw [all_Array_iff] at h
    by_cases he : values = [.Number []]
    · subst he; rfl
    · rw [norm_Array_of_ne he, all_Array_iff]
      constructor
      · simp only [Value.keepsLast]
        have hlast : (values.map Value.norm).getLast? ≠ some (.Number []) := by
          intro hl
          rw [List.getLast?_map] at hl
          cases hg : values.getLast? with
          | none => rw [hg] at hl; simp at hl
          | some last =>
            rw [hg] at hl
            simp only [Option.map_some', Option.some.injEq] at hl
            have hlast2 := norm_eq_Number hl
            subst hlast2
            have hk := h.1
            simp only [Value.keepsLastOfMany, hg, Bool.or_false, decide_eq_true_eq] at hk
            -- fewer than two elements, the last being the empty Number
            match values, hg, he, hk with
            | [], hg, _, _ => simp at hg
            | [x], hg, he, _ =>
              simp only [List.getLast?_singleton, Option.some.injEq] at hg
              subst hg
              exact he rfl
            | _ :: _ :: _, _, _, hk => simp only [List.length_cons] at hk; omega
        split
        · rename_i heq
          exact absurd heq hlast
        · rfl
      · intro w hw
        simp only [List.mem_map] at hw
        obtain ⟨e, hm, rfl⟩ := hw
        exact ih e hm (h.2 e hm)
  · intro _; rfl
  · intro _; rfl
  · intro _; rfl
  · intro s _; rfl

/-- A tree in which no Array ends with a Number of empty text is its own normed tree. -/
theorem norm_eq_self : ∀ v, Value.all Value.keepsLast v = true → Value.norm v = v := by
  apply Value.induct
  · intro s _; rfl
  · intro values insertOrder ih h
    rw [all_Object_iff] at h
    rw [Value.norm, normValues_eq]
    congr 1
    conv_rhs => rw [← List.map_id values]
    apply List.map_congr_left
    intro kv hkv
    rw [ih kv.1 kv.2 hkv (h.2 kv.1 kv.2 hkv)]
    rfl
  · intro values ih h
    rw [all_Array_iff] at h
    have he : values ≠ [.Number []] := by
      intro e
      have := h.1
      rw [e] at this
      simp [Value.keepsLast] at this
    rw [norm_Array_of_ne he]
    congr 1
    conv_rhs => rw [← List.map_id values]
    apply List.map_congr_left
    intro e hm
    rw [ih e hm (h.2 e hm)]
    rfl
  · intro _; rfl
  · intro _; rfl
  · intro _; rfl
  · intro s _; rfl

/-! ## Claims on the round trip and on the order of keys -/

theorem parse_twelve_timeout (fuel : Nat) : Document.parse fuel ['1', '2'] = .timeout := by
  match fuel with
  | 0 => rfl
  | 1 => rfl
  | 2 => rfl
  | n + 3 =>
    simp [Document.parse, Document.clrWS, peek, Document.parseNumber, Document.parseNumberLoop,
      get, parseNumberLoop_eof]

/-- C1 as stated fails.  The input `[1,,]` parses to an Array of the Numbers `1` and
(empty), which serializes as `[1, ]`; every run of the parser on `[1, ]` that returns gives
a tree that serializes as `[1]`.  The input `12 ` parses to the Number `12`, which
serializes as `12`, and on `12` the parser returns on no fuel. -/
theorem roundtrip_counterexample :
    (∃ v t, Document.parse 4 "[1,,]".toList = .ok (v, [])
      ∧ Document.output ⟨some v⟩ = .ok t
      ∧ ∀ fuel v2 rest2 t2, Document.parse fuel t = .ok (v2, rest2) →
          Document.output ⟨some v2⟩ = .ok t2 → t2 ≠ t)
    ∧ (∃ v t, Document.parse 4 "12 ".toList = .ok (v, [' '])
      ∧ Document.output ⟨some v⟩ = .ok t
      ∧ ∀ fuel, Document.parse fuel t = .timeout) := by
  constructor
  · refine ⟨.Array [.Number ['1'], .Number []], "[1, ]".toList, rfl, rfl, ?_⟩
    intro fuel v2 rest2 t2 hp ho
    have h4 : Document.parse 4 "[1, ]".toList = .ok (.Array [.Number ['1']], []) := rfl
    have := parse_det (n := fuel) (m := 4) (by rw [hp]; simp) (by rw [h4]; simp)
    rw [hp, h4] at this
    simp only [Result.ok.injEq, Prod.mk.injEq] at this
    rw [this.1] at ho
    have ho2 : Document.output ⟨some (.Array [.Number ['1']])⟩ = .ok "[1]".toList := rfl
    rw [ho2] at ho
    simp only [Result.ok.injEq] at ho
    rw [← ho]
    decide
  · exact ⟨.Number ['1', '2'], ['1', '2'], rfl, rfl, parse_twelve_timeout⟩

/-- C1 (amended): for every tree the parser returns whose root is not a Number and in
which no Array of two or more elements ends with a Number of empty text, the serialized
text is parsed again, on any sufficient fuel, with the whole text consumed, to the tree
normed (each Array holding only an empty Number emptied; the same tree when no Array ends
with an empty Number), which serializes to exactly the same text; so does the tree of
every run on that text that returns. -/
theorem output_reparses (fuel : Nat) (is : istream) (v : Value) (rest : istream)
    (h : Document.parse fuel is = .ok (v, rest))
    (hroot : v.isNumber = false) (hlast : v.all Value.keepsLastOfMany = true) :
    ∃ t, Document.output ⟨some v⟩ = .ok t
      ∧ (∃ N, ∀ n, N ≤ n → Document.parse n t = .ok (v.norm, []))
      ∧ Document.output ⟨some v.norm⟩ = .ok t
      ∧ (v.all Value.keepsLast = true → v.norm = v)
      ∧ ∀ n v2 rest2, Document.parse n t = .ok (v2, rest2) →
          Document.output ⟨some v2⟩ = .ok t := by
  obtain ⟨N, t, ht, hp⟩ := readsBack_of_built v.norm
    (all_built_norm v (parse_built fuel is v rest h)) (all_keepsLast_norm v hlast)
  have hN : ∀ n, N ≤ n → Document.parse n t = .ok (v.norm, []) := by
    intro n hn
    have := hp n hn [] (by simp [Value.delimited, isNumber_norm, hroot])
    simpa using this
  have ht2 : Document.output ⟨some v⟩ = .ok t := by
    rw [← ht, Exporter_visit_norm]; rfl
  refine ⟨t, ht2, ⟨N, hN⟩, ht, norm_eq_self v, ?_⟩
  intro n v2 rest2 h2
  have := parse_det (n := n) (m := N) (by rw [h2]; simp) (by rw [hN N (Nat.le_refl _)]; simp)
  rw [h2, hN N (Nat.le_refl _)] at this
  simp only [Result.ok.injEq, Prod.mk.injEq] at this
  rw [this.1]
  exact ht

/-- C1 (amended), on `{"a":1,"b":[true,null]}`, whose serialized text is
`{"a": 1, "b": [true, null]}`, and on `[,]`, whose serialized text `[]` is parsed to the
empty Array. -/
theorem output_reparses_witness :
    Document.parse 5 mixedText = .ok (mixedTree, [])
    ∧ mixedTree.isNumber = false ∧ mixedTree.all Value.keepsLastOfMany = true
    ∧ mixedTree.norm = mixedTree
    ∧ Document.output ⟨some mixedTree⟩ = .ok "\x7b\"a\": 1, \"b\": [true, null]\x7d".toList
    ∧ (∃ t, Document.output ⟨some mixedTree⟩ = .ok t
        ∧ (∃ N, ∀ n, N ≤ n → Document.parse n t = .ok (mixedTree.norm, []))
        ∧ Document.output ⟨some mixedTree.norm⟩ = .ok t
        ∧ (mixedTree.all Value.keepsLast = true → mixedTree.norm = mixedTree)
        ∧ ∀ n v2 rest2, Document.parse n t = .ok (v2, rest2) →
            Document.output ⟨some v2⟩ = .ok t)
    ∧ Document.parse 3 "[,]".toList = .ok (.Array [.Number []], [])
    ∧ Document.output ⟨some (.Array [.Number []])⟩ = .ok "[]".toList
    ∧ (Value.Array [.Number []]).norm = .Array [] :=
  ⟨rfl, rfl, rfl, rfl, rfl, output_reparses 5 mixedText mixedTree [] rfl rfl rfl, rfl, rfl, rfl⟩


/-! ## The compact format -/

theorem intercalate_cons {α : Type} (sep x : List α) (xs : List (List α)) :
    List.intercalate sep (x :: xs)
      = x ++ (if xs.isEmpty then [] else sep) ++ List.intercalate sep xs := by
  cases xs with
  | nil => simp [List.intercalate]
  | cons y ys => simp [List.intercalate, List.intersperse]

theorem isEmpty_map {α β : Type} (f : α → β) (l : List α) : (l.map f).isEmpty = l.isEmpty := by
  cases l <;> rfl

theorem specCompactValues_eq (values : List (string × Value)) :
    Value.specCompactValues values = values.map fun kv => (kv.1, Value.specCompact kv.2) := by
  induction values with
  | nil => rfl
  | cons e rest ih =>
    obtain ⟨k0, v0⟩ := e
    simp only [Value.specCompactValues, ih, List.map_cons]

theorem specCompactArray_eq (values : List Value) :
    Value.specCompactArray values = values.map Value.specCompact := by
  induction values with
  | nil => rfl
  | cons e rest ih => simp only [Value.specCompactArray, ih, List.map_cons]

/-- The loop of Exporter::visit(Object*) joins the entries by `, `. -/
theorem Exporter_objectLoop_spec (values : List (string × Value)) :
    ∀ (keys : List string),
    (∀ k ∈ keys, ∃ v, mapGet values k = some v
      ∧ Document.Exporter.visit v = .ok v.specCompact) →
    Document.Exporter.objectLoop (Document.Exporter.visitValues values) keys
      = .ok (List.intercalate [',', ' '] (keys.map fun key =>
          ['"'] ++ key ++ ['"', ':', ' ']
            ++ (mapGet (Value.specCompactValues values) key).getD []))
  | [], _ => rfl
  | k :: keys, h => by
    obtain ⟨v, hg, ht⟩ := h k (List.mem_cons_self _ _)
    have ih := Exporter_objectLoop_spec values keys
      (fun x hx => h x (List.mem_cons_of_mem _ hx))
    simp only [Document.Exporter.objectLoop, Exporter_visitValues_eq, mapGet_map, hg,
      Option.map_some', ht]
    rw [Exporter_visitValues_eq] at ih
    simp only [ih, List.map_cons, intercalate_cons, specCompactValues_eq, mapGet_map, hg,
      Option.map_some', Option.getD_some, isEmpty_map]  

/-- The loop of Exporter::visit(Array*) joins the elements by `, `. -/
theorem Exporter_visitArray_spec :
    ∀ (values : List Value),
    (∀ e ∈ values, Document.Exporter.visit e = .ok e.specCompact) →
    Document.Exporter.visitArray values
      = .ok (List.intercalate [',', ' '] (Value.specCompactArray values))
  | [], _ => rfl
  | e :: es, h => by
    have ih := Exporter_visitArray_spec es (fun x hx => h x (List.mem_cons_of_mem _ hx))
    simp only [Document.Exporter.visitArray, h e (List.mem_cons_self _ _), ih,
      Value.specCompactArray, intercalate_cons, specCompactArray_eq, isEmpty_map]

theorem Exporter_visit_spec : ∀ v, Value.wellFormed v = true →
    Document.Exporter.visit v = .ok v.specCompact := by
  apply Value.induct
  · intro s _; rfl
  · intro values insertOrder ih h
    have hc := wellFormed_consistent h
    rw [all_Object_iff] at hc
    rw [wellFormed_Object_iff] at h
    have hdef : ∀ k ∈ insertOrder, ∃ v, mapGet values k = some v
        ∧ Document.Exporter.visit v = .ok v.specCompact := by
      intro k hk
      obtain ⟨v, hg, hm⟩ := mapGet_of_mem_insertOrder hc.1 hk
      exact ⟨v, hg, ih k v hm (h.2 k v hm)⟩
    simp only [Document.Exporter.visit, Exporter_objectLoop_spec values insertOrder hdef,
      Value.specCompact]
  · intro values ih h
    rw [wellFormed_Array_iff] at h
    simp only [Document.Exporter.visit,
      Exporter_visitArray_spec values (fun e he => ih e he (h e he)), Value.specCompact]
  · intro _; rfl
  · intro _; rfl
  · intro _; rfl
  · intro s _; rfl

/-- Claim C11.  The compact serialization of every well-formed tree is the reference text:
`Document::output` returns, and what it returns is the String between quotes, the raw
Number text, `true`, `false`, `null`, the elements of an Array joined by `, ` between `[`
and `]`, and the entries of an Object, in insertion order and each `"key": value`, joined
by `, ` between `{` and `}`; an empty Array is `[]` and an empty Object `{}`. -/
theorem output_eq_specCompact (v : Value) (h : Value.wellFormed v = true) :
    Document.output ⟨some v⟩ = .ok v.specCompact
      ∧ Document.output ⟨some (.Array [])⟩ = .ok ['[', ']']
      ∧ Document.output ⟨some (.Object [] [])⟩ = .ok ['{', '}'] := by
  simp only [Document.output, Exporter_visit_spec v h]
  exact ⟨trivial, rfl, rfl⟩

theorem output_eq_specCompact_witness :
    Value.wellFormed overwriteTree = true
      ∧ Document.output ⟨some overwriteTree⟩ = .ok "\x7b\"b\": 2, \"a\": 3\x7d".toList
      ∧ Document.output ⟨some emptiesTree⟩ = .ok "\x7b\"b\": [], \"a\": \x7b\x7d\x7d".toList :=
  ⟨by decide, (output_eq_specCompact overwriteTree (by decide)).1,
    (output_eq_specCompact emptiesTree (by decide)).1⟩


/-! ## The pretty-print format -/

theorem printTabs_eq (tab : Nat) : Document.Printer.printTabs tab = List.replicate (2 * tab) ' ' := by
  induction tab with
  | zero => rfl
  | succ n ih =>
    rw [Document.Printer.printTabs, ih, show 2 * (n + 1) = (2 * n + 1) + 1 by ring,
      List.replicate_succ, List.replicate_succ]

theorem specPrettyValues_eq (d : Nat) (values : List (string × Value)) :
    Value.specPrettyValues d values = values.map fun kv => (kv.1, Value.specPretty d kv.2) := by
  induction values with
  | nil => rfl
  | cons e rest ih =>
    obtain ⟨k0, v0⟩ := e
    simp only [Value.specPrettyValues, ih, List.map_cons]

theorem specPrettyArray_eq (d : Nat) (values : List Value) :
    Value.specPrettyArray d values = values.map (Value.specPretty d) := by
  induction values with
  | nil => rfl
  | cons e rest ih => simp only [Value.specPrettyArray, ih, List.map_cons]

/-- The loop of Printer::visit(Object*) writes the entries, each after its indent, joined by
a comma and a newline. -/
theorem Printer_objectLoop_spec (d : Nat) (values : List (string × Value)) :
    ∀ (keys : List string),
    (∀ k ∈ keys, ∃ v, mapGet values k = some v
      ∧ Document.Printer.visit (d + 1) v = .ok (v.specPretty (d + 1))) →
    Document.Printer.objectLoop (d + 1) (Document.Printer.visitValues (d + 1) values) keys
      = .ok (List.intercalate [',', '\n'] (keys.map fun key =>
          List.replicate (2 * (d + 1)) ' ' ++ ['"'] ++ key ++ ['"', ':', ' ']
            ++ (mapGet (Value.specPrettyValues (d + 1) values) key).getD []))
  | [], _ => rfl
  | k :: keys, h => by
    obtain ⟨v, hg, ht⟩ := h k (List.mem_cons_self _ _)
    have ih := Printer_objectLoop_spec d values keys
      (fun x hx => h x (List.mem_cons_of_mem _ hx))
    simp only [Document.Printer.objectLoop, Printer_visitValues_eq, mapGet_map, hg,
      Option.map_some', ht]
    rw [Printer_visitValues_eq] at ih
    simp only [ih, List.map_cons, intercalate_cons, specPrettyValues_eq, mapGet_map, hg,
      Option.map_some', Option.getD_some, isEmpty_map, printTabs_eq]

/-- The loop of Printer::visit(Array*) writes the elements, each after its indent, joined
by a comma and a newline. -/
theorem Printer_visitArray_spec (d : Nat) :
    ∀ (values : List Value),
    (∀ e ∈ values, Document.Printer.visit (d + 1) e = .ok (e.specPretty (d + 1))) →
    Document.Printer.visitArray (d + 1) values
      = .ok (List.intercalate [',', '\n'] ((Value.specPrettyArray (d + 1) values).map
          fun text => List.replicate (2 * (d + 1)) ' ' ++ text))
  | [], _ => rfl
  | e :: es, h => by
    have ih := Printer_visitArray_spec d es (fun x hx => h x (List.mem_cons_of_mem _ hx))
    simp only [Document.Printer.visitArray, h e (List.mem_cons_self _ _), ih,
      Value.specPrettyArray, intercalate_cons, specPrettyArray_eq, isEmpty_map, List.map_cons,
      printTabs_eq]

theorem Printer_visit_spec : ∀ v, Value.wellFormed v = true →
    ∀ d, Document.Printer.visit d v = .ok (v.specPretty d) := by
  apply Value.induct
  · intro s _ d; rfl
  · intro values insertOrder ih h d
    have hc := wellFormed_consistent h
    rw [all_Object_iff] at hc
    rw [wellFormed_Object_iff] at h
    have hdef : ∀ k ∈ insertOrder, ∃ v, mapGet values k = some v
        ∧ Document.Printer.visit (d + 1) v = .ok (v.specPretty (d + 1)) := by
      intro k hk
      obtain ⟨v, hg, hm⟩ := mapGet_of_mem_insertOrder hc.1 hk
      exact ⟨v, hg, ih k v hm (h.2 k v hm) (d + 1)⟩
    simp only [Document.Printer.visit, Printer_objectLoop_spec d values insertOrder hdef,
      Value.specPretty, printTabs_eq]
  · intro values ih h d
    rw [wellFormed_Array_iff] at h
    simp only [Document.Printer.visit,
      Printer_visitArray_spec d values (fun e he => ih e he (h e he) (d + 1)), Value.specPretty,
      printTabs_eq]
  · intro _ d; rfl
  · intro _ d; rfl
  · intro _ d; rfl
  · intro s _ d; rfl

/-- Claim C12.  The Printer writes every well-formed tree in the reference pretty format: at
nesting level `d` (the indent level `print` starts from is 0) a container is its open
bracket, a newline, its entries each after `2 * (d + 1)` spaces and joined by a comma and a
newline, a newline, `2 * d` spaces and the close bracket, an Object entry being
`"key": value`; an empty Object at level `d` is `{`, two newlines, `2 * d` spaces and `}`,
an empty Array likewise. -/
theorem print_eq_specPretty (v : Value) (h : Value.wellFormed v = true) :
    Document.print ⟨some v⟩ = .ok (v.specPretty 0)
      ∧ (∀ d, Document.Printer.visit d v = .ok (v.specPretty d))
      ∧ (∀ d, Document.Printer.visit d (.Object [] [])
          = .ok (['{', '\n', '\n'] ++ List.replicate (2 * d) ' ' ++ ['}']))
      ∧ (∀ d, Document.Printer.visit d (.Array [])
          = .ok (['[', '\n', '\n'] ++ List.replicate (2 * d) ' ' ++ [']']))
      ∧ Document.print ⟨some (.Object [] [])⟩ = .ok ['{', '\n', '\n', '}'] := by
  refine ⟨?_, Printer_visit_spec v h, ?_, ?_, rfl⟩
  · simp only [Document.print, Printer_visit_spec v h]
  · intro d
    simp [Document.Printer.visit, Document.Printer.objectLoop, printTabs_eq]
  · intro d
    simp [Document.Printer.visit, Document.Printer.visitArray, printTabs_eq]

theorem print_eq_specPretty_witness :
    Value.wellFormed mixedTree = true
      ∧ Document.print ⟨some mixedTree⟩
        = .ok "\x7b\n  \"a\": 1,\n  \"b\": [\n    true,\n    null\n  ]\n\x7d".toList :=
  ⟨by decide, (print_eq_specPretty mixedTree (by decide)).1⟩


/-! ## Duplication -/

/-- On a well-formed tree `copy` and assignment return a document holding the tree the
Duplicator built, which is the tree of the source. -/
theorem copy_assign_eq (v : Value) (h : Value.wellFormed v = true) :
    Document.copy ⟨some v⟩ = .ok ⟨some v⟩
      ∧ ∀ self, Document.assign self ⟨some v⟩ = .ok ⟨some v⟩ := by
  have hv := Duplicator_visit_eq v h
  exact ⟨by simp only [Document.copy, hv], fun self => by simp only [Document.assign, hv]⟩


/-! ## The literals -/

/-- C15 as stated fails.  On the one-character input `t` the parser returns True and has
consumed the one character there is: no run of the parser on it consumes four. -/
theorem literal_exactly_four_counterexample :
    Document.parse 1 ['t'] = .ok (.True, [])
      ∧ ∀ fuel v rest, Document.parse fuel ['t'] = .ok (v, rest) →
          v = .True ∧ ['t'].length - rest.length = 1 := by
  refine ⟨rfl, ?_⟩
  intro fuel v rest hp
  have h1 : Document.parse 1 ['t'] = .ok (.True, []) := rfl
  have := parse_det (n := fuel) (m := 1) (by rw [hp]; simp) (by rw [h1]; simp)
  rw [hp, h1] at this
  simp only [Result.ok.injEq, Prod.mk.injEq] at this
  rw [this.1, this.2]
  exact ⟨rfl, rfl⟩

/-- Claim C15, amended.  When the first character after `k` spaces is `t` (`f`, `n`), the
parser returns True (False, Null) on any fuel but zero, whatever follows the letter, and
leaves the stream after the 4 (5, 4) characters that start at the letter, or at its end
when fewer remain: `tru3` gives True with nothing left, `t` alone gives True, `nul` and
`false,1` give Null and False with nothing and `,1` left. -/
theorem literal_by_first_letter (k : Nat) (rest : istream) (n : Nat) :
    Document.parse (n + 1) (List.replicate k ' ' ++ 't' :: rest)
        = .ok (.True, ('t' :: rest).drop 4)
      ∧ Document.parse (n + 1) (List.replicate k ' ' ++ 'f' :: rest)
        = .ok (.False, ('f' :: rest).drop 5)
      ∧ Document.parse (n + 1) (List.replicate k ' ' ++ 'n' :: rest)
        = .ok (.Null, ('n' :: rest).drop 4)
      ∧ Document.parse 1 "tru3".toList = .ok (.True, [])
      ∧ Document.parse 1 "  nul".toList = .ok (.Null, [])
      ∧ Document.parse 1 "false,1".toList = .ok (.False, ",1".toList) := by
  refine ⟨?_, ?_, ?_, rfl, rfl, rfl⟩
  · rw [Document.parse, clrWS_replicate, clrWS_cons_ne _ (by decide : 't' ≠ ' ')]
    rfl
  · rw [Document.parse, clrWS_replicate, clrWS_cons_ne _ (by decide : 'f' ≠ ' ')]
    rfl
  · rw [Document.parse, clrWS_replicate, clrWS_cons_ne _ (by decide : 'n' ≠ ' ')]
    rfl


/-! ## The Number case -/

/-- A text that holds a terminator splits at its first one. -/
theorem takeWhile_terminator (s : istream) (h : s.any terminator = true) :
    (s.takeWhile fun x => !terminator x).all (fun x => !terminator x) = true
      ∧ ∃ t, peek (s.dropWhile fun x => !terminator x) = some t ∧ terminator t = true := by
  induction s with
  | nil => simp at h
  | cons a r ih =>
    by_cases ha : terminator a = true
    · simp [List.takeWhile, List.dropWhile, ha, peek]
    · simp only [Bool.not_eq_true] at ha
      simp only [List.any_cons, ha, Bool.false_or] at h
      obtain ⟨h1, h2⟩ := ih h
      simp only [List.takeWhile, List.dropWhile, ha, Bool.not_false, List.all_cons, h1,
        Bool.and_self, true_and]
      exact h2

/-- The default case reads a text up to its first terminator. -/
theorem parse_Number_read (k : Nat) (c : Char) (s : istream) (hsp : c ≠ ' ')
    (hop : opener c = false) (hterm : s.any terminator = true)
    (n : Nat) (hn : (c :: s).length + 2 ≤ n) :
    Document.parse n (List.replicate k ' ' ++ c :: s)
        = .ok (.Number ((c :: s).takeWhile fun x => !terminator x),
            (c :: s).dropWhile fun x => !terminator x)
      ∧ ((c :: s).takeWhile fun x => !terminator x)
          ++ ((c :: s).dropWhile fun x => !terminator x) = c :: s
      ∧ (∀ p, p <+: c :: s → p.all (fun x => !terminator x) = true →
          p <+: (c :: s).takeWhile fun x => !terminator x)
      ∧ ∃ t, peek ((c :: s).dropWhile fun x => !terminator x) = some t
          ∧ terminator t = true := by
  have hany : (c :: s).any terminator = true := by
    simp only [List.any_cons, hterm, Bool.or_true]
  obtain ⟨hall, hnext⟩ := takeWhile_terminator (c :: s) hany
  refine ⟨?_, List.takeWhile_append_dropWhile _ _, ?_, hnext⟩
  · obtain ⟨m, rfl⟩ : ∃ m, n = m + 1 := ⟨n - 1, by simp at hn; omega⟩
    have hclr : Document.clrWS (List.replicate k ' ' ++ c :: s) = c :: s := by
      rw [clrWS_replicate, clrWS_cons_ne _ hsp]
    rw [parse_default (by rw [hclr]; intro x hx; simp only [peek, List.head?_cons,
      Option.some.injEq] at hx; rw [← hx]; exact hop), hclr]
    have hlen : ((c :: s).takeWhile fun x => !terminator x).length ≤ (c :: s).length :=
      (List.takeWhile_sublist _).length_le
    have := parseNumberLoop_read _ hall _ hnext m (by omega) []
    rw [List.takeWhile_append_dropWhile] at this
    simp only [Document.parseNumber, this, List.nil_append]
  · intro p hp hpa
    obtain ⟨q, hq⟩ := hp
    rw [← hq, List.takeWhile_append_of_pos]
    · exact List.prefix_append _ _
    · intro x hx
      exact List.all_eq_true.mp hpa x hx

/-- Claim C16.  When the first character `c` after `k` spaces is none of `"`, `{`, `[`,
`t`, `f`, `n` and a space, `,`, `}` or `]` comes later, the parser returns, on enough fuel,
the Number whose text is the longest prefix from `c` on that holds none of these four
terminators, unvalidated; the stream is left at the terminator.  On `12ab,` it returns the
Number `12ab` with `,` left. -/
theorem number_keeps_raw_text (k : Nat) (c : Char) (s : istream) (hsp : c ≠ ' ')
    (hop : opener c = false) (hterm : s.any terminator = true)
    (n : Nat) (hn : (c :: s).length + 2 ≤ n) :
    Document.parse n (List.replicate k ' ' ++ c :: s)
        = .ok (.Number ((c :: s).takeWhile fun x => !terminator x),
            (c :: s).dropWhile fun x => !terminator x)
      ∧ ((c :: s).takeWhile fun x => !terminator x)
          ++ ((c :: s).dropWhile fun x => !terminator x) = c :: s
      ∧ (∀ p, p <+: c :: s → p.all (fun x => !terminator x) = true →
          p <+: (c :: s).takeWhile fun x => !terminator x)
      ∧ ∃ t, peek ((c :: s).dropWhile fun x => !terminator x) = some t
          ∧ terminator t = true :=
  parse_Number_read k c s hsp hop hterm n hn

theorem number_keeps_raw_text_witness :
    '1' ≠ ' '
      ∧ Document.parse 7 "12ab,".toList = .ok (.Number "12ab".toList, [',']) :=
  ⟨by decide,
    (number_keeps_raw_text 0 '1' "2ab,".toList (by decide) rfl rfl 7 (by decide)).1⟩


/-! ## The String case -/

/-- C17 as stated fails.  In the body `\\"` each `\` is followed by one more character and
the `"` is preceded by a `\`; of `"\\""` the parser reads the String `\\`, the two
backslashes being one escape pair and the quote of the body closing the String, and leaves
the last quote unread. -/
theorem string_body_counterexample :
    specEscaped quoteAfterBackslashes = true
      ∧ Document.parse 4 ('"' :: quoteAfterBackslashes ++ ['"'])
          = .ok (.String ['\\', '\\'], ['"'])
      ∧ ∀ fuel v rest, Document.parse fuel ('"' :: quoteAfterBackslashes ++ ['"'])
          = .ok (v, rest) → v ≠ .String quoteAfterBackslashes := by
  refine ⟨by decide, rfl, ?_⟩
  intro fuel v rest hp
  have h4 : Document.parse 4 ('"' :: quoteAfterBackslashes ++ ['"'])
      = .ok (.String ['\\', '\\'], ['"']) := rfl
  have := parse_det (n := fuel) (m := 4) (by rw [hp]; simp) (by rw [h4]; simp)
  rw [hp, h4] at this
  simp only [Result.ok.injEq, Prod.mk.injEq] at this
  rw [this.1]
  intro e
  injection e with e
  exact absurd e (by decide)

/-- Claim C17, amended.  A body made of single characters other than `"` and `\` and of
pairs of a `\` and any one character is read back verbatim: on enough fuel `"`, the body,
`"` and any rest parse to the String of the body, escapes uninterpreted, both quotes
consumed and the rest left unread. -/
theorem string_body_verbatim (body : string) (h : escaped body = true) (rest : istream)
    (n : Nat) (hn : body.length + 2 ≤ n) :
    Document.parse n ('"' :: body ++ '"' :: rest) = .ok (.String body, rest) :=
  parse_String_read h hn rest

theorem string_body_verbatim_witness :
    escaped "a\\\"b\\\\".toList = true
      ∧ Document.parse 8 ('"' :: "a\\\"b\\\\".toList ++ '"' :: ",1".toList)
        = .ok (.String "a\\\"b\\\\".toList, ",1".toList) :=
  ⟨by decide, string_body_verbatim "a\\\"b\\\\".toList (by decide) ",1".toList 8 (by decide)⟩


/-! ## What is skipped before a token -/

/-- Without a terminator ahead the Number loop never leaves. -/
theorem parseNumberLoop_unterminated : ∀ (s : istream),
    s.all (fun x => !terminator x) = true →
    ∀ (n : Nat) (value : string), Document.parseNumberLoop n value s = .timeout
  | [], _, n, value => parseNumberLoop_eof n value
  | a :: r, h, n, value => by
    cases n with
    | zero => rfl
    | succ n =>
      simp only [List.all_cons, Bool.and_eq_true, Bool.not_eq_true'] at h
      have ha : ¬ (peek (a :: r) = some ' ' ∨ peek (a :: r) = some ',' ∨ peek (a :: r) = some '}'
          ∨ peek (a :: r) = some ']') := by
        have := h.1
        simp only [terminator, Bool.or_eq_false_iff, decide_eq_false_iff_not] at this
        simp only [peek, List.head?_cons, Option.some.injEq]
        tauto
      rw [Document.parseNumberLoop, if_pos ha]
      exact parseNumberLoop_unterminated r (by simpa using h.2) n _

theorem parse_spaces (n k : Nat) (s : istream) :
    Document.parse n (List.replicate k ' ' ++ s) = Document.parse n s := by
  rw [← parse_clrWS n (List.replicate k ' ' ++ s), clrWS_replicate, parse_clrWS]

/-- A tab or a newline at the head of the stream sends `parse` to the default case, the
character still in the stream. -/
theorem parse_tab {c : Char} (hc : c = '\t' ∨ c = '\n') (n : Nat) (s : istream) :
    Document.parse (n + 1) (c :: s) = Document.parseNumber n (c :: s) := by
  have hsp : c ≠ ' ' := by rcases hc with h | h <;> rw [h] <;> decide
  have hop : opener c = false := by rcases hc with h | h <;> rw [h] <;> decide
  have hclr : Document.clrWS (c :: s) = c :: s := clrWS_cons_ne _ hsp
  rw [parse_default (by rw [hclr]; intro x hx; simp only [peek, List.head?_cons,
      Option.some.injEq] at hx; rw [← hx]; exact hop), hclr]

/-- C18 as stated fails.  The stream made of a tab and `true` begins with a tab, and no run
of the parser on it returns a Number: the tab is not skipped and the default case is
taken, but the Number loop stops only at a space, `,`, `}` or `]`, and none follows.  The
same holds of the streams made of one tab and of one newline. -/
theorem tab_before_literal_counterexample :
    "\ttrue".toList.head? = some '\t'
      ∧ "\ttrue".toList.any terminator = false
      ∧ (∀ fuel w rest, Document.parse fuel "\ttrue".toList ≠ .ok (.Number w, rest))
      ∧ (∀ fuel w rest, Document.parse fuel ['\t'] ≠ .ok (.Number w, rest))
      ∧ (∀ fuel w rest, Document.parse fuel ['\n'] ≠ .ok (.Number w, rest)) := by
  have hdiv : ∀ c, c = '\t' ∨ c = '\n' → ∀ s, s.all (fun x => !terminator x) = true →
      ∀ fuel, Document.parse fuel (c :: s) = .timeout := by
    intro c hc s hs fuel
    have hnt : terminator c = false := by rcases hc with h | h <;> rw [h] <;> decide
    cases fuel with
    | zero => rfl
    | succ n =>
      rw [parse_tab hc, Document.parseNumber, parseNumberLoop_unterminated (c :: s)
        (by simp only [List.all_cons, hnt, Bool.not_false, hs, Bool.and_self])]
  refine ⟨rfl, by decide, ?_, ?_, ?_⟩
  · intro fuel w rest h
    have ht : Document.parse fuel "\ttrue".toList = .timeout :=
      hdiv '\t' (Or.inl rfl) "true".toList (by decide) fuel
    rw [ht] at h
    exact Result.noConfusion h
  · intro fuel w rest h
    rw [hdiv '\t' (Or.inl rfl) [] rfl fuel] at h
    exact Result.noConfusion h
  · intro fuel w rest h
    rw [hdiv '\n' (Or.inr rfl) [] rfl fuel] at h
    exact Result.noConfusion h

/-- Claim C18, amended.  Any number of spaces before an input changes nothing of its parse.
A tab or a newline is not skipped: when the input `c :: s` begins with a tab or a newline
`c` and `s` holds a later space, `,`, `}` or `]`, the parser returns, on enough fuel and
after any `k` spaces, the Number whose text is `c` followed by `s` up to its first such
terminator, and leaves the stream at that terminator. -/
theorem space_skipped_tab_kept (c : Char) (hc : c = '\t' ∨ c = '\n') (s : istream)
    (hs : s.any terminator = true) (n : Nat) (hn : s.length + 3 ≤ n) :
    (∀ m k t, Document.parse m (List.replicate k ' ' ++ t) = Document.parse m t)
      ∧ (∀ k, Document.parse n (List.replicate k ' ' ++ c :: s)
          = .ok (.Number (c :: s.takeWhile fun x => !terminator x),
              s.dropWhile fun x => !terminator x))
      ∧ ∃ t, (s.dropWhile fun x => !terminator x).head? = some t ∧ terminator t = true := by
  have hnt : terminator c = false := by rcases hc with h | h <;> rw [h] <;> decide
  have hsp : c ≠ ' ' := by rcases hc with h | h <;> rw [h] <;> decide
  have hop : opener c = false := by rcases hc with h | h <;> rw [h] <;> decide
  refine ⟨parse_spaces, ?_, ?_⟩
  · intro k
    have := (parse_Number_read k c s hsp hop hs n (by simp only [List.length_cons]; omega)).1
    simpa [List.takeWhile, List.dropWhile, hnt] using this
  · obtain ⟨_, t, ht, htt⟩ := takeWhile_terminator s hs
    exact ⟨t, ht, htt⟩

/-- C18, amended, on a tab before `1,`: the Number read is the tab and `1`, where `1,`
alone gives the Number `1`; three spaces before `1,` change nothing. -/
theorem space_skipped_tab_kept_witness :
    "1,".toList.any terminator = true
      ∧ Document.parse 5 "\t1,".toList = .ok (.Number "\t1".toList, [','])
      ∧ Document.parse 5 "1,".toList = .ok (.Number "1".toList, [','])
      ∧ Document.parse 5 "   1,".toList = Document.parse 5 "1,".toList :=
  ⟨rfl,
    ((space_skipped_tab_kept '\t' (Or.inl rfl) "1,".toList rfl 5 (by decide)).2.1 0),
    rfl,
    (space_skipped_tab_kept '\t' (Or.inl rfl) "1,".toList rfl 5 (by decide)).1 5 3
      "1,".toList⟩


/-! ## What follows a value in the stream -/

theorem clrWS_append {a : istream} (t : istream) (h : Document.clrWS a ≠ []) :
    Document.clrWS (a ++ t) = Document.clrWS a ++ t := by
  induction a with
  | nil => exact absurd rfl h
  | cons c r ih =>
    by_cases hc : c = ' '
    · subst hc
      rw [clrWS_space] at h
      rw [List.cons_append, clrWS_space, clrWS_space, ih h]
    · rw [List.cons_append, clrWS_cons_ne _ hc, clrWS_cons_ne _ hc, List.cons_append]

theorem ignore_one_append {a : istream} (t : istream) (h : a ≠ []) :
    ignore (a ++ t) 1 = ignore a 1 ++ t := by
  cases a with
  | nil => exact absurd rfl h
  | cons c r => rfl

theorem peek_append {a : istream} (t : istream) (h : a ≠ []) : peek (a ++ t) = peek a := by
  cases a with
  | nil => exact absurd rfl h
  | cons c r => rfl

theorem clrWS_ne_nil {a : istream} (h : Document.clrWS a ≠ []) : a ≠ [] := by
  intro e; rw [e] at h; exact h rfl

theorem ignore_ne_nil {a : istream} {k : Nat} (h : ignore a k ≠ []) : a ≠ [] := by
  intro e; rw [e] at h; exact h (by simp [ignore])

theorem skipComma_append {a : istream} (t : istream) (h : Document.skipComma a ≠ []) :
    Document.skipComma (a ++ t) = Document.skipComma a ++ t := by
  unfold Document.skipComma at h ⊢
  by_cases hc : peek (Document.clrWS a) = some ','
  · rw [if_pos hc] at h
    have h1 : Document.clrWS a ≠ [] := ignore_ne_nil (clrWS_ne_nil h)
    rw [clrWS_append t h1, peek_append t h1, if_pos hc, if_pos hc, ignore_one_append t h1,
      clrWS_append t h]
  · rw [if_neg hc] at h
    rw [clrWS_append t h, peek_append t h, if_neg hc, if_neg hc]

/-- The Number loop does not look past the terminator it stops at. -/
theorem parseNumberLoop_append (t : istream) (n : Nat) : ∀ (value : string) (is : istream)
    (r : string) (is2 : istream), Document.parseNumberLoop n value is = .ok (r, is2) →
    Document.parseNumberLoop n value (is ++ t) = .ok (r, is2 ++ t) := by
  induction n with
  | zero => intro value is r is2 h; simp [Document.parseNumberLoop] at h
  | succ n ih =>
    intro value is r is2 h
    cases is with
    | nil => rw [parseNumberLoop_eof] at h; simp at h
    | cons c s =>
      rw [Document.parseNumberLoop] at h ⊢
      simp only [List.cons_append, peek, List.head?_cons, get] at h ⊢
      split at h
      · rename_i hc
        rw [if_pos hc]
        exact ih _ _ _ _ h
      · rename_i hc
        rw [if_neg hc]
        simp only [Result.ok.injEq, Prod.mk.injEq] at h
        rw [h.1, ← h.2]
        rfl

/-- The String loop does not look past the quote it stops at. -/
theorem parseStringLoop_append (t : istream) (n : Nat) : ∀ (value : string) (is : istream)
    (r : string) (is2 : istream), Document.parseStringLoop n value is = .ok (r, is2) →
    Document.parseStringLoop n value (is ++ t) = .ok (r, is2 ++ t) := by
  induction n with
  | zero => intro value is r is2 h; simp [Document.parseStringLoop] at h
  | succ n ih =>
    intro value is r is2 h
    cases is with
    | nil => rw [parseStringLoop_eof] at h; simp at h
    | cons c s =>
      rw [Document.parseStringLoop] at h ⊢
      simp only [List.cons_append, peek, List.head?_cons, get] at h ⊢
      split at h
      · rename_i hc
        rw [if_pos hc]
        split at h
        · rename_i hb
          rw [if_pos hb]
          cases s with
          | nil =>
            simp only [get] at h
            rw [parseStringLoop_eof] at h
            simp at h
          | cons b s2 =>
            simp only [get, List.cons_append] at h ⊢
            exact ih _ _ _ _ h
        · rename_i hb
          rw [if_neg hb]
          exact ih _ _ _ _ h
      · rename_i hc
        rw [if_neg hc]
        simp only [Result.ok.injEq, Prod.mk.injEq] at h
        rw [h.1, ← h.2]
        rfl

theorem parseObjectLoop_nil {p : istream → Result (Value × istream)}
    (hnil : ∀ r, p [] ≠ .ok r) (f : Nat) (values : List (string × Value))
    (insertOrder : List string) (r : Value × istream) :
    Document.parseObjectLoop p f values insertOrder [] ≠ .ok r := by
  cases f with
  | zero => simp [Document.parseObjectLoop]
  | succ f =>
    rw [Document.parseObjectLoop]
    simp only [peek, List.head?_nil, ne_eq, not_false_eq_true, if_true, reduceCtorEq]
    cases hp : p [] with
    | ok x => exact absurd hp (hnil x)
    | undefined => simp
    | timeout => simp

theorem parseArrayLoop_nil {p : istream → Result (Value × istream)}
    (hnil : ∀ r, p [] ≠ .ok r) (f : Nat) (values : List Value) (r : Value × istream) :
    Document.parseArrayLoop p f values [] ≠ .ok r := by
  cases f with
  | zero => simp [Document.parseArrayLoop]
  | succ f =>
    rw [Document.parseArrayLoop]
    simp only [peek, List.head?_nil, ne_eq, not_false_eq_true, if_true, reduceCtorEq]
    cases hp : p [] with
    | ok x => exact absurd hp (hnil x)
    | undefined => simp
    | timeout => simp

/-- The Object loop does not look past the `}` it stops at, when the recursive call does
not look past a value that something follows. -/
theorem parseObjectLoop_append {p : istream → Result (Value × istream)} (t : istream)
    (hnil : ∀ r, p [] ≠ .ok r)
    (hp : ∀ is v rest, p is = .ok (v, rest) → rest ≠ [] → p (is ++ t) = .ok (v, rest ++ t))
    (f : Nat) : ∀ (values : List (string × Value)) (insertOrder : List string) (is : istream)
    (v : Value) (rest : istream),
    Document.parseObjectLoop p f values insertOrder is = .ok (v, rest) →
    Document.parseObjectLoop p f values insertOrder (is ++ t) = .ok (v, rest ++ t) := by
  induction f with
  | zero => intro values insertOrder is v rest h; simp [Document.parseObjectLoop] at h
  | succ f ih =>
    intro values insertOrder is v rest h
    have his : is ≠ [] := by
      intro e; rw [e] at h; exact parseObjectLoop_nil hnil _ _ _ _ h
    rw [Document.parseObjectLoop] at h ⊢
    rw [peek_append t his]
    by_cases hc : peek is ≠ some '}'
    · rw [if_pos hc] at h ⊢
      cases hk : p is with
      | ok kr =>
        obtain ⟨kv, is2⟩ := kr
        rw [hk] at h
        cases kv with
        | String key =>
          simp only at h
          cases hv : p (Document.clrWS (ignore (Document.clrWS is2) 1)) with
          | ok vr =>
            obtain ⟨val, is3⟩ := vr
            rw [hv] at h
            simp only at h
            have hx : Document.clrWS (ignore (Document.clrWS is2) 1) ≠ [] := by
              intro e; rw [e] at hv; exact hnil _ hv
            have h2 : Document.clrWS is2 ≠ [] := ignore_ne_nil (clrWS_ne_nil hx)
            have his2 : is2 ≠ [] := clrWS_ne_nil h2
            have hsk : Document.skipComma is3 ≠ [] := by
              intro e; rw [e] at h; exact parseObjectLoop_nil hnil _ _ _ _ h
            have his3 : is3 ≠ [] := by
              intro e; rw [e] at hsk; exact hsk rfl
            rw [hp is _ is2 hk his2]
            simp only
            rw [clrWS_append t h2, ignore_one_append t h2, clrWS_append t hx,
              hp _ val is3 hv his3]
            simp only
            rw [skipComma_append t hsk]
            exact ih _ _ _ _ _ h
          | undefined => rw [hv] at h; simp at h
          | timeout => rw [hv] at h; simp at h
        | Object a b => simp at h
        | Array a => simp at h
        | True => simp at h
        | False => simp at h
        | Null => simp at h
        | Number a => simp at h
      | undefined => rw [hk] at h; simp at h
      | timeout => rw [hk] at h; simp at h
    · rw [if_neg hc] at h ⊢
      simp only [Result.ok.injEq, Prod.mk.injEq] at h
      rw [ignore_one_append t his, h.1, h.2]

/-- The Array loop does not look past the `]` it stops at, when the recursive call does not
look past a value that something follows. -/
theorem parseArrayLoop_append {p : istream → Result (Value × istream)} (t : istream)
    (hnil : ∀ r, p [] ≠ .ok r)
    (hp : ∀ is v rest, p is = .ok (v, rest) → rest ≠ [] → p (is ++ t) = .ok (v, rest ++ t))
    (f : Nat) : ∀ (values : List Value) (is : istream) (v : Value) (rest : istream),
    Document.parseArrayLoop p f values is = .ok (v, rest) →
    Document.parseArrayLoop p f values (is ++ t) = .ok (v, rest ++ t) := by
  induction f with
  | zero => intro values is v rest h; simp [Document.parseArrayLoop] at h
  | succ f ih =>
    intro values is v rest h
    have his : is ≠ [] := by
      intro e; rw [e] at h; exact parseArrayLoop_nil hnil _ _ _ h
    rw [Document.parseArrayLoop] at h ⊢
    rw [peek_append t his]
    by_cases hc : peek is ≠ some ']'
    · rw [if_pos hc] at h ⊢
      cases hv : p is with
      | ok vr =>
        obtain ⟨val, is2⟩ := vr
        rw [hv] at h
        simp only at h
        have hsk : Document.skipComma is2 ≠ [] := by
          intro e; rw [e] at h; exact parseArrayLoop_nil hnil _ _ _ h
        have his2 : is2 ≠ [] := by
          intro e; rw [e] at hsk; exact hsk rfl
        rw [hp is val is2 hv his2]
        simp only
        rw [skipComma_append t hsk]
        exact ih _ _ _ _ h
      | undefined => rw [hv] at h; simp at h
      | timeout => rw [hv] at h; simp at h
    · rw [if_neg hc] at h ⊢
      simp only [Result.ok.injEq, Prod.mk.injEq] at h
      rw [ignore_one_append t his, h.1, h.2]


/-- The String loop stops at a quote. -/
theorem parseStringLoop_stops (n : Nat) : ∀ (value : string) (is : istream)
    (r : string) (is2 : istream), Document.parseStringLoop n value is = .ok (r, is2) →
    peek is2 = some '"' := by
  induction n with
  | zero => intro value is r is2 h; simp [Document.parseStringLoop] at h
  | succ n ih =>
    intro value is r is2 h
    rw [Document.parseStringLoop] at h
    split at h
    · split at h
      · exact ih _ _ _ _ h
      · exact ih _ _ _ _ h
    · rename_i hc
      simp only [Result.ok.injEq, Prod.mk.injEq] at h
      rw [← h.2]
      simpa using hc

/-- The parser does not look past the value it returns, when something follows the value
or the stream does not end inside a literal. -/
theorem parse_append (t : istream) : ∀ (n : Nat) (s : istream) (v : Value) (rest : istream),
    Document.parse n s = .ok (v, rest) → (rest ≠ [] ∨ wholeLiteral s = true) →
    Document.parse n (s ++ t) = .ok (v, rest ++ t) := by
  intro n
  induction n with
  | zero => intro s v rest h; simp [Document.parse] at h
  | succ n ih =>
    intro s v rest h hw
    have hnil : ∀ r, Document.parse n [] ≠ .ok r := by
      intro r; rw [parse_eof]; simp
    have hp : ∀ is v rest, Document.parse n is = .ok (v, rest) → rest ≠ [] →
        Document.parse n (is ++ t) = .ok (v, rest ++ t) :=
      fun is v rest h1 h2 => ih is v rest h1 (Or.inl h2)
    have hs : Document.clrWS s ≠ [] := by
      intro e
      rw [Document.parse, e] at h
      simp [peek, Document.parseNumber, parseNumberLoop_eof] at h
    obtain ⟨c, hpk⟩ : ∃ c, peek (Document.clrWS s) = some c := by
      cases hcl : Document.clrWS s with
      | nil => exact absurd hcl hs
      | cons a r => exact ⟨a, rfl⟩
    have hlit : ∀ k, (rest = ignore (Document.clrWS s) k) →
        (rest ≠ [] ∨ k ≤ (Document.clrWS s).length) →
        ignore (Document.clrWS s ++ t) k = rest ++ t := by
      intro k hr hk
      have hle : k ≤ (Document.clrWS s).length := by
        rcases hk with hk | hk
        · by_contra hlt
          apply hk
          rw [hr, ignore, List.drop_eq_nil_iff]
          omega
        · exact hk
      rw [hr, ignore, ignore, List.drop_append_of_le_length hle]
    rw [Document.parse] at h ⊢
    rw [clrWS_append t hs, peek_append t hs, hpk]
    rw [hpk] at h
    simp only at h ⊢
    unfold wholeLiteral at hw
    rw [hpk] at hw
    simp only at hw
    by_cases h1 : c = '"'
    · simp only [if_pos h1] at h ⊢
      cases hl : Document.parseStringLoop n [] (ignore (Document.clrWS s) 1) with
      | ok r =>
        obtain ⟨value, is2⟩ := r
        rw [hl] at h
        simp only [Result.ok.injEq, Prod.mk.injEq] at h
        have his2 : is2 ≠ [] := by
          intro e
          have := parseStringLoop_stops n _ _ _ _ hl
          rw [e] at this
          simp [peek] at this
        rw [ignore_one_append t hs, parseStringLoop_append t n _ _ _ _ hl]
        simp only
        rw [ignore_one_append t his2, h.1, h.2]
      | undefined => rw [hl] at h; simp at h
      | timeout => rw [hl] at h; simp at h
    · simp only [if_neg h1] at h ⊢
      by_cases h2 : c = '{'
      · simp only [if_pos h2] at h ⊢
        have hx : Document.clrWS (ignore (Document.clrWS s) 1) ≠ [] := by
          intro e; rw [e] at h; exact parseObjectLoop_nil hnil _ _ _ _ h
        rw [ignore_one_append t hs, clrWS_append t hx]
        exact parseObjectLoop_append t hnil hp n _ _ _ _ _ h
      · simp only [if_neg h2] at h ⊢
        by_cases h3 : c = '['
        · simp only [if_pos h3] at h ⊢
          have hx : Document.clrWS (ignore (Document.clrWS s) 1) ≠ [] := by
            intro e; rw [e] at h; exact parseArrayLoop_nil hnil _ _ _ h
          rw [ignore_one_append t hs, clrWS_append t hx]
          exact parseArrayLoop_append t hnil hp n _ _ _ _ h
        · simp only [if_neg h3] at h ⊢
          by_cases h4 : c = 't'
          · simp only [if_pos h4, Result.ok.injEq, Prod.mk.injEq] at h ⊢
            refine ⟨h.1, hlit 4 h.2.symm ?_⟩
            rcases hw with hw | hw
            · exact Or.inl hw
            · rw [if_pos (Or.inl h4)] at hw
              exact Or.inr (by simpa using hw)
          · simp only [if_neg h4] at h ⊢
            by_cases h5 : c = 'f'
            · simp only [if_pos h5, Result.ok.injEq, Prod.mk.injEq] at h ⊢
              refine ⟨h.1, hlit 5 h.2.symm ?_⟩
              rcases hw with hw | hw
              · exact Or.inl hw
              · have hne : ¬ (c = 't' ∨ c = 'n') := by rw [h5]; decide
                rw [if_neg hne, if_pos h5] at hw
                exact Or.inr (by simpa using hw)
            · simp only [if_neg h5] at h ⊢
              by_cases h6 : c = 'n'
              · simp only [if_pos h6, Result.ok.injEq, Prod.mk.injEq] at h ⊢
                refine ⟨h.1, hlit 4 h.2.symm ?_⟩
                rcases hw with hw | hw
                · exact Or.inl hw
                · rw [if_pos (Or.inr h6)] at hw
                  exact Or.inr (by simpa using hw)
              · simp only [if_neg h6] at h ⊢
                unfold Document.parseNumber at h ⊢
                cases hl : Document.parseNumberLoop n [] (Document.clrWS s) with
                | ok r =>
                  obtain ⟨value, is2⟩ := r
                  rw [hl] at h
                  simp only [Result.ok.injEq, Prod.mk.injEq] at h
                  rw [parseNumberLoop_append t n _ _ _ _ hl]
                  simp only [h.1, h.2]
                | undefined => rw [hl] at h; simp at h
                | timeout => rw [hl] at h; simp at h


/-- Claim C19.  When the parser succeeds on an input `s` that does not end inside a literal
(a `t` or `n` has its 4 characters, an `f` its 5), it returns on `s` followed by any text
`t` the same tree on the same fuel and leaves `t` unread, after whatever it left of `s`;
for `s` a whole string, object, array or literal nothing is left of `s`, and the stream is
left at `t`. -/
theorem trailing_content_ignored (n : Nat) (s t : istream) (v : Value) (rest : istream)
    (h : Document.parse n s = .ok (v, rest)) (hw : wholeLiteral s = true) :
    Document.parse n (s ++ t) = .ok (v, rest ++ t) :=
  parse_append t n s v rest h (Or.inr hw)

theorem trailing_content_ignored_witness :
    Document.parse 10 mixedText = .ok (mixedTree, [])
      ∧ wholeLiteral mixedText = true
      ∧ Document.parse 10 (mixedText ++ "] trailing".toList)
        = .ok (mixedTree, "] trailing".toList) :=
  ⟨rfl, rfl, trailing_content_ignored 10 mixedText "] trailing".toList mixedTree [] rfl rfl⟩


/-! ## What a filter result holds -/

theorem reachesBareValues_false (args : List string) (values : List (string × Value)) :
    Value.reachesBareValues args values = false ↔
      ∀ k v, (k, v) ∈ values → k ∈ args ∨ Value.reachesBare args v = false := by
  induction values with
  | nil => simp [Value.reachesBareValues]
  | cons e rest ih =>
    obtain ⟨k0, v0⟩ := e
    simp only [Value.reachesBareValues, Bool.or_eq_false_iff, ih, List.mem_cons, Prod.mk.injEq,
      Bool.and_eq_false_iff, Bool.not_eq_false', decide_eq_true_eq]
    constructor
    · rintro ⟨h0, hr⟩ k v (⟨rfl, rfl⟩ | h)
      · exact h0
      · exact hr k v h
    · intro h
      exact ⟨h k0 v0 (Or.inl ⟨rfl, rfl⟩), fun k v hkv => h k v (Or.inr hkv)⟩

theorem reachesBareArray_false (args : List string) (values : List Value) :
    Value.reachesBareArray args values = false ↔
      ∀ v ∈ values, Value.reachesBare args v = false := by
  induction values with
  | nil => simp [Value.reachesBareArray]
  | cons e rest ih => simp [Value.reachesBareArray, ih]

/-- In what the Filter returns, no path that avoids the keys of `args` ends at a scalar or
at an empty container. -/
theorem Filter_visit_guarded (args : List string) : ∀ v, Value.wellFormed v = true →
    ∀ r, Document.Filter.visit args v = .ok (some r) →
      Value.reachesBare args r = false ∧ r.isContainer = true := by
  apply Value.induct
  · intro s _ r h; simp [Document.Filter.visit] at h
  · intro values insertOrder ih h r hr
    rw [Filter_visit_Object args (wellFormed_consistent h)] at hr
    rw [wellFormed_Object_iff] at h
    split at hr
    · simp at hr
    · rename_i hne
      simp only [Result.ok.injEq, Option.some.injEq] at hr
      subst hr
      refine ⟨?_, rfl⟩
      simp only [Value.reachesBare, Bool.or_eq_false_iff]
      constructor
      · cases he : Document.Filter.entries args values insertOrder with
        | nil => rw [he] at hne; simp at hne
        | cons e es =>
          have hk : e.1 ∈ mapKeys (mapSetAll [] (e :: es)) :=
            (mem_mapKeys_mapSetAll _ _ _).mpr (Or.inr (by simp [mapKeys]))
          cases hm : mapSetAll [] (e :: es) with
          | nil => rw [hm] at hk; simp [mapKeys] at hk
          | cons a b => rfl
      · rw [reachesBareValues_false]
        intro k x hkx
        rcases mem_mapSetAll _ _ _ _ hkx with hkx | hkx
        · simp at hkx
        · obtain ⟨v0, hg, _, hcase⟩ := Filter_mem_entries hkx
          rcases hcase with ⟨hin, _⟩ | ⟨_, hf⟩
          · exact Or.inl hin
          · have hm := mem_of_mapGet hg
            exact Or.inr (ih k v0 hm (h.2 k v0 hm) x (Filter_found_some hf)).1
  · intro values ih h r hr
    rw [Filter_visit_Array args (wellFormed_consistent h)] at hr
    rw [wellFormed_Array_iff] at h
    split at hr
    · simp at hr
    · rename_i hne
      simp only [Result.ok.injEq, Option.some.injEq] at hr
      subst hr
      refine ⟨?_, rfl⟩
      simp only [Value.reachesBare, Bool.or_eq_false_iff]
      constructor
      · simpa using hne
      · rw [reachesBareArray_false]
        intro x hx
        simp only [Document.Filter.survivors, List.mem_filterMap] at hx
        obtain ⟨v0, hv0, hf⟩ := hx
        exact (ih v0 hv0 (h v0 hv0) x (Filter_found_some hf)).1
  · intro _ r h; simp [Document.Filter.visit] at h
  · intro _ r h; simp [Document.Filter.visit] at h
  · intro _ r h; simp [Document.Filter.visit] at h
  · intro s _ r h; simp [Document.Filter.visit] at h

/-- Claim C20.  In the document `filter` returns for a well-formed tree, when it holds a
tree `r`: every path from the root of `r` to a String, Number, True, False or Null, or to a
container without entries, passes through an Object entry whose key is among the
arguments, and the root of `r` is an Object or an Array, never a scalar. -/
theorem filter_result_reached_through_keys (args : List string) (v r : Value)
    (h : Value.wellFormed v = true)
    (hr : Document.filter ⟨some v⟩ args = .ok ⟨some r⟩) :
    Value.reachesBare args r = false ∧ r.isContainer = true := by
  rw [Document_filter_eq args h] at hr
  simp only [Result.ok.injEq, Document.mk.injEq] at hr
  exact Filter_visit_guarded args v h r (Filter_found_some hr)

theorem filter_result_reached_through_keys_witness :
    Value.wellFormed nestedTree = true
      ∧ Document.filter ⟨some nestedTree⟩ ["c".toList]
        = .ok ⟨some (.Object [("b".toList, .Object [("c".toList, .Number "3".toList)]
            ["c".toList])] ["b".toList])⟩
      ∧ Value.reachesBare ["c".toList]
          (.Object [("b".toList, .Object [("c".toList, .Number "3".toList)]
            ["c".toList])] ["b".toList]) = false :=
  ⟨by decide, rfl,
    (filter_result_reached_through_keys ["c".toList] nestedTree _ (by decide) rfl).1⟩


/-! ## Copies and destruction in the free store -/

/-- The destructor of a document frees the cell of the root and changes no other cell. -/
theorem destructor_frees_root_only (st : Store) (p : Nat) (node : Node)
    (h : st.cells[p]? = some (some node)) :
    ∃ st2, Document.destructor st (some p) = .ok st2
      ∧ st2.cells[p]? = some none
      ∧ ∀ c, c ≠ p → st2.cells[c]? = st.cells[c]? := by
  refine ⟨⟨st.cells.set p none⟩, ?_, ?_, ?_⟩
  · simp only [Document.destructor, Store.delete, h]
  · have hlt : p < st.cells.length := by
      by_contra hge
      rw [List.getElem?_eq_none (by omega)] at h
      simp at h
    simp [List.getElem?_set, hlt]
  · intro c hc
    simp only [List.getElem?_set]
    rw [if_neg (fun e => hc e.symm)]

/-- Claim C14, where the code departs from it.  A document holds the tree of `[1]`, its
Array in cell 0 and its Number in cell 1.  Its `copy` lies in the fresh cells 2 and 3 and
shares no node with it, and after the destruction of the source the copy still serializes
as `[1]`.  But the destruction frees cell 0 alone: the Number of cell 1, a node of the
destroyed document, stays allocated.  The destructor of any document changes no cell but
that of the root. -/
theorem destructor_leaves_children :
    arrayOneStore.tree 2 0 = some (.Array [.Number ['1']])
      ∧ (∃ st1, Document.copyStore 2 arrayOneStore (some 0) = .ok (st1, some 2)
          ∧ st1.cells = arrayOneStore.cells ++ [some (.Array [3]), some (.Number ['1'])]
          ∧ ∃ st2, Document.destructor st1 (some 0) = .ok st2
            ∧ Document.outputStore 2 st2 (some 2) = some (.ok ['[', '1', ']'])
            ∧ st2.cells[0]? = some none
            ∧ st2.cells[1]? = some (some (.Number ['1'])))
      ∧ ∀ (st : Store) (p : Nat) (node : Node), st.cells[p]? = some (some node) →
          ∃ st2, Document.destructor st (some p) = .ok st2
            ∧ ∀ c, c ≠ p → st2.cells[c]? = st.cells[c]? := by
  refine ⟨rfl, ⟨_, rfl, rfl, _, rfl, rfl, rfl, rfl⟩, ?_⟩
  intro st p node h
  obtain ⟨st2, h1, _, h3⟩ := destructor_frees_root_only st p node h
  exact ⟨st2, h1, h3⟩


/-- The copy constructor, once it returns, has freed the cell whose address lay in the
member `head` when the body started, unless that was the null pointer; the cell was
allocated after the Duplicator ran. -/
theorem copyConstructor_frees (fuel : Nat) (st : Store) (q p : Nat) (st3 : Store)
    (c : Option Nat)
    (h : Document.copyConstructor fuel st (some q) (some p) = .ok (st3, c)) :
    st3.cells[q]? = some none
      ∧ ∃ st2 copy node, Document.Duplicator.visitStore fuel st p = .ok (st2, copy)
          ∧ st2.cells[q]? = some (some node) ∧ c = some copy := by
  simp only [Document.copyConstructor] at h
  cases hv : Document.Duplicator.visitStore fuel st p with
  | ok r =>
    obtain ⟨st2, copy⟩ := r
    rw [hv] at h
    simp only [Store.delete] at h
    cases hq : st2.cells[q]? with
    | none => rw [hq] at h; exact Result.noConfusion h
    | some cell =>
      cases cell with
      | none => rw [hq] at h; exact Result.noConfusion h
      | some node =>
        rw [hq] at h
        simp only [Result.ok.injEq, Prod.mk.injEq] at h
        have hlt : q < st2.cells.length := by
          by_contra hge
          rw [List.getElem?_eq_none (by omega)] at hq
          exact Option.noConfusion hq
        refine ⟨?_, st2, copy, node, rfl, hq, h.2.symm⟩
        rw [← h.1]
        simp [List.getElem?_set, hlt]
  | undefined => rw [hv] at h; exact Result.noConfusion h
  | timeout => rw [hv] at h; exact Result.noConfusion h

/-- Claim C13, where the code departs from it.  The Duplicator rebuilds a well-formed tree
node for node (the same variant, String and Number texts, Array elements in the same
order, Object keys in the same insertion order), so `copy` and assignment give a document
whose `output` and `print` are those of the source.  The copy constructor runs the same
Duplicator and then `delete head;` on a member that nothing has initialised.  On a source
that holds the tree of `[1]` in cells 0 and 1: when the member happens to be null the new
document holds a copy in cells 2 and 3; when it holds an address that is not allocated
the deletion is undefined; when it holds the address of the root of the source, that root
is freed and the source can no longer be read; when it holds the address the Duplicator
gives the copy, the new document is left with a dangling `head`.  For every value but
null a constructor that returns has freed an allocated cell. -/
theorem copy_constructor_deletes_uninitialised :
    (∀ v, Value.wellFormed v = true →
        Document.Duplicator.visit v = .ok v
          ∧ Document.copy ⟨some v⟩ = .ok ⟨some v⟩
          ∧ (∀ self, Document.assign self ⟨some v⟩ = .ok ⟨some v⟩)
          ∧ ∀ c, Document.copy ⟨some v⟩ = .ok c →
              Document.output c = Document.output ⟨some v⟩
                ∧ Document.print c = Document.print ⟨some v⟩)
      ∧ Document.outputStore 2 arrayOneStore (some 0) = some (.ok ['[', '1', ']'])
      ∧ (∃ st1, Document.copyConstructor 2 arrayOneStore none (some 0) = .ok (st1, some 2)
          ∧ st1.cells = arrayOneStore.cells ++ [some (.Array [3]), some (.Number ['1'])]
          ∧ Document.outputStore 2 st1 (some 2) = some (.ok ['[', '1', ']'])
          ∧ Document.outputStore 2 st1 (some 0) = some (.ok ['[', '1', ']']))
      ∧ Document.copyConstructor 2 arrayOneStore (some 7) (some 0) = .undefined
      ∧ (∃ st1, Document.copyConstructor 2 arrayOneStore (some 0) (some 0) = .ok (st1, some 2)
          ∧ st1.cells[0]? = some none
          ∧ Document.outputStore 2 st1 (some 0) = none)
      ∧ (∃ st1, Document.copyConstructor 2 arrayOneStore (some 2) (some 0) = .ok (st1, some 2)
          ∧ st1.cells[2]? = some none
          ∧ Document.outputStore 2 st1 (some 2) = none)
      ∧ ∀ fuel st q p st3 c,
          Document.copyConstructor fuel st (some q) (some p) = .ok (st3, c) →
          st3.cells[q]? = some none
            ∧ ∃ st2 copy node, Document.Duplicator.visitStore fuel st p = .ok (st2, copy)
                ∧ st2.cells[q]? = some (some node) ∧ c = some copy := by
  refine ⟨?_, rfl, ⟨_, rfl, rfl, rfl, rfl⟩, rfl, ⟨_, rfl, rfl, rfl⟩, ⟨_, rfl, rfl, rfl⟩,
    copyConstructor_frees⟩
  intro v h
  have hv := Duplicator_visit_eq v h
  obtain ⟨hc, ha⟩ := copy_assign_eq v h
  refine ⟨hv, hc, ha, ?_⟩
  intro c hcc
  rw [hc] at hcc
  cases hcc
  exact ⟨rfl, rfl⟩


/-! ## The structural round trip -/

theorem keepsLast_of_numberFilled : ∀ v, Value.all Value.numberFilled v = true →
    Value.all Value.keepsLast v = true := by
  apply Value.induct
  · intro s _; rfl
  · intro values insertOrder ih h
    rw [all_Object_iff] at h ⊢
    exact ⟨rfl, fun k v hkv => ih k v hkv (h.2 k v hkv)⟩
  · intro values ih h
    rw [all_Array_iff] at h ⊢
    refine ⟨?_, fun v hv => ih v hv (h.2 v hv)⟩
    simp only [Value.keepsLast]
    cases hl : values.getLast? with
    | none => rfl
    | some e =>
      have he : e ∈ values := List.mem_of_getLast?_eq_some hl
      have := h.2 e he
      cases e with
      | Number s =>
        cases s with
        | nil => simp [Value.all, Value.numberFilled] at this
        | cons c r => rfl
      | _ => rfl
  · intro _; rfl
  · intro _; rfl
  · intro _; rfl
  · intro s _; rfl

/-- Claim C24.  A tree that is not a Number at the root, whose Objects hold each key once,
whose String texts and keys are escaped and whose Number texts are not empty, hold no
space, `,`, `}` or `]` and do not begin with `"`, `{`, `[`, `t`, `f` or `n`, is read back
from its exported text: `output` returns a text, and on every fuel from some fuel on the
parser returns on that text the tree itself and leaves nothing of the text. -/
theorem structural_round_trip (v : Value) (hroot : v.isNumber = false)
    (h : Value.all Value.plain v = true) :
    ∃ t, Document.output ⟨some v⟩ = .ok t
      ∧ ∃ N, ∀ n, N ≤ n → Document.parse n t = .ok (v, []) := by
  have hb : Value.all Value.built v = true :=
    Value.all_mono (fun n hn => by
      simp only [Value.plain, Bool.and_eq_true] at hn; exact hn.1) v h
  have hf : Value.all Value.numberFilled v = true :=
    Value.all_mono (fun n hn => by
      simp only [Value.plain, Bool.and_eq_true] at hn; exact hn.2) v h
  obtain ⟨N, t, ht, hp⟩ := readsBack_of_built v hb (keepsLast_of_numberFilled v hf)
  refine ⟨t, by simpa [Document.output] using ht, N, ?_⟩
  intro n hn
  have := hp n hn [] (by simp [Value.delimited, hroot])
  simpa using this

theorem structural_round_trip_witness :
    mixedTree.isNumber = false ∧ Value.all Value.plain mixedTree = true
      ∧ ∃ t, Document.output ⟨some mixedTree⟩ = .ok t
        ∧ ∃ N, ∀ n, N ≤ n → Document.parse n t = .ok (mixedTree, []) :=
  ⟨rfl, by decide, structural_round_trip mixedTree rfl (by decide)⟩


/-! ## Filtering twice -/

theorem filterMap_eq_self {α : Type} (f : α → Option α) :
    ∀ (l : List α), (∀ x ∈ l, f x = some x) → l.filterMap f = l
  | [], _ => rfl
  | a :: l, h => by
    rw [List.filterMap_cons, h a (List.mem_cons_self _ _)]
    simp only [List.cons.injEq, true_and]
    exact filterMap_eq_self f l (fun x hx => h x (List.mem_cons_of_mem _ hx))

/-- The entries of a filtered Object under the stored values `m`, from the entries of `m`
under the keys. -/
theorem Filter_entries_eq_filterMap (args : List string) (m : List (string × Value))
    (keys : List string) :
    Document.Filter.entries args m keys
      = (entriesOf m keys).filterMap fun kv =>
          if kv.1 ∈ args then some kv
          else (Document.Filter.found args kv.2).map fun r => (kv.1, r) := by
  induction keys with
  | nil => rfl
  | cons k keys ih =>
    rw [Filter_entries_cons, ih]
    cases hg : mapGet m k with
    | none => simp [entriesOf, hg]
    | some v =>
      rw [entriesOf_cons m k keys hg, List.filterMap_cons]
      simp only
      by_cases hk : k ∈ args
      · simp only [hk, if_true]
        rfl
      · simp only [hk, if_false]
        cases Document.Filter.found args v <;> rfl

/-- What the Filter returns is returned again by the Filter run on it. -/
theorem Filter_visit_idem (args : List string) : ∀ v, Value.wellFormed v = true →
    ∀ r, Document.Filter.visit args v = .ok (some r) →
      Document.Filter.visit args r = .ok (some r) := by
  apply Value.induct
  · intro s _ r h; simp [Document.Filter.visit] at h
  · intro values insertOrder ih h r hr
    have hwr := Filter_visit_wellFormed args _ h r hr
    rw [Filter_visit_Object args (wellFormed_consistent h)] at hr
    rw [wellFormed_Object_iff] at h
    obtain ⟨⟨hs, hnd, hk⟩, hv⟩ := h
    split at hr
    · simp at hr
    · rename_i hne
      simp only [Result.ok.injEq, Option.some.injEq] at hr
      subst hr
      have hnd2 : (mapKeys (Document.Filter.entries args values insertOrder)).Nodup :=
        (Filter_mapKeys_entries_sublist args values insertOrder).nodup hnd
      have hE : Document.Filter.entries args
          (mapSetAll [] (Document.Filter.entries args values insertOrder))
          (mapKeys (Document.Filter.entries args values insertOrder))
          = Document.Filter.entries args values insertOrder := by
        rw [Filter_entries_eq_filterMap, entriesOf_mapSetAll _ hnd2]
        apply filterMap_eq_self
        rintro ⟨k, x⟩ hkx
        obtain ⟨v0, hg, _, hcase⟩ := Filter_mem_entries hkx
        rcases hcase with ⟨hin, _⟩ | ⟨hnin, hf⟩
        · simp only [hin, if_true]
        · have hm := mem_of_mapGet hg
          have := ih k v0 hm (hv k v0 hm) x (Filter_found_some hf)
          simp only [hnin, if_false, Filter_found_eq this, Option.map_some']
      rw [Filter_visit_Object args (wellFormed_consistent hwr), hE, if_neg hne]
  · intro values ih h r hr
    have hwr := Filter_visit_wellFormed args _ h r hr
    rw [Filter_visit_Array args (wellFormed_consistent h)] at hr
    rw [wellFormed_Array_iff] at h
    split at hr
    · simp at hr
    · rename_i hne
      simp only [Result.ok.injEq, Option.some.injEq] at hr
      subst hr
      have hS : Document.Filter.survivors args (Document.Filter.survivors args values)
          = Document.Filter.survivors args values := by
        conv_lhs => rw [Document.Filter.survivors]
        apply filterMap_eq_self
        intro x hx
        simp only [Document.Filter.survivors, List.mem_filterMap] at hx
        obtain ⟨v0, hv0, hf⟩ := hx
        exact Filter_found_eq (ih v0 hv0 (h v0 hv0) x (Filter_found_some hf))
      rw [Filter_visit_Array args (wellFormed_consistent hwr), hS, if_neg hne]
  · intro _ r h; simp [Document.Filter.visit] at h
  · intro _ r h; simp [Document.Filter.visit] at h
  · intro _ r h; simp [Document.Filter.visit] at h
  · intro s _ r h; simp [Document.Filter.visit] at h

/-- Claim C25.  Filtering is idempotent: when `filter` returns for a well-formed tree and a
key list a document that holds a tree `r`, `filter` with the same keys on that document
returns a document that holds `r` again; on the document without a tree it returns the
document without a tree. -/
theorem filter_idempotent (args : List string) (v r : Value)
    (h : Value.wellFormed v = true)
    (hr : Document.filter ⟨some v⟩ args = .ok ⟨some r⟩) :
    Document.filter ⟨some r⟩ args = .ok ⟨some r⟩
      ∧ Document.filter Document.empty args = .ok Document.empty := by
  refine ⟨?_, rfl⟩
  rw [Document_filter_eq args h] at hr
  simp only [Result.ok.injEq, Document.mk.injEq] at hr
  have hv := Filter_found_some hr
  rw [Document_filter_eq args (Filter_visit_wellFormed args v h r hv),
    Filter_found_eq (Filter_visit_idem args v h r hv)]

theorem filter_idempotent_witness :
    Value.wellFormed nestedTree = true
      ∧ Document.filter ⟨some nestedTree⟩ ["c".toList]
        = .ok ⟨some (.Object [("b".toList, .Object [("c".toList, .Number "3".toList)]
            ["c".toList])] ["b".toList])⟩
      ∧ Document.filter ⟨some (.Object [("b".toList, .Object [("c".toList, .Number "3".toList)]
            ["c".toList])] ["b".toList])⟩ ["c".toList]
        = .ok ⟨some (.Object [("b".toList, .Object [("c".toList, .Number "3".toList)]
            ["c".toList])] ["b".toList])⟩ :=
  ⟨by decide, rfl, (filter_idempotent ["c".toList] nestedTree _ (by decide) rfl).1⟩

/-! ## The document without a tree -/

/-- Claim C27.  The document without a tree, as the default constructor makes it, prints as
`null` and serializes as the empty string; `copy` and `filter`, for every key list, return
from it the document without a tree; and `filter` returns that document for a well-formed
tree in which it finds nothing. -/
theorem empty_document_rendering :
    Document.print Document.empty = .ok ['n', 'u', 'l', 'l']
      ∧ Document.output Document.empty = .ok []
      ∧ Document.copy Document.empty = .ok Document.empty
      ∧ (∀ args, Document.filter Document.empty args = .ok Document.empty)
      ∧ (∀ args v, Value.wellFormed v = true → Document.Filter.found args v = none →
          Document.filter ⟨some v⟩ args = .ok Document.empty)
      ∧ Document.filter ⟨some nestedTree⟩ ["z".toList] = .ok Document.empty := by
  refine ⟨rfl, rfl, rfl, fun _ => rfl, ?_, rfl⟩
  intro args v h hf
  rw [Document_filter_eq args h, hf]
  rfl


/-! ## Separators -/

theorem head_not_terminator {e : string} (h : e.head?.any (fun c => !terminator c) = true) :
    ∃ c r, e = c :: r ∧ terminator c = false := by
  cases e with
  | nil => simp at h
  | cons c r => exact ⟨c, r, rfl, by simpa using h⟩

theorem terminator_ne {c : Char} (h : terminator c = false) :
    c ≠ ' ' ∧ c ≠ ',' ∧ c ≠ '}' ∧ c ≠ ']' := by
  simp only [terminator, Bool.or_eq_false_iff, decide_eq_false_iff_not] at h
  tauto

/-- After an entry: a separator `,` or ` ` before a text that begins an entry. -/
theorem skipComma_sep {sep : string} (hsep : sep = [','] ∨ sep = [' ']) {c : Char}
    (hc : terminator c = false) (s : istream) :
    Document.skipComma (sep ++ c :: s) = c :: s := by
  obtain ⟨h1, h2, _, _⟩ := terminator_ne hc
  rcases hsep with rfl | rfl
  · simp [Document.skipComma, clrWS_cons_ne, peek, ignore, h1]
  · simp [Document.skipComma, clrWS_space, clrWS_cons_ne _ h1, peek, h2]

/-- After the last entry: nothing or one comma before the closing bracket. -/
theorem skipComma_last {last : string} (hlast : last = [] ∨ last = [',']) {c : Char}
    (hc : c = ']' ∨ c = '}') (s : istream) :
    Document.skipComma (last ++ c :: s) = c :: s := by
  have h1 : c ≠ ' ' := by rcases hc with rfl | rfl <;> decide
  have h2 : c ≠ ',' := by rcases hc with rfl | rfl <;> decide
  rcases hlast with rfl | rfl
  · simp [Document.skipComma, clrWS_cons_ne _ h1, peek, h2]
  · simp [Document.skipComma, clrWS_cons_ne, peek, ignore, h1]

/-- The Array loop on entry texts joined by `,` or by a space, with or without a comma
after the last one. -/
theorem parseArrayLoop_sep {p : istream → Result (Value × istream)}
    {sep last : string} (hsep : sep = [','] ∨ sep = [' '])
    (hlast : last = [] ∨ last = [',']) :
    ∀ (e : string × Value) (es : List (string × Value)),
    (∀ x ∈ e :: es, x.1.head?.any (fun c => !terminator c) = true
      ∧ ∀ rest, rest.head?.any terminator = true → p (x.1 ++ rest) = .ok (x.2, rest)) →
    ∀ f, (e :: es).length + 1 ≤ f → ∀ acc rest,
      Document.parseArrayLoop p f acc
          (List.intercalate sep ((e :: es).map Prod.fst) ++ last ++ ']' :: rest)
        = .ok (.Array (acc ++ (e :: es).map Prod.snd), rest) := by
  intro e es
  induction es generalizing e with
  | nil =>
    intro h f hf acc rest
    obtain ⟨hh, hp⟩ := h e (List.mem_cons_self _ _)
    obtain ⟨c, r, hcr, hc⟩ := head_not_terminator hh
    obtain ⟨m, rfl⟩ : ∃ m, f = m + 2 := ⟨f - 2, by simp at hf; omega⟩
    have hpk : peek (e.1 ++ last ++ ']' :: rest) ≠ some ']' := by
      rw [hcr]
      simp only [List.cons_append, peek, List.head?_cons, ne_eq, Option.some.injEq]
      exact (terminator_ne hc).2.2.2
    have htail : (last ++ ']' :: rest).head?.any terminator = true := by
      rcases hlast with rfl | rfl <;> rfl
    have hbody : List.intercalate sep ([e].map Prod.fst) ++ last ++ ']' :: rest
        = e.1 ++ (last ++ ']' :: rest) := by
      simp [List.intercalate]
    rw [List.append_assoc] at hpk
    rw [hbody, Document.parseArrayLoop, if_pos hpk, hp _ htail]
    simp only
    rw [skipComma_last hlast (Or.inl rfl), Document.parseArrayLoop]
    simp [peek, ignore]
  | cons e2 es ih =>
    intro h f hf acc rest
    obtain ⟨hh, hp⟩ := h e (List.mem_cons_self _ _)
    obtain ⟨c, r, hcr, hc⟩ := head_not_terminator hh
    obtain ⟨hh2, _⟩ := h e2 (List.mem_cons_of_mem _ (List.mem_cons_self _ _))
    obtain ⟨c2, r2, hcr2, hc2⟩ := head_not_terminator hh2
    obtain ⟨m, rfl⟩ : ∃ m, f = m + 1 := ⟨f - 1, by simp at hf; omega⟩
    have ih' := ih e2 (fun x hx => h x (List.mem_cons_of_mem _ hx)) m
      (by simp at hf ⊢; omega) (acc ++ [e.2]) rest
    -- the text after the first entry
    have hbody : List.intercalate sep ((e :: e2 :: es).map Prod.fst) ++ last ++ ']' :: rest
        = e.1 ++ (sep ++ (List.intercalate sep ((e2 :: es).map Prod.fst)
            ++ last ++ ']' :: rest)) := by
      simp only [List.map_cons, intercalate_cons, List.isEmpty_cons, Bool.false_eq_true,
        if_false, List.append_assoc]
    have hnext : ∃ s, List.intercalate sep ((e2 :: es).map Prod.fst) ++ last ++ ']' :: rest
        = c2 :: s := by
      simp only [List.map_cons, intercalate_cons, hcr2, List.cons_append]
      exact ⟨_, rfl⟩
    obtain ⟨s, hs⟩ := hnext
    have htail : (sep ++ (List.intercalate sep ((e2 :: es).map Prod.fst)
        ++ last ++ ']' :: rest)).head?.any terminator = true := by
      rcases hsep with rfl | rfl <;> rfl
    have hpk : peek (e.1 ++ (sep ++ (List.intercalate sep ((e2 :: es).map Prod.fst)
        ++ last ++ ']' :: rest))) ≠ some ']' := by
      rw [hcr]
      simp only [List.cons_append, peek, List.head?_cons, ne_eq, Option.some.injEq]
      exact (terminator_ne hc).2.2.2
    rw [hbody, Document.parseArrayLoop, if_pos hpk, hp _ htail]
    simp only
    rw [hs, skipComma_sep hsep hc2, ← hs, ih']
    simp only [List.map_cons, List.append_assoc, List.singleton_append]


/-- The Object loop on entries `"key":text` joined by `,` or by a space, with or without a
comma after the last one. -/
theorem parseObjectLoop_sep {p : istream → Result (Value × istream)}
    {sep last : string} (hsep : sep = [','] ∨ sep = [' '])
    (hlast : last = [] ∨ last = [',']) :
    ∀ (x : string × string × Value) (xs : List (string × string × Value)),
    (∀ y ∈ x :: xs, (∀ more, p ('"' :: y.1 ++ '"' :: more) = .ok (.String y.1, more))
      ∧ y.2.1.head?.any (fun c => !terminator c) = true
      ∧ ∀ rest, rest.head?.any terminator = true → p (y.2.1 ++ rest) = .ok (y.2.2, rest)) →
    ∀ f, (x :: xs).length + 1 ≤ f → ∀ vals order rest,
      Document.parseObjectLoop p f vals order
          (List.intercalate sep ((x :: xs).map fun y => fieldText y.1 y.2.1)
            ++ last ++ '}' :: rest)
        = .ok (.Object
            (Document.insertEntries vals order ((x :: xs).map fun y => (y.1, y.2.2))).1
            (Document.insertEntries vals order ((x :: xs).map fun y => (y.1, y.2.2))).2,
            rest) := by
  intro x xs
  induction xs generalizing x with
  | nil =>
    intro h f hf vals order rest
    obtain ⟨hk, hh, hp⟩ := h x (List.mem_cons_self _ _)
    obtain ⟨c, r, hcr, hc⟩ := head_not_terminator hh
    obtain ⟨m, rfl⟩ : ∃ m, f = m + 2 := ⟨f - 2, by simp at hf; omega⟩
    have htail : (last ++ '}' :: rest).head?.any terminator = true := by
      rcases hlast with rfl | rfl <;> rfl
    have hbody : List.intercalate sep ([x].map fun y => fieldText y.1 y.2.1)
          ++ last ++ '}' :: rest
        = '"' :: x.1 ++ '"' :: ':' :: (x.2.1 ++ (last ++ '}' :: rest)) := by
      simp [List.intercalate, fieldText]
    have hclr : Document.clrWS (ignore (Document.clrWS (':' :: (x.2.1 ++ (last ++ '}' :: rest)))) 1)
        = x.2.1 ++ (last ++ '}' :: rest) := by
      rw [clrWS_cons_ne _ (by decide : ':' ≠ ' ')]
      simp only [ignore, List.drop_succ_cons, List.drop_zero]
      rw [hcr, List.cons_append, clrWS_cons_ne _ (terminator_ne hc).1]
    rw [hbody, Document.parseObjectLoop]
    simp only [peek, List.head?_cons, ne_eq, Option.some.injEq, List.cons_append]
    rw [if_pos (by decide), ← List.cons_append, hk]
    simp only
    rw [hclr, hp _ htail]
    simp only
    rw [skipComma_last hlast (Or.inr rfl), Document.parseObjectLoop]
    simp [peek, ignore, Document.insertEntries]
  | cons x2 xs ih =>
    intro h f hf vals order rest
    obtain ⟨hk, hh, hp⟩ := h x (List.mem_cons_self _ _)
    obtain ⟨c, r, hcr, hc⟩ := head_not_terminator hh
    obtain ⟨m, rfl⟩ : ∃ m, f = m + 1 := ⟨f - 1, by simp at hf; omega⟩
    have ih' := ih x2 (fun y hy => h y (List.mem_cons_of_mem _ hy)) m
      (by simp at hf ⊢; omega) (Document.insertEntry vals order x.1 x.2.2).1
      (Document.insertEntry vals order x.1 x.2.2).2 rest
    have hbody : List.intercalate sep ((x :: x2 :: xs).map fun y => fieldText y.1 y.2.1)
          ++ last ++ '}' :: rest
        = '"' :: x.1 ++ '"' :: ':' :: (x.2.1 ++ (sep ++
            (List.intercalate sep ((x2 :: xs).map fun y => fieldText y.1 y.2.1)
              ++ last ++ '}' :: rest))) := by
      simp only [List.map_cons, intercalate_cons, List.isEmpty_cons, Bool.false_eq_true,
        if_false, List.append_assoc, fieldText, List.cons_append]
    have hnext : ∃ s, List.intercalate sep ((x2 :: xs).map fun y => fieldText y.1 y.2.1)
        ++ last ++ '}' :: rest = '"' :: s := by
      simp only [List.map_cons, intercalate_cons, fieldText, List.cons_append]
      exact ⟨_, rfl⟩
    obtain ⟨s, hs⟩ := hnext
    have htail : (sep ++ (List.intercalate sep ((x2 :: xs).map fun y => fieldText y.1 y.2.1)
        ++ last ++ '}' :: rest)).head?.any terminator = true := by
      rcases hsep with rfl | rfl <;> rfl
    have hclr : ∀ t, Document.clrWS (ignore (Document.clrWS (':' :: (x.2.1 ++ t))) 1)
        = x.2.1 ++ t := by
      intro t
      rw [clrWS_cons_ne _ (by decide : ':' ≠ ' ')]
      simp only [ignore, List.drop_succ_cons, List.drop_zero]
      rw [hcr, List.cons_append, clrWS_cons_ne _ (terminator_ne hc).1]
    rw [hbody, Document.parseObjectLoop]
    simp only [peek, List.head?_cons, ne_eq, Option.some.injEq, List.cons_append]
    rw [if_pos (by decide), ← List.cons_append, hk]
    simp only
    rw [hclr, hp _ htail]
    simp only
    rw [hs, skipComma_sep hsep (by decide : terminator '"' = false), ← hs, ih']
    simp only [List.map_cons, Document.insertEntries]


theorem length_le_sum_of_mem {α : Type} (g : α → Nat) :
    ∀ (l : List α) (x : α), x ∈ l → g x ≤ (l.map g).sum
  | [], _, h => by simp at h
  | a :: l, x, h => by
    simp only [List.mem_cons] at h
    simp only [List.map_cons, List.sum_cons]
    rcases h with rfl | h
    · omega
    · have := length_le_sum_of_mem g l x h
      omega

/-- An array text of one entry or more, its entries joined by `,` or by a space, with or
without a comma after the last one, is parsed as the Array of the entries' values. -/
theorem parse_arrayText {sep last : string} (hsep : sep = [','] ∨ sep = [' '])
    (hlast : last = [] ∨ last = [',']) (N : Nat) (entries : List (string × Value))
    (hne : entries ≠ []) (h : ∀ e ∈ entries, readsEntry N e.1 e.2)
    (n : Nat) (hn : N + entries.length + 2 ≤ n) (rest : istream) :
    Document.parse n (arrayText sep last entries ++ rest)
      = .ok (.Array (entries.map Prod.snd), rest) := by
  obtain ⟨m, rfl⟩ : ∃ m, n = m + 1 := ⟨n - 1, by omega⟩
  cases entries with
  | nil => exact absurd rfl hne
  | cons e es =>
    obtain ⟨hh, _⟩ := h e (List.mem_cons_self _ _)
    obtain ⟨c, r, hcr, hc⟩ := head_not_terminator hh
    have hloop := parseArrayLoop_sep (p := Document.parse m) hsep hlast e es
      (fun x hx => ⟨(h x hx).1, fun rest hr => (h x hx).2 m (by omega) rest hr⟩)
      m (by simp only [List.length_cons] at hn ⊢; omega) [] rest
    have hbody : ∃ s, List.intercalate sep ((e :: es).map Prod.fst) ++ last ++ ']' :: rest
        = c :: s := by
      simp only [List.map_cons, intercalate_cons, hcr, List.cons_append]
      exact ⟨_, rfl⟩
    obtain ⟨s, hs⟩ := hbody
    have htext : arrayText sep last (e :: es) ++ rest
        = '[' :: (List.intercalate sep ((e :: es).map Prod.fst) ++ last ++ ']' :: rest) := by
      simp [arrayText]
    have hclr : Document.clrWS (ignore (Document.clrWS ('[' ::
          (List.intercalate sep ((e :: es).map Prod.fst) ++ last ++ ']' :: rest))) 1)
        = List.intercalate sep ((e :: es).map Prod.fst) ++ last ++ ']' :: rest := by
      rw [clrWS_cons_ne _ (by decide : '[' ≠ ' ')]
      simp only [ignore, List.drop_succ_cons, List.drop_zero]
      rw [hs, clrWS_cons_ne _ (terminator_ne hc).1]
    have hpk : peek (Document.clrWS ('[' ::
          (List.intercalate sep ((e :: es).map Prod.fst) ++ last ++ ']' :: rest)))
        = some '[' := by
      rw [clrWS_cons_ne _ (by decide : '[' ≠ ' ')]; rfl
    rw [htext, Document.parse, hpk]
    simp only
    rw [if_pos True.intro, hclr, hloop, if_neg (by decide), if_neg (by decide)]
    simp only [List.nil_append]

/-- An object text of one entry or more, its entries joined by `,` or by a space, with or
without a comma after the last one, is parsed as the Object of the entries, stored in
turn. -/
theorem parse_objectTextWith {sep last : string} (hsep : sep = [','] ∨ sep = [' '])
    (hlast : last = [] ∨ last = [',']) (N : Nat) (fields : List (string × string × Value))
    (hne : fields ≠ [])
    (h : ∀ f ∈ fields, escaped f.1 = true ∧ readsEntry N f.2.1 f.2.2)
    (n : Nat)
    (hn : N + fields.length + (fields.map fun f => f.1.length).sum + 3 ≤ n)
    (rest : istream) :
    Document.parse n (objectTextWith sep last fields ++ rest)
      = .ok (objectOf (fields.map fun f => (f.1, f.2.2)), rest) := by
  obtain ⟨m, rfl⟩ : ∃ m, n = m + 1 := ⟨n - 1, by omega⟩
  cases fields with
  | nil => exact absurd rfl hne
  | cons x xs =>
    have hlen : ∀ y ∈ x :: xs, y.1.length + 2 ≤ m := by
      intro y hy
      have h1 := length_le_sum_of_mem (fun f : string × string × Value => f.1.length)
        (x :: xs) y hy
      simp only at h1
      omega
    have hloop := parseObjectLoop_sep (p := Document.parse m) hsep hlast x xs
      (fun y hy => ⟨fun more => parse_String_read (h y hy).1 (hlen y hy) more,
        (h y hy).2.1, fun rest hr => (h y hy).2.2 m (by omega) rest hr⟩)
      m (by simp only [List.length_cons] at hn ⊢; omega) [] [] rest
    have hbody : ∃ s, List.intercalate sep ((x :: xs).map fun y => fieldText y.1 y.2.1)
        ++ last ++ '}' :: rest = '"' :: s := by
      simp only [List.map_cons, intercalate_cons, fieldText, List.cons_append]
      exact ⟨_, rfl⟩
    obtain ⟨s, hs⟩ := hbody
    have htext : objectTextWith sep last (x :: xs) ++ rest
        = '{' :: (List.intercalate sep ((x :: xs).map fun y => fieldText y.1 y.2.1)
            ++ last ++ '}' :: rest) := by
      simp [objectTextWith]
    have hclr : Document.clrWS (ignore (Document.clrWS ('{' ::
          (List.intercalate sep ((x :: xs).map fun y => fieldText y.1 y.2.1)
            ++ last ++ '}' :: rest))) 1)
        = List.intercalate sep ((x :: xs).map fun y => fieldText y.1 y.2.1)
            ++ last ++ '}' :: rest := by
      rw [clrWS_cons_ne _ (by decide : '{' ≠ ' ')]
      simp only [ignore, List.drop_succ_cons, List.drop_zero]
      rw [hs, clrWS_cons_ne _ (by decide : '"' ≠ ' ')]
    have hpk : peek (Document.clrWS ('{' ::
          (List.intercalate sep ((x :: xs).map fun y => fieldText y.1 y.2.1)
            ++ last ++ '}' :: rest)))
        = some '{' := by
      rw [clrWS_cons_ne _ (by decide : '{' ≠ ' ')]; rfl
    rw [htext, Document.parse, hpk]
    simp only
    rw [if_pos True.intro, hclr, hloop, if_neg (by decide)]
    rfl

/-- The text of a Number, begun by no opener and holding no terminator, stands for the
Number. -/
theorem readsEntry_Number (c : Char) (s : string) (hc : terminator c = false)
    (hop : opener c = false) (hs : s.all (fun x => !terminator x) = true) :
    readsEntry (s.length + 3) (c :: s) (.Number (c :: s)) := by
  refine ⟨by simp [hc], ?_⟩
  intro n hn rest hr
  cases rest with
  | nil => simp at hr
  | cons t rest =>
    simp only [List.head?_cons, Option.any_some] at hr
    have hall : (c :: s).all (fun x => !terminator x) = true := by
      simp only [List.all_cons, hc, Bool.not_false, hs, Bool.and_self]
    have := parseNumberLoop_read (c :: s) hall (t :: rest) ⟨t, rfl, hr⟩ (n - 1)
      (by simp only [List.length_cons]; omega) []
    obtain ⟨m, rfl⟩ : ∃ m, n = m + 1 := ⟨n - 1, by omega⟩
    have hclr : Document.clrWS (c :: s ++ t :: rest) = c :: s ++ t :: rest :=
      clrWS_cons_ne _ (terminator_ne hc).1
    rw [parse_default (by
      rw [hclr]; intro x hx
      simp only [List.cons_append, peek, List.head?_cons, Option.some.injEq] at hx
      rw [← hx]; exact hop), hclr]
    simp only [Nat.add_sub_cancel] at this
    simp only [Document.parseNumber, this, List.nil_append]


/-- C26 as stated fails.  The array without entries is `[]`; with one extra comma before
the closing bracket it is `[,]`, which is parsed as the Array of one Number of empty text,
not as the empty Array.  The object `{,}` is not parsed at all: the key position holds a
Number, and the run ends in the dereference of a null pointer. -/
theorem trailing_comma_counterexample :
    arrayText [','] [] [] = ['[', ']'] ∧ arrayText [','] [','] [] = ['[', ',', ']']
      ∧ Document.parse 2 ['[', ']'] = .ok (.Array [], [])
      ∧ Document.parse 3 ['[', ',', ']'] = .ok (.Array [.Number []], [])
      ∧ (∀ fuel v rest, Document.parse fuel ['[', ',', ']'] = .ok (v, rest) → v ≠ .Array [])
      ∧ Document.parse 2 ['{', '}'] = .ok (.Object [] [], [])
      ∧ Document.parse 3 ['{', ',', '}'] = .undefined := by
  refine ⟨rfl, rfl, rfl, rfl, ?_, rfl, rfl⟩
  intro fuel v rest hp
  have h3 : Document.parse 3 ['[', ',', ']'] = .ok (.Array [.Number []], []) := rfl
  have := parse_det (n := fuel) (m := 3) (by rw [hp]; simp) (by rw [h3]; simp)
  rw [hp, h3] at this
  simp only [Result.ok.injEq, Prod.mk.injEq] at this
  rw [this.1]
  intro e
  injection e with e
  exact absurd e (by simp)

/-- Claim C26, amended.  For an array and an object of one entry or more, whose entry texts
stand for their values whenever a space, `,`, `}` or `]` follows and whose keys are
escaped: the text with the entries joined by commas, the text with each of these commas
replaced by a space, and the text with one more comma before the closing bracket are
parsed, on enough fuel, as the same tree, the Array of the values (the Object of the
entries, stored in turn), with what follows the closing bracket left unread. -/
theorem separators_optional (N : Nat) (entries : List (string × Value))
    (fields : List (string × string × Value))
    (hentries : entries ≠ [] ∧ ∀ e ∈ entries, readsEntry N e.1 e.2)
    (hfields : fields ≠ [] ∧ ∀ f ∈ fields, escaped f.1 = true ∧ readsEntry N f.2.1 f.2.2)
    (n : Nat)
    (hn : N + entries.length + fields.length + (fields.map fun f => f.1.length).sum + 3 ≤ n)
    (rest : istream) :
    (Document.parse n (arrayText [','] [] entries ++ rest)
        = .ok (.Array (entries.map Prod.snd), rest)
      ∧ Document.parse n (arrayText [' '] [] entries ++ rest)
        = .ok (.Array (entries.map Prod.snd), rest)
      ∧ Document.parse n (arrayText [','] [','] entries ++ rest)
        = .ok (.Array (entries.map Prod.snd), rest))
    ∧ (Document.parse n (objectTextWith [','] [] fields ++ rest)
        = .ok (objectOf (fields.map fun f => (f.1, f.2.2)), rest)
      ∧ Document.parse n (objectTextWith [' '] [] fields ++ rest)
        = .ok (objectOf (fields.map fun f => (f.1, f.2.2)), rest)
      ∧ Document.parse n (objectTextWith [','] [','] fields ++ rest)
        = .ok (objectOf (fields.map fun f => (f.1, f.2.2)), rest)) := by
  have ha : N + entries.length + 2 ≤ n := by omega
  have hf : N + fields.length + (fields.map fun f => f.1.length).sum + 3 ≤ n := by omega
  exact ⟨⟨parse_arrayText (Or.inl rfl) (Or.inl rfl) N entries hentries.1 hentries.2 n ha rest,
      parse_arrayText (Or.inr rfl) (Or.inl rfl) N entries hentries.1 hentries.2 n ha rest,
      parse_arrayText (Or.inl rfl) (Or.inr rfl) N entries hentries.1 hentries.2 n ha rest⟩,
    ⟨parse_objectTextWith (Or.inl rfl) (Or.inl rfl) N fields hfields.1 hfields.2 n hf rest,
      parse_objectTextWith (Or.inr rfl) (Or.inl rfl) N fields hfields.1 hfields.2 n hf rest,
      parse_objectTextWith (Or.inl rfl) (Or.inr rfl) N fields hfields.1 hfields.2 n hf rest⟩⟩

theorem separators_optional_witness :
    (Document.parse 12 "[1,2]".toList = .ok (.Array [.Number ['1'], .Number ['2']], [])
      ∧ Document.parse 12 "[1 2]".toList = .ok (.Array [.Number ['1'], .Number ['2']], [])
      ∧ Document.parse 12 "[1,2,]".toList = .ok (.Array [.Number ['1'], .Number ['2']], []))
    ∧ (Document.parse 12 "\x7b\"a\":1,\"b\":2\x7d".toList
        = .ok (objectOf [(['a'], .Number ['1']), (['b'], .Number ['2'])], [])
      ∧ Document.parse 12 "\x7b\"a\":1 \"b\":2\x7d".toList
        = .ok (objectOf [(['a'], .Number ['1']), (['b'], .Number ['2'])], [])
      ∧ Document.parse 12 "\x7b\"a\":1,\"b\":2,\x7d".toList
        = .ok (objectOf [(['a'], .Number ['1']), (['b'], .Number ['2'])], [])) :=
  separators_optional 3 oneTwo fieldsAB
    ⟨by simp [oneTwo], fun e he => by
      simp only [oneTwo, List.mem_cons, List.mem_singleton, List.not_mem_nil, or_false] at he
      rcases he with rfl | rfl
      · exact readsEntry_Number '1' [] (by decide) (by decide) rfl
      · exact readsEntry_Number '2' [] (by decide) (by decide) rfl⟩
    ⟨by simp [fieldsAB], fun f hf => by
      simp only [fieldsAB, List.mem_cons, List.mem_singleton, List.not_mem_nil, or_false] at hf
      rcases hf with rfl | rfl
      · exact ⟨rfl, readsEntry_Number '1' [] (by decide) (by decide) rfl⟩
      · exact ⟨rfl, readsEntry_Number '2' [] (by decide) (by decide) rfl⟩⟩
    12 (by decide) []


/-! ## Object texts in any layout -/

theorem separator_head (m : Member) :
    m.separator = [] ∨ ∃ c r, m.separator = c :: r ∧ terminator c = true := by
  unfold Member.separator
  cases m.afterValue with
  | zero =>
    cases m.comma with
    | false => exact Or.inl rfl
    | true => exact Or.inr ⟨',', _, rfl, rfl⟩
  | succ a => exact Or.inr ⟨' ', _, rfl, rfl⟩

/-- After an entry: its separator is skipped up to the next key or the closing brace. -/
theorem skipComma_separator (m : Member) {t : Char} (h1 : t ≠ ' ') (h2 : t ≠ ',')
    (s : istream) : Document.skipComma (m.separator ++ t :: s) = t :: s := by
  simp only [Member.separator, Document.skipComma, List.append_assoc, clrWS_replicate]
  cases m.comma with
  | false => simp [clrWS_cons_ne _ h1, peek, h2]
  | true => simp [clrWS_cons_ne, peek, ignore, clrWS_replicate, h1]

theorem membersLayout_head (members : List Member) (rest : istream) :
    ∃ t s, membersLayout members ++ '}' :: rest = t :: s ∧ t ≠ ' ' ∧ t ≠ ','
      ∧ (members = [] → t = '}') := by
  cases members with
  | nil => exact ⟨'}', rest, rfl, by decide, by decide, fun _ => rfl⟩
  | cons x xs =>
    exact ⟨'"', _, rfl, by decide, by decide, fun h => absurd h (List.cons_ne_nil _ _)⟩

/-- The Object loop on entries in any layout, for keys that are pairwise distinct and
value texts the recursive call reads: it stores the entries in the order of the text. -/
theorem parseObjectLoop_layout {p : istream → Result (Value × istream)} :
    ∀ (members : List Member), separated members = true →
    (members.map Member.key).Nodup →
    (∀ m ∈ members, (∀ more, p ('"' :: m.key ++ '"' :: more) = .ok (.String m.key, more))
      ∧ m.text.head?.any (fun c => !terminator c) = true
      ∧ ∀ rest, rest.head?.any terminator = true → p (m.text ++ rest) = .ok (m.value, rest)) →
    ∀ f, members.length + 1 ≤ f → ∀ vals order rest,
      (∀ k ∈ members.map Member.key, k ∉ order) →
      Document.parseObjectLoop p f vals order (membersLayout members ++ '}' :: rest)
        = .ok (.Object (mapSetAll vals (members.map Member.pair))
            (order ++ members.map Member.key), rest) := by
  intro members
  induction members with
  | nil =>
    intro _ _ _ f hf vals order rest _
    obtain ⟨m, rfl⟩ : ∃ m, f = m + 1 := ⟨f - 1, by simp at hf; omega⟩
    simp [Document.parseObjectLoop, peek, ignore, membersLayout, mapSetAll]
  | cons x xs ih =>
    intro hsep hnd h f hf vals order rest hnot
    obtain ⟨m, rfl⟩ : ∃ m, f = m + 1 := ⟨f - 1, by simp at hf; omega⟩
    simp only [List.map_cons, List.nodup_cons] at hnd
    obtain ⟨hk, hh, hp⟩ := h x (List.mem_cons_self _ _)
    obtain ⟨c, r, hcr, hc⟩ := head_not_terminator hh
    have hsep2 : (xs = [] ∨ x.separator ≠ []) ∧ separated xs = true := by
      cases xs with
      | nil => exact ⟨Or.inl rfl, rfl⟩
      | cons y ys =>
        simp only [separated, Bool.and_eq_true, Bool.not_eq_true', List.isEmpty_eq_false] at hsep
        exact ⟨Or.inr hsep.1, hsep.2⟩
    obtain ⟨t, s, hts, ht1, ht2, ht3⟩ := membersLayout_head xs rest
    have hko : x.key ∉ order := hnot x.key (by simp)
    have hnot2 : ∀ k ∈ xs.map Member.key, k ∉ order ++ [x.key] := by
      intro k hk2 hmem
      simp only [List.mem_append, List.mem_singleton] at hmem
      rcases hmem with hmem | hmem
      · exact hnot k (by simp only [List.map_cons]; exact List.mem_cons_of_mem _ hk2) hmem
      · rw [hmem] at hk2; exact hnd.1 hk2
    have ih2 := ih hsep2.2 hnd.2 (fun y hy => h y (List.mem_cons_of_mem _ hy)) m
      (by simp at hf ⊢; omega) (mapSet vals x.key x.value) (order ++ [x.key]) rest hnot2
    have hins : Document.insertEntry vals order x.key x.value
        = (mapSet vals x.key x.value, order ++ [x.key]) := by
      simp only [Document.insertEntry, List.erase_of_not_mem hko]
    have htail : (x.separator ++ (membersLayout xs ++ '}' :: rest)).head?.any terminator
        = true := by
      rcases separator_head x with h0 | ⟨c2, r2, h2, hc2⟩
      · rcases hsep2.1 with hx | hx
        · rw [h0, hx]; rfl
        · exact absurd h0 hx
      · rw [h2]; simpa using hc2
    have hbody : membersLayout (x :: xs) ++ '}' :: rest
        = '"' :: x.key ++ '"' :: (List.replicate x.beforeColon ' '
            ++ ':' :: (List.replicate x.afterColon ' '
              ++ (x.text ++ (x.separator ++ (membersLayout xs ++ '}' :: rest))))) := by
      simp only [membersLayout, Member.layout, List.append_assoc, List.cons_append]
    have hclr : Document.clrWS (ignore (Document.clrWS (List.replicate x.beforeColon ' '
            ++ ':' :: (List.replicate x.afterColon ' '
              ++ (x.text ++ (x.separator ++ (membersLayout xs ++ '}' :: rest)))))) 1)
        = x.text ++ (x.separator ++ (membersLayout xs ++ '}' :: rest)) := by
      rw [clrWS_replicate, clrWS_cons_ne _ (by decide : ':' ≠ ' ')]
      simp only [ignore, List.drop_succ_cons, List.drop_zero]
      rw [clrWS_replicate, hcr, List.cons_append, clrWS_cons_ne _ (terminator_ne hc).1]
    rw [hbody, Document.parseObjectLoop]
    simp only [peek, List.head?_cons, ne_eq, Option.some.injEq, List.cons_append]
    rw [if_pos (by decide), ← List.cons_append, hk]
    simp only
    rw [hclr, hp _ htail]
    simp only
    rw [hts, skipComma_separator x ht1 ht2, ← hts, hins, ih2]
    simp [mapSetAll_cons, Member.pair]

/-- An object text in any layout, its keys pairwise distinct, is parsed as the Object that
holds its entries in the order of the text. -/
theorem parse_objectLayout (lead : Nat) (members : List Member) (N : Nat)
    (hnd : (members.map Member.key).Nodup) (hsep : separated members = true)
    (h : ∀ m ∈ members, escaped m.key = true ∧ readsEntry N m.text m.value)
    (n : Nat) (hn : N + members.length + (members.map fun m => m.key.length).sum + 3 ≤ n)
    (rest : istream) :
    Document.parse n (objectLayout lead members ++ rest)
      = .ok (.Object (mapSetAll [] (members.map Member.pair)) (members.map Member.key),
          rest) := by
  obtain ⟨m, rfl⟩ : ∃ m, n = m + 1 := ⟨n - 1, by omega⟩
  have hlen : ∀ y ∈ members, y.key.length + 2 ≤ m := by
    intro y hy
    have h1 := length_le_sum_of_mem (fun f : Member => f.key.length) members y hy
    simp only at h1
    omega
  have hloop := parseObjectLoop_layout (p := Document.parse m) members hsep hnd
    (fun y hy => ⟨fun more => parse_String_read (h y hy).1 (hlen y hy) more,
      (h y hy).2.1, fun rest hr => (h y hy).2.2 m (by omega) rest hr⟩)
    m (by omega) [] [] rest (fun _ _ hm => by simp at hm)
  obtain ⟨t, s, hts, ht1, _, _⟩ := membersLayout_head members rest
  have htext : objectLayout lead members ++ rest
      = '{' :: (List.replicate lead ' ' ++ (membersLayout members ++ '}' :: rest)) := by
    simp [objectLayout]
  have hclr : Document.clrWS (ignore (Document.clrWS ('{' ::
        (List.replicate lead ' ' ++ (membersLayout members ++ '}' :: rest)))) 1)
      = membersLayout members ++ '}' :: rest := by
    rw [clrWS_cons_ne _ (by decide : '{' ≠ ' ')]
    simp only [ignore, List.drop_succ_cons, List.drop_zero]
    rw [clrWS_replicate, hts, clrWS_cons_ne _ ht1]
  have hpk : peek (Document.clrWS ('{' ::
        (List.replicate lead ' ' ++ (membersLayout members ++ '}' :: rest))))
      = some '{' := by
    rw [clrWS_cons_ne _ (by decide : '{' ≠ ' ')]; rfl
  rw [htext, Document.parse, hpk]
  simp only
  rw [if_pos True.intro, hclr, hloop, if_neg (by decide)]
  rfl

theorem readsEntry_mono {N M : Nat} (hNM : N ≤ M) {e : string} {v : Value}
    (h : readsEntry N e v) : readsEntry M e v :=
  ⟨h.1, fun n hn rest hr => h.2 n (Nat.le_trans hNM hn) rest hr⟩

/-- An object text in any layout is itself the text of an entry: objects nest. -/
theorem readsEntry_objectLayout (lead : Nat) (members : List Member) (N : Nat)
    (hnd : (members.map Member.key).Nodup) (hsep : separated members = true)
    (h : ∀ m ∈ members, escaped m.key = true ∧ readsEntry N m.text m.value) :
    readsEntry (N + members.length + (members.map fun m => m.key.length).sum + 3)
      (objectLayout lead members)
      (.Object (mapSetAll [] (members.map Member.pair)) (members.map Member.key)) :=
  ⟨rfl, fun n hn rest _ => parse_objectLayout lead members N hnd hsep h n hn rest⟩

/-- A String between its quotes is the text of an entry. -/
theorem readsEntry_String (body : string) (h : escaped body = true) :
    readsEntry (body.length + 2) ('"' :: body ++ ['"']) (.String body) := by
  refine ⟨rfl, ?_⟩
  intro n hn rest _
  have := parse_String_read h hn rest
  simpa using this

/-- The literals are texts of entries. -/
theorem readsEntry_literal :
    readsEntry 1 "true".toList .True ∧ readsEntry 1 "false".toList .False
      ∧ readsEntry 1 "null".toList .Null := by
  refine ⟨⟨rfl, ?_⟩, ⟨rfl, ?_⟩, ⟨rfl, ?_⟩⟩ <;>
  · intro n hn rest _
    obtain ⟨m, rfl⟩ : ∃ m, n = m + 1 := ⟨n - 1, by omega⟩
    rfl

/-- An array text is itself the text of an entry: arrays nest. -/
theorem readsEntry_arrayText {sep last : string} (hsep : sep = [','] ∨ sep = [' '])
    (hlast : last = [] ∨ last = [',']) (N : Nat) (entries : List (string × Value))
    (hne : entries ≠ []) (h : ∀ e ∈ entries, readsEntry N e.1 e.2) :
    readsEntry (N + entries.length + 2) (arrayText sep last entries)
      (.Array (entries.map Prod.snd)) :=
  ⟨rfl, fun n hn rest _ => parse_arrayText hsep hlast N entries hne h n hn rest⟩

theorem abcMembers_read :
    ∀ m ∈ abcMembers, escaped m.key = true ∧ readsEntry 3 m.text m.value := by
  intro m hm
  simp only [abcMembers, List.mem_cons, List.mem_singleton, List.not_mem_nil, or_false] at hm
  rcases hm with rfl | rfl | rfl
  · exact ⟨rfl, readsEntry_Number '1' [] rfl rfl rfl⟩
  · exact ⟨rfl, readsEntry_Number '2' [] rfl rfl rfl⟩
  · exact ⟨rfl, readsEntry_Number '3' [] rfl rfl rfl⟩

theorem spacedMembers_read :
    ∀ m ∈ spacedMembers, escaped m.key = true ∧ readsEntry 3 m.text m.value := by
  intro m hm
  simp only [spacedMembers, List.mem_cons, List.mem_singleton, List.not_mem_nil,
    or_false] at hm
  rcases hm with rfl | rfl
  · exact ⟨rfl, readsEntry_Number '1' [] rfl rfl rfl⟩
  · exact ⟨rfl, readsEntry_Number '2' [] rfl rfl rfl⟩

theorem innerMembers_read :
    ∀ m ∈ innerMembers, escaped m.key = true ∧ readsEntry 3 m.text m.value := by
  intro m hm
  simp only [innerMembers, List.mem_singleton] at hm
  rw [hm]
  exact ⟨rfl, readsEntry_Number '1' [] rfl rfl rfl⟩

theorem nestedMembers_read :
    ∀ m ∈ nestedMembers, escaped m.key = true ∧ readsEntry 8 m.text m.value := by
  intro m hm
  simp only [nestedMembers, List.mem_cons, List.mem_singleton, List.not_mem_nil,
    or_false] at hm
  rcases hm with rfl | rfl
  · exact ⟨rfl, readsEntry_objectLayout 0 innerMembers 3 (by decide) rfl innerMembers_read⟩
  · exact ⟨rfl, readsEntry_mono (by decide) (readsEntry_Number '2' [] rfl rfl rfl)⟩

/-- Claim C10: order preservation.  An object text in any layout: `{`, any spaces, then
entries, each a key between quotes, any spaces, a colon, any spaces, the text of its value
(any text the parser reads as a value when a space, `,`, `}` or `]` follows, nested
Objects and Arrays in any layout among them), any spaces and, with or without a comma and
more spaces, the next entry or `}`.  When the keys are pairwise distinct, the parser
returns on any sufficient fuel the Object whose `insertOrder` is the keys in the order of
the text and whose map answers each key with its value, and printing that document writes
one line for each entry in exactly that order. -/
theorem parsed_keys_print_in_order (lead : Nat) (members : List Member) (N : Nat)
    (hnd : (members.map Member.key).Nodup) (hsep : separated members = true)
    (h : ∀ m ∈ members, escaped m.key = true ∧ readsEntry N m.text m.value) :
    ∃ values,
      (∀ n, N + members.length + (members.map fun m => m.key.length).sum + 3 ≤ n →
        ∀ rest, Document.parse n (objectLayout lead members ++ rest)
          = .ok (.Object values (members.map Member.key), rest))
      ∧ (∀ k, mapGet values k = mapGet (members.map Member.pair) k)
      ∧ (∀ m ∈ members, ∃ t, Document.Printer.visit 1 m.value = .ok t)
      ∧ Document.print ⟨some (.Object values (members.map Member.key))⟩
          = .ok (['{', '\n'] ++ printedEntries 1 (members.map Member.pair)
              ++ ['\n', '}']) := by
  have hkeys : mapKeys (members.map Member.pair) = members.map Member.key := by
    simp only [mapKeys, List.map_map]
    rfl
  have hnd2 : (mapKeys (members.map Member.pair)).Nodup := by rw [hkeys]; exact hnd
  have hget : ∀ k, mapGet (mapSetAll [] (members.map Member.pair)) k
      = mapGet (members.map Member.pair) k := by
    intro k
    rw [mapGet_mapSetAll _ [] k hnd2]
    cases mapGet (members.map Member.pair) k <;> rfl
  have hcons : ∀ m ∈ members, Value.all Value.consistent m.value = true := by
    intro m hm
    have hp := (h m hm).2.2 N (Nat.le_refl _) [','] rfl
    refine Value.all_mono (fun x hx => ?_) m.value (parse_built N _ _ _ hp)
    simp only [Value.built, Bool.and_eq_true] at hx
    exact hx.1.2
  refine ⟨mapSetAll [] (members.map Member.pair),
    fun n hn rest => parse_objectLayout lead members N hnd hsep h n hn rest, hget,
    fun m hm => Printer_visit_defined m.value (hcons m hm) 1, ?_⟩
  have hdef : ∀ k ∈ mapKeys (members.map Member.pair),
      ∃ v t, mapGet (mapSetAll [] (members.map Member.pair)) k = some v
        ∧ Document.Printer.visit 1 v = .ok t := by
    intro k hk
    have hsome := (mapGet_isSome_iff (members.map Member.pair) k).mpr hk
    cases hg : mapGet (members.map Member.pair) k with
    | none => rw [hg] at hsome; exact absurd hsome (by simp)
    | some v =>
      have hmem := mem_of_mapGet hg
      simp only [List.mem_map] at hmem
      obtain ⟨m, hm, hmp⟩ := hmem
      have hv : m.value = v := congrArg Prod.snd hmp
      obtain ⟨t, ht⟩ := Printer_visit_defined m.value (hcons m hm) 1
      exact ⟨v, t, by rw [hget, hg], by rw [← hv]; exact ht⟩
  rw [← hkeys]
  simp only [Document.print, Document.Printer.visit,
    Printer_objectLoop_eq 1 (mapSetAll [] (members.map Member.pair))
      (mapKeys (members.map Member.pair)) hdef,
    entriesOf_mapSetAll (members.map Member.pair) hnd2, Document.Printer.printTabs]
  simp

/-- C10 on `{"a":1,"b":2,"c":3}`, whose printing lists a, then b, then c; on
`{ "a" : 1 , "b" : 2 }`, with spaces around the colons and the comma; and on
`{"a":{"x":1},"b":2}`, whose first value is an Object. -/
theorem parsed_keys_print_in_order_witness :
    (objectLayout 0 abcMembers = "\x7b\"a\":1,\"b\":2,\"c\":3\x7d".toList
      ∧ abcMembers.map Member.key = [['a'], ['b'], ['c']]
      ∧ Document.parse 10 "\x7b\"a\":1,\"b\":2,\"c\":3\x7d".toList
          = .ok (.Object [(['a'], .Number ['1']), (['b'], .Number ['2']),
              (['c'], .Number ['3'])] [['a'], ['b'], ['c']], [])
      ∧ ['{', '\n'] ++ printedEntries 1 (abcMembers.map Member.pair) ++ ['\n', '}']
          = "\x7b\n  \"a\": 1,\n  \"b\": 2,\n  \"c\": 3\n\x7d".toList
      ∧ ∃ values,
          (∀ n, 3 + abcMembers.length + (abcMembers.map fun m => m.key.length).sum + 3 ≤ n →
            ∀ rest, Document.parse n (objectLayout 0 abcMembers ++ rest)
              = .ok (.Object values (abcMembers.map Member.key), rest))
          ∧ (∀ k, mapGet values k = mapGet (abcMembers.map Member.pair) k)
          ∧ (∀ m ∈ abcMembers, ∃ t, Document.Printer.visit 1 m.value = .ok t)
          ∧ Document.print ⟨some (.Object values (abcMembers.map Member.key))⟩
              = .ok (['{', '\n'] ++ printedEntries 1 (abcMembers.map Member.pair)
                  ++ ['\n', '}']))
    ∧ (objectLayout 1 spacedMembers = "\x7b \"a\" : 1 , \"b\" : 2 \x7d".toList
      ∧ spacedMembers.map Member.key = [['a'], ['b']]
      ∧ Document.parse 10 "\x7b \"a\" : 1 , \"b\" : 2 \x7d".toList
          = .ok (.Object [(['a'], .Number ['1']), (['b'], .Number ['2'])] [['a'], ['b']], [])
      ∧ ['{', '\n'] ++ printedEntries 1 (spacedMembers.map Member.pair) ++ ['\n', '}']
          = "\x7b\n  \"a\": 1,\n  \"b\": 2\n\x7d".toList
      ∧ ∃ values,
          (∀ n, 3 + spacedMembers.length + (spacedMembers.map fun m => m.key.length).sum + 3
              ≤ n →
            ∀ rest, Document.parse n (objectLayout 1 spacedMembers ++ rest)
              = .ok (.Object values (spacedMembers.map Member.key), rest))
          ∧ (∀ k, mapGet values k = mapGet (spacedMembers.map Member.pair) k)
          ∧ (∀ m ∈ spacedMembers, ∃ t, Document.Printer.visit 1 m.value = .ok t)
          ∧ Document.print ⟨some (.Object values (spacedMembers.map Member.key))⟩
              = .ok (['{', '\n'] ++ printedEntries 1 (spacedMembers.map Member.pair)
                  ++ ['\n', '}']))
    ∧ (objectLayout 0 nestedMembers = "\x7b\"a\":\x7b\"x\":1\x7d,\"b\":2\x7d".toList
      ∧ nestedMembers.map Member.key = [['a'], ['b']]
      ∧ Document.parse 15 "\x7b\"a\":\x7b\"x\":1\x7d,\"b\":2\x7d".toList
          = .ok (.Object [(['a'], .Object [(['x'], .Number ['1'])] [['x']]),
              (['b'], .Number ['2'])] [['a'], ['b']], [])
      ∧ ['{', '\n'] ++ printedEntries 1 (nestedMembers.map Member.pair) ++ ['\n', '}']
          = "\x7b\n  \"a\": \x7b\n    \"x\": 1\n  \x7d,\n  \"b\": 2\n\x7d".toList
      ∧ ∃ values,
          (∀ n, 8 + nestedMembers.length + (nestedMembers.map fun m => m.key.length).sum + 3
              ≤ n →
            ∀ rest, Document.parse n (objectLayout 0 nestedMembers ++ rest)
              = .ok (.Object values (nestedMembers.map Member.key), rest))
          ∧ (∀ k, mapGet values k = mapGet (nestedMembers.map Member.pair) k)
          ∧ (∀ m ∈ nestedMembers, ∃ t, Document.Printer.visit 1 m.value = .ok t)
          ∧ Document.print ⟨some (.Object values (nestedMembers.map Member.key))⟩
              = .ok (['{', '\n'] ++ printedEntries 1 (nestedMembers.map Member.pair)
                  ++ ['\n', '}'])) :=
  ⟨⟨rfl, rfl, rfl, rfl,
      parsed_keys_print_in_order 0 abcMembers 3 (by decide) rfl abcMembers_read⟩,
    ⟨rfl, rfl, rfl, rfl,
      parsed_keys_print_in_order 1 spacedMembers 3 (by decide) rfl spacedMembers_read⟩,
    ⟨rfl, rfl, rfl, rfl,
      parsed_keys_print_in_order 0 nestedMembers 8 (by decide) rfl nestedMembers_read⟩⟩

end json

namespace rational

/-! ## Arithmetic without bound -/

theorem bind_ok {α β : Type} (a : α) (f : α → Outcome β) : (Outcome.ok a).bind f = f a := rfl

theorem arith_unbounded (x : Int) : arith unbounded x = .ok x := rfl

theorem div_unbounded {b : Int} (a : Int) (hb : b ≠ 0) : div unbounded a b = .ok (a.tdiv b) := by
  simp [div, hb, arith_unbounded]

theorem mod_unbounded {b : Int} (a : Int) (hb : b ≠ 0) : mod unbounded a b = .ok (a.tmod b) := by
  simp [mod, hb, unbounded]

/-- The truncating remainder on absolute values. -/
theorem natAbs_tmod (a b : Int) : (a.tmod b).natAbs = a.natAbs % b.natAbs := by
  cases a <;> cases b <;> simp [Int.tmod, Int.natAbs_neg] <;> rfl

theorem gcd_tmod (a b : Int) : Int.gcd b (a.tmod b) = Int.gcd a b := by
  rw [Int.gcd_eq_natAbs, Int.gcd_eq_natAbs, natAbs_tmod, Nat.gcd_comm, ← Nat.gcd_rec,
    Nat.gcd_comm]

/-- The loop of `_gcf` on integers without bound: it ends within `|b| + 1` steps, with the
greatest common divisor of `|a|` and `|b|`. -/
theorem gcfLoop_unbounded : ∀ (fuel : Nat) (a b : Int), b.natAbs < fuel →
    Rational._gcfLoop unbounded fuel a b = .ok (Int.gcd a b : Int)
  | 0, _, _, h => by omega
  | fuel + 1, a, b, h => by
    rw [Rational._gcfLoop]
    by_cases hb : b = 0
    · subst hb
      simp only [ne_eq, not_true_eq_false, if_false, arith_unbounded, Int.gcd_zero_right,
        Int.natCast_natAbs]
    · rw [if_pos hb, mod_unbounded a hb, bind_ok]
      have hlt : (a.tmod b).natAbs < b.natAbs := by
        rw [natAbs_tmod]
        exact Nat.mod_lt _ (Int.natAbs_pos.mpr hb)
      rw [gcfLoop_unbounded fuel b (a.tmod b) (by omega), gcd_tmod]

theorem gcf_unbounded (q : Rational) :
    Rational._gcf unbounded q = .ok (Int.gcd q._numerator q._denominator : Int) :=
  gcfLoop_unbounded _ _ _ (Nat.lt_succ_self _)


/-- A fraction with a positive denominator, divided through by its greatest common divisor,
is in normal form and is the same fraction. -/
theorem reduce_normal (n d : Int) (hd : 0 < d) :
    (⟨n.tdiv (Int.gcd n d), d.tdiv (Int.gcd n d)⟩ : Rational).normal
      ∧ n.tdiv (Int.gcd n d) * d = n * d.tdiv (Int.gcd n d) := by
  have hg : 0 < Int.gcd n d := Int.gcd_pos_of_ne_zero_right n (ne_of_gt hd)
  have hgi : (0 : Int) < (Int.gcd n d : Int) := by exact_mod_cast hg
  have h1 : ((Int.gcd n d : Int)) ∣ n := Int.gcd_dvd_left
  have h2 : ((Int.gcd n d : Int)) ∣ d := Int.gcd_dvd_right
  rw [Int.tdiv_eq_ediv_of_dvd h1, Int.tdiv_eq_ediv_of_dvd h2]
  refine ⟨⟨Int.ediv_pos_of_pos_of_dvd hd (le_of_lt hgi) h2, Int.gcd_div_gcd_div_gcd hg⟩, ?_⟩
  apply Int.eq_of_mul_eq_mul_right (ne_of_gt hgi)
  have e1 : n / (Int.gcd n d : Int) * (Int.gcd n d : Int) = n := Int.ediv_mul_cancel h1
  have e2 : d / (Int.gcd n d : Int) * (Int.gcd n d : Int) = d := Int.ediv_mul_cancel h2
  calc n / (Int.gcd n d : Int) * d * (Int.gcd n d : Int)
      = (n / (Int.gcd n d : Int) * (Int.gcd n d : Int)) * d := by ring
    _ = n * d := by rw [e1]
    _ = n * (d / (Int.gcd n d : Int) * (Int.gcd n d : Int)) := by rw [e2]
    _ = n * (d / (Int.gcd n d : Int)) * (Int.gcd n d : Int) := by ring

/-- What `_simplify` leaves on integers without bound, for a denominator that is not 0 or
a numerator that is 0: the normal form of the same fraction, and 0/1 for the numerator
0. -/
theorem simplify_unbounded (q : Rational) (hq : q._numerator = 0 ∨ q._denominator ≠ 0) :
    ∃ s, Rational._simplify unbounded q = .ok s ∧ s.normal
      ∧ s._numerator * q._denominator = q._numerator * s._denominator
      ∧ (q._numerator = 0 → s = ⟨0, 1⟩) := by
  obtain ⟨n, d⟩ := q
  simp only at hq
  by_cases hn : n = 0
  · subst hn
    refine ⟨⟨0, 1⟩, by simp [Rational._simplify], ⟨by decide, by decide⟩, by simp, fun _ => rfl⟩
  · have hd : d ≠ 0 := by
      rcases hq with h | h
      · exact absurd h hn
      · exact h
    by_cases hneg : d < 0
    · have hpos : 0 < -d := by omega
      obtain ⟨hnorm, hfrac⟩ := reduce_normal (-n) (-d) hpos
      refine ⟨⟨(-n).tdiv (Int.gcd (-n) (-d)), (-d).tdiv (Int.gcd (-n) (-d))⟩, ?_, hnorm, ?_,
        fun h => absurd h hn⟩
      · simp only [Rational._simplify, hn, if_false, hneg, if_true, arith_unbounded, bind_ok,
          gcf_unbounded, mul_neg, mul_one]
        rw [div_unbounded _ (by
          have := Int.gcd_pos_of_ne_zero_right (-n) (ne_of_gt hpos)
          exact_mod_cast (ne_of_gt this)), bind_ok, div_unbounded _ (by
          have := Int.gcd_pos_of_ne_zero_right (-n) (ne_of_gt hpos)
          exact_mod_cast (ne_of_gt this)), bind_ok]
      · simp only
        have := hfrac
        linarith [this]
    · have hpos : 0 < d := by omega
      obtain ⟨hnorm, hfrac⟩ := reduce_normal n d hpos
      refine ⟨⟨n.tdiv (Int.gcd n d), d.tdiv (Int.gcd n d)⟩, ?_, hnorm, hfrac,
        fun h => absurd h hn⟩
      simp only [Rational._simplify, hn, if_false, hneg, bind_ok, gcf_unbounded]
      rw [div_unbounded _ (by
        have := Int.gcd_pos_of_ne_zero_right n (ne_of_gt hpos)
        exact_mod_cast (ne_of_gt this)), bind_ok, div_unbounded _ (by
        have := Int.gcd_pos_of_ne_zero_right n (ne_of_gt hpos)
        exact_mod_cast (ne_of_gt this)), bind_ok]


/-! ## Arithmetic in the range of `long` -/

theorem long_iff (x : Int) :
    long x = true ↔ -9223372036854775808 ≤ x ∧ x ≤ 9223372036854775807 := by
  simp only [long, LONG_MIN, LONG_MAX, Bool.and_eq_true, decide_eq_true_eq]
  norm_num

theorem arith_long {x : Int} (h : long x = true) : arith long x = .ok x := by
  simp [arith, h]

theorem natAbs_tdiv_le (a b : Int) : (a.tdiv b).natAbs ≤ a.natAbs := by
  rw [Int.natAbs_tdiv]
  exact Nat.div_le_self _ _

/-- A quotient by a positive divisor stays in the range of `long`. -/
theorem long_tdiv_pos {a b : Int} (ha : long a = true) (hb : 0 < b) :
    long (a.tdiv b) = true := by
  rw [long_iff] at ha ⊢
  have h1 := natAbs_tdiv_le a b
  by_cases hneg : a < 0
  · have h2 : 0 ≤ (-a).tdiv b := Int.tdiv_nonneg (by omega) (le_of_lt hb)
    rw [Int.neg_tdiv] at h2
    omega
  · have h2 : 0 ≤ a.tdiv b := Int.tdiv_nonneg (by omega) (le_of_lt hb)
    omega

/-- A quotient of a value other than `LONG_MIN` stays in the range of `long`. -/
theorem long_tdiv_of_natAbs {a : Int} (b : Int) (ha : a.natAbs ≤ 9223372036854775807) :
    long (a.tdiv b) = true := by
  rw [long_iff]
  have h1 := natAbs_tdiv_le a b
  omega

/-- With no `LONG_MIN` among `a` and `b`, the loop of `_gcf` meets no overflow. -/
theorem gcfLoop_long_of_natAbs : ∀ (fuel : Nat) (a b : Int),
    a.natAbs ≤ 9223372036854775807 → b.natAbs ≤ 9223372036854775807 →
    Rational._gcfLoop long fuel a b = Rational._gcfLoop unbounded fuel a b
  | 0, _, _, _, _ => rfl
  | fuel + 1, a, b, ha, hb => by
    rw [Rational._gcfLoop, Rational._gcfLoop]
    by_cases h0 : b = 0
    · subst h0
      simp only [ne_eq, not_true_eq_false, if_false, arith_unbounded]
      exact arith_long ((long_iff _).mpr (by
        have := abs_nonneg a
        have h2 : |a| = (a.natAbs : Int) := (Int.natCast_natAbs a).symm
        omega))
    · rw [if_pos h0, if_pos h0, mod_unbounded a h0]
      have hm : mod long a b = .ok (a.tmod b) := by
        simp [mod, h0, long_tdiv_of_natAbs b ha]
      rw [hm, bind_ok, bind_ok]
      have hlt : (a.tmod b).natAbs < b.natAbs := by
        rw [natAbs_tmod]
        exact Nat.mod_lt _ (Int.natAbs_pos.mpr h0)
      exact gcfLoop_long_of_natAbs fuel b (a.tmod b) hb (by omega)

/-- With a positive denominator the loop of `_gcf` meets no overflow, whatever `long` the
numerator is. -/
theorem gcfLoop_long_of_pos (fuel : Nat) (a b : Int) (ha : long a = true) (hb : 0 < b)
    (hb2 : long b = true) :
    Rational._gcfLoop long fuel a b = Rational._gcfLoop unbounded fuel a b := by
  cases fuel with
  | zero => rfl
  | succ fuel =>
    have h0 : b ≠ 0 := ne_of_gt hb
    rw [Rational._gcfLoop, Rational._gcfLoop, if_pos h0, if_pos h0, mod_unbounded a h0]
    have hm : mod long a b = .ok (a.tmod b) := by
      simp [mod, h0, long_tdiv_pos ha hb]
    rw [hm, bind_ok, bind_ok]
    have hlt : (a.tmod b).natAbs < b.natAbs := by
      rw [natAbs_tmod]
      exact Nat.mod_lt _ (Int.natAbs_pos.mpr h0)
    rw [long_iff] at hb2
    exact gcfLoop_long_of_natAbs fuel b (a.tmod b) (by omega) (by omega)

/-- On `long` values `_simplify` meets no overflow, unless the denominator is negative and
it or the numerator is `LONG_MIN`. -/
theorem simplify_long (q : Rational) (hn : long q._numerator = true)
    (hd : long q._denominator = true) (hd0 : q._denominator ≠ 0)
    (h : 0 < q._denominator ∨ (LONG_MIN < q._numerator ∧ LONG_MIN < q._denominator)) :
    Rational._simplify long q = Rational._simplify unbounded q := by
  obtain ⟨n, d⟩ := q
  simp only at hn hd hd0 h
  by_cases hn0 : n = 0
  · simp [Rational._simplify, hn0]
  · have hdivs : ∀ (n2 d2 : Int), long n2 = true → long d2 = true → 0 < d2 →
        ((Rational._gcf long ⟨n2, d2⟩).bind fun factor =>
          (div long n2 factor).bind fun num =>
          (div long d2 factor).bind fun den => Outcome.ok (⟨num, den⟩ : Rational))
        = ((Rational._gcf unbounded ⟨n2, d2⟩).bind fun factor =>
          (div unbounded n2 factor).bind fun num =>
          (div unbounded d2 factor).bind fun den => Outcome.ok (⟨num, den⟩ : Rational)) := by
      intro n2 d2 h1 h2 hpos
      have hg : Rational._gcf long ⟨n2, d2⟩ = Rational._gcf unbounded ⟨n2, d2⟩ :=
        gcfLoop_long_of_pos _ n2 d2 h1 hpos h2
      rw [hg, gcf_unbounded]
      simp only [bind_ok]
      have hgp : (0 : Int) < (Int.gcd n2 d2 : Int) := by
        exact_mod_cast Int.gcd_pos_of_ne_zero_right n2 (ne_of_gt hpos)
      have e1 : div long n2 (Int.gcd n2 d2 : Int) = .ok (n2.tdiv (Int.gcd n2 d2 : Int)) := by
        simp [div, ne_of_gt hgp, arith_long (long_tdiv_pos h1 hgp)]
      have e2 : div long d2 (Int.gcd n2 d2 : Int) = .ok (d2.tdiv (Int.gcd n2 d2 : Int)) := by
        simp [div, ne_of_gt hgp, arith_long (long_tdiv_pos h2 hgp)]
      rw [e1, e2, div_unbounded _ (ne_of_gt hgp), div_unbounded _ (ne_of_gt hgp)]
    by_cases hneg : d < 0
    · have hmin : LONG_MIN < n ∧ LONG_MIN < d := by
        rcases h with h | h
        · omega
        · exact h
      simp only [LONG_MIN] at hmin
      norm_num at hmin
      rw [long_iff] at hn hd
      have hd2 : long (d * -1) = true := (long_iff _).mpr (by omega)
      have hn2 : long (n * -1) = true := (long_iff _).mpr (by omega)
      simp only [Rational._simplify, hn0, if_false, hneg, if_true, arith_long hd2,
        arith_long hn2, arith_unbounded, bind_ok]
      exact hdivs _ _ hn2 hd2 (by omega)
    · simp only [Rational._simplify, hn0, if_false, hneg, bind_ok]
      exact hdivs n d hn hd (by omega)

/-- On `long` values the constructor meets no overflow, unless the denominator is negative
and it or the numerator is `LONG_MIN`. -/
theorem ofLongs_long (num den : Int) (hn : long num = true) (hd : long den = true)
    (h : 0 ≤ den ∨ (LONG_MIN < num ∧ LONG_MIN < den)) :
    Rational.ofLongs long num den = Rational.ofLongs unbounded num den := by
  unfold Rational.ofLongs
  by_cases hd0 : den = 0
  · simp [hd0]
  · rw [if_neg hd0, if_neg hd0]
    have h2 : 0 < den ∨ (LONG_MIN < num ∧ LONG_MIN < den) := by
      rcases h with h | h
      · exact Or.inl (by omega)
      · exact Or.inr h
    exact simplify_long ⟨num, den⟩ hn hd hd0 h2


/-! ## The claims on Rational -/

/-- The constructor on integers without bound. -/
theorem ofLongs_unbounded (num den : Int) (hd : den ≠ 0) :
    ∃ q, Rational.ofLongs unbounded num den = .ok q ∧ q.normal
      ∧ q._numerator * den = num * q._denominator ∧ (num = 0 → q = ⟨0, 1⟩) := by
  unfold Rational.ofLongs
  rw [if_neg hd]
  exact simplify_unbounded ⟨num, den⟩ (Or.inr hd)

/-- C21 as stated fails.  The `long` values 1 and `LONG_MIN` are integers with a
denominator that is not 0, and the constructor, on `_denominator *= -1`, overflows: its
behaviour is undefined, and no normal form is returned.  The same holds for `LONG_MIN`
over -1, on `_numerator *= -1`. -/
theorem constructor_overflow_counterexample :
    long 1 = true ∧ long LONG_MIN = true ∧ LONG_MIN ≠ 0
      ∧ Rational.ofLongs long 1 LONG_MIN = .undefined
      ∧ Rational.ofLongs long LONG_MIN (-1) = .undefined := by
  refine ⟨rfl, rfl, by decide, rfl, rfl⟩

/-- Claim C21, amended.  For all integers `num` and `den` with `den` not 0 the constructor,
run on integers without bound, returns a Rational with a positive denominator, numerator
and denominator without common factor, the same fraction as `num/den`, and 0/1 for `num`
0.  Run on `long` values it returns the same, unless `den` is negative and `num` or `den`
is `LONG_MIN`. -/
theorem constructor_normal_form (num den : Int) (hd : den ≠ 0) :
    (∃ q, Rational.ofLongs unbounded num den = .ok q
        ∧ 0 < q._denominator ∧ Nat.gcd q._numerator.natAbs q._denominator.natAbs = 1
        ∧ q._numerator * den = num * q._denominator ∧ (num = 0 → q = ⟨0, 1⟩))
      ∧ (long num = true → long den = true →
          0 < den ∨ (LONG_MIN < num ∧ LONG_MIN < den) →
          Rational.ofLongs long num den = Rational.ofLongs unbounded num den) := by
  obtain ⟨q, h1, h2, h3, h4⟩ := ofLongs_unbounded num den hd
  refine ⟨⟨q, h1, h2.1, ?_, h3, h4⟩, ?_⟩
  · have := h2.2
    rwa [Int.gcd_eq_natAbs] at this
  · intro hn hl h
    exact ofLongs_long num den hn hl (by
      rcases h with h | h
      · exact Or.inl (le_of_lt h)
      · exact Or.inr h)

theorem constructor_normal_form_witness :
    (-4 : Int) ≠ 0
      ∧ Rational.ofLongs long 6 (-4) = .ok ⟨-3, 2⟩
      ∧ ∃ q, Rational.ofLongs unbounded 6 (-4) = .ok q
        ∧ 0 < q._denominator ∧ Nat.gcd q._numerator.natAbs q._denominator.natAbs = 1
        ∧ q._numerator * (-4) = 6 * q._denominator ∧ ((6 : Int) = 0 → q = ⟨0, 1⟩) :=
  ⟨by decide, rfl, (constructor_normal_form 6 (-4) (by decide)).1⟩

/-- Claim C30.  For every numerator and denominator that are not 0 the loop of `_gcf`, on
integers without bound, ends within `|denominator| + 1` steps, and `_gcf` returns the
greatest common divisor of `|numerator|` and `|denominator|`, which is positive.  On
`long` values it returns the same whenever the denominator is positive, as `_simplify`
leaves it before the call, and whenever neither value is `LONG_MIN`. -/
theorem gcf_is_gcd (num den : Int) (hn : num ≠ 0) (hd : den ≠ 0) :
    (∀ fuel, den.natAbs < fuel →
        Rational._gcfLoop unbounded fuel num den = .ok (Nat.gcd num.natAbs den.natAbs : Int))
      ∧ Rational._gcf unbounded ⟨num, den⟩ = .ok (Nat.gcd num.natAbs den.natAbs : Int)
      ∧ 0 < Nat.gcd num.natAbs den.natAbs
      ∧ (long num = true → long den = true →
          0 < den ∨ (LONG_MIN < num ∧ LONG_MIN < den) →
          Rational._gcf long ⟨num, den⟩ = .ok (Nat.gcd num.natAbs den.natAbs : Int)) := by
  have _ := hd
  have hg : Int.gcd num den = Nat.gcd num.natAbs den.natAbs := Int.gcd_eq_natAbs
  refine ⟨?_, ?_, ?_, ?_⟩
  · intro fuel hf
    rw [gcfLoop_unbounded fuel num den hf, hg]
  · rw [gcf_unbounded, hg]
  · exact Nat.gcd_pos_of_pos_left _ (Int.natAbs_pos.mpr hn)
  · intro h1 h2 h
    have hu := gcf_unbounded ⟨num, den⟩
    rw [hg] at hu
    rw [← hu]
    rcases h with h | h
    · exact gcfLoop_long_of_pos _ num den h1 h h2
    · rw [long_iff] at h1 h2
      simp only [LONG_MIN] at h
      norm_num at h
      exact gcfLoop_long_of_natAbs _ num den (by omega) (by omega)

theorem gcf_is_gcd_witness :
    (-12 : Int) ≠ 0 ∧ (18 : Int) ≠ 0
      ∧ Rational._gcf unbounded ⟨-12, 18⟩ = .ok 6
      ∧ Rational._gcf long ⟨-12, 18⟩ = .ok 6 :=
  ⟨by decide, by decide, (gcf_is_gcd (-12) 18 (by decide) (by decide)).2.1,
    (gcf_is_gcd (-12) 18 (by decide) (by decide)).2.2.2 rfl rfl (Or.inl (by decide))⟩


theorem normal_den_pos {q : Rational} (h : q.normal) : 0 < q._denominator := h.1

/-- The four binary operators hand the constructor the numerator and the denominator that
they compute. -/
theorem add_unbounded (a b : Rational) :
    Rational.add unbounded a b
      = Rational.ofLongs unbounded
          (a._numerator * b._denominator + b._numerator * a._denominator)
          (a._denominator * b._denominator) := rfl

theorem sub_unbounded (a b : Rational) :
    Rational.sub unbounded a b
      = Rational.ofLongs unbounded
          (a._numerator * b._denominator - b._numerator * a._denominator)
          (a._denominator * b._denominator) := rfl

theorem mul_unbounded (a b : Rational) :
    Rational.mul unbounded a b
      = Rational.ofLongs unbounded (a._numerator * b._numerator)
          (a._denominator * b._denominator) := rfl

theorem div_op_unbounded (a b : Rational) :
    Rational.div unbounded a b
      = Rational.ofLongs unbounded (a._numerator * b._denominator)
          (a._denominator * b._numerator) := rfl

/-- Claim C23.  On integers without bound and Rationals in normal form, `a + b`, `a - b`,
`a * b` and, for `b` not zero, `a / b` return a Rational in normal form that is exactly
the sum, the difference, the product and the quotient of the two fractions. -/
theorem arithmetic_exact (a b : Rational) (ha : a.normal) (hb : b.normal) :
    (∃ s, Rational.add unbounded a b = .ok s ∧ s.normal
        ∧ s._numerator * (a._denominator * b._denominator)
          = (a._numerator * b._denominator + b._numerator * a._denominator) * s._denominator)
      ∧ (∃ s, Rational.sub unbounded a b = .ok s ∧ s.normal
        ∧ s._numerator * (a._denominator * b._denominator)
          = (a._numerator * b._denominator - b._numerator * a._denominator) * s._denominator)
      ∧ (∃ s, Rational.mul unbounded a b = .ok s ∧ s.normal
        ∧ s._numerator * (a._denominator * b._denominator)
          = (a._numerator * b._numerator) * s._denominator)
      ∧ (b._numerator ≠ 0 → ∃ s, Rational.div unbounded a b = .ok s ∧ s.normal
        ∧ s._numerator * (a._denominator * b._numerator)
          = (a._numerator * b._denominator) * s._denominator) := by
  have hden : a._denominator * b._denominator ≠ 0 :=
    ne_of_gt (mul_pos ha.1 hb.1)
  refine ⟨?_, ?_, ?_, ?_⟩
  · obtain ⟨s, h1, h2, h3, _⟩ := ofLongs_unbounded
      (a._numerator * b._denominator + b._numerator * a._denominator) _ hden
    exact ⟨s, by rw [add_unbounded, h1], h2, h3⟩
  · obtain ⟨s, h1, h2, h3, _⟩ := ofLongs_unbounded
      (a._numerator * b._denominator - b._numerator * a._denominator) _ hden
    exact ⟨s, by rw [sub_unbounded, h1], h2, h3⟩
  · obtain ⟨s, h1, h2, h3, _⟩ := ofLongs_unbounded (a._numerator * b._numerator) _ hden
    exact ⟨s, by rw [mul_unbounded, h1], h2, h3⟩
  · intro hbn
    have hden2 : a._denominator * b._numerator ≠ 0 := mul_ne_zero (ne_of_gt ha.1) hbn
    obtain ⟨s, h1, h2, h3, _⟩ := ofLongs_unbounded (a._numerator * b._denominator) _ hden2
    exact ⟨s, by rw [div_op_unbounded, h1], h2, h3⟩

theorem arithmetic_exact_witness :
    (⟨1, 2⟩ : Rational).normal ∧ (⟨-1, 3⟩ : Rational).normal
      ∧ Rational.add unbounded ⟨1, 2⟩ ⟨-1, 3⟩ = .ok ⟨1, 6⟩
      ∧ Rational.div unbounded ⟨1, 2⟩ ⟨-1, 3⟩ = .ok ⟨-3, 2⟩
      ∧ ∃ s, Rational.mul unbounded ⟨1, 2⟩ ⟨-1, 3⟩ = .ok s ∧ s.normal
        ∧ s._numerator * (2 * 3) = (1 * -1) * s._denominator :=
  ⟨by decide, by decide, rfl, rfl,
    (arithmetic_exact ⟨1, 2⟩ ⟨-1, 3⟩ (by decide) (by decide)).2.2.1⟩

/-- Claim C28.  On Rationals that satisfy the class invariant, `a == b` is true exactly
when the two fractions are equal, `a.numerator * b.denominator` being
`b.numerator * a.denominator`, and `a != b` is its negation. -/
theorem eq_is_value_equality (a b : Rational) (ha : a.normal) (hb : b.normal) :
    (Rational.eq a b = true ↔
        a._numerator * b._denominator = b._numerator * a._denominator)
      ∧ Rational.ne a b = !Rational.eq a b := by
  refine ⟨?_, rfl⟩
  obtain ⟨an, ad⟩ := a
  obtain ⟨bn, bd⟩ := b
  obtain ⟨ha1, ha2⟩ := ha
  obtain ⟨hb1, hb2⟩ := hb
  simp only at ha1 ha2 hb1 hb2
  simp only [Rational.eq, Bool.and_eq_true, decide_eq_true_eq]
  constructor
  · rintro ⟨rfl, rfl⟩
    rfl
  · intro h
    have ca : IsCoprime ad an := (Int.isCoprime_iff_gcd_eq_one.mpr ha2).symm
    have cb : IsCoprime bd bn := (Int.isCoprime_iff_gcd_eq_one.mpr hb2).symm
    have d1 : ad ∣ bd := by
      apply ca.dvd_of_dvd_mul_left
      exact ⟨bn, by rw [h]; ring⟩
    have d2 : bd ∣ ad := by
      apply cb.dvd_of_dvd_mul_left
      exact ⟨an, by rw [← h]; ring⟩
    have hd : ad = bd := Int.dvd_antisymm (le_of_lt ha1) (le_of_lt hb1) d1 d2
    subst hd
    refine ⟨?_, rfl⟩
    exact Int.eq_of_mul_eq_mul_right (ne_of_gt ha1) h

theorem eq_is_value_equality_witness :
    (⟨1, 2⟩ : Rational).normal ∧ (⟨2, 3⟩ : Rational).normal
      ∧ (Rational.eq ⟨1, 2⟩ ⟨2, 3⟩ = true ↔ (1 : Int) * 3 = 2 * 2)
      ∧ Rational.ne ⟨1, 2⟩ ⟨2, 3⟩ = true :=
  ⟨by decide, by decide, (eq_is_value_equality ⟨1, 2⟩ ⟨2, 3⟩ (by decide) (by decide)).1, rfl⟩


/-! ## Compound assignment -/

theorem ofLongs_of_ne (r : Range) (num : Int) {den : Int} (h : den ≠ 0) :
    Rational.ofLongs r num den = Rational._simplify r ⟨num, den⟩ := by
  simp [Rational.ofLongs, h]

theorem bind_arith_ofLongs (r : Range) (num : Int) {d : Int} (h : d ≠ 0) :
    ((arith r d).bind fun den => Rational.ofLongs r num den)
      = (arith r d).bind fun den => Rational._simplify r ⟨num, den⟩ := by
  unfold arith
  split
  · simp only [Outcome.bind, ofLongs_of_ne r num h]
  · rfl

/-- With another object as argument, each compound assignment leaves what the binary
operator returns, in every range of integers, when the denominator the operator computes
is not 0. -/
theorem assign_eq_binary (r : Range) (a b : Rational) :
    (a._denominator * b._denominator ≠ 0 →
      Rational.addAssign r a (.other b) = Rational.add r a b
        ∧ Rational.subAssign r a (.other b) = Rational.sub r a b
        ∧ Rational.mulAssign r a (.other b) = Rational.mul r a b)
      ∧ (a._denominator * b._numerator ≠ 0 →
        Rational.divAssign r a (.other b) = Rational.div r a b) := by
  refine ⟨fun h => ⟨?_, ?_, ?_⟩, fun h => ?_⟩
  · simp only [Rational.addAssign, Rational.add, Ref.get, bind_arith_ofLongs r _ h,
      mul_comm b._numerator a._denominator]
  · simp only [Rational.subAssign, Rational.sub, Ref.get, bind_arith_ofLongs r _ h,
      mul_comm b._numerator a._denominator]
  · simp only [Rational.mulAssign, Rational.mul, Ref.get, bind_arith_ofLongs r _ h]
  · simp only [Rational.divAssign, Rational.div, Ref.get, bind_arith_ofLongs r _ h]

/-- With the object itself as argument, `+=`, `-=` and `*=` leave what the binary operator
returns on the object twice. -/
theorem assign_self_eq_binary (r : Range) (a : Rational)
    (h : a._denominator * a._denominator ≠ 0) :
    Rational.addAssign r a .self = Rational.add r a a
      ∧ Rational.subAssign r a .self = Rational.sub r a a
      ∧ Rational.mulAssign r a .self = Rational.mul r a a := by
  refine ⟨?_, ?_, ?_⟩
  · simp only [Rational.addAssign, Rational.add, Ref.get, bind_arith_ofLongs r _ h,
      mul_comm a._numerator a._denominator]
  · simp only [Rational.subAssign, Rational.sub, Ref.get, bind_arith_ofLongs r _ h,
      mul_comm a._numerator a._denominator]
  · simp only [Rational.mulAssign, Rational.mul, Ref.get, bind_arith_ofLongs r _ h]

/-- Claim C29, where the code departs from it.  With `b` another object than `a`, `a += b`,
`a -= b`, `a *= b` and, for `b` not zero, `a /= b` leave in `a` the numerator and the
denominator of `a + b`, `a - b`, `a * b` and `a / b`, on integers without bound (and in
the range of `long`); so do `a += a`, `a -= a` and `a *= a`.  But `a /= a` reads
`val.numerator()` after `_numerator` is assigned: on 1/2 it leaves 1/2, where `a / a`
is 1/1. -/
theorem compound_agrees_with_binary :
    (∀ a b : Rational, a.normal → b.normal →
        Rational.addAssign unbounded a (.other b) = Rational.add unbounded a b
          ∧ Rational.subAssign unbounded a (.other b) = Rational.sub unbounded a b
          ∧ Rational.mulAssign unbounded a (.other b) = Rational.mul unbounded a b
          ∧ (b._numerator ≠ 0 →
              Rational.divAssign unbounded a (.other b) = Rational.div unbounded a b))
      ∧ (∀ a : Rational, a.normal →
        Rational.addAssign unbounded a .self = Rational.add unbounded a a
          ∧ Rational.subAssign unbounded a .self = Rational.sub unbounded a a
          ∧ Rational.mulAssign unbounded a .self = Rational.mul unbounded a a)
      ∧ (⟨1, 2⟩ : Rational).normal
      ∧ Rational.div unbounded ⟨1, 2⟩ ⟨1, 2⟩ = .ok ⟨1, 1⟩
      ∧ Rational.divAssign unbounded ⟨1, 2⟩ .self = .ok ⟨1, 2⟩
      ∧ Rational.div long ⟨1, 2⟩ ⟨1, 2⟩ = .ok ⟨1, 1⟩
      ∧ Rational.divAssign long ⟨1, 2⟩ .self = .ok ⟨1, 2⟩ := by
  refine ⟨?_, ?_, by decide, rfl, rfl, rfl, rfl⟩
  · intro a b ha hb
    have hden : a._denominator * b._denominator ≠ 0 := ne_of_gt (mul_pos ha.1 hb.1)
    obtain ⟨h1, h2, h3⟩ := (assign_eq_binary unbounded a b).1 hden
    exact ⟨h1, h2, h3, fun hbn =>
      (assign_eq_binary unbounded a b).2 (mul_ne_zero (ne_of_gt ha.1) hbn)⟩
  · intro a ha
    exact assign_self_eq_binary unbounded a (ne_of_gt (mul_pos ha.1 ha.1))


/-! ## The invariant under the member operators -/

/-- C22 as stated fails.  Of 1/2 and 0/1, both in normal form, `a /= b` leaves 1/0: the
numerator is not 0, `_gcf` returns 1 on the denominator 0, and the denominator stays 0.
And on `long` values the products of `a *= b` overflow: of 4611686018427387904/1 and 4/1
the behaviour is undefined. -/
theorem operator_invariant_counterexample :
    ((⟨1, 2⟩ : Rational).normal ∧ (⟨0, 1⟩ : Rational).normal
        ∧ Rational.divAssign unbounded ⟨1, 2⟩ (.other ⟨0, 1⟩) = .ok ⟨1, 0⟩
        ∧ Rational.divAssign long ⟨1, 2⟩ (.other ⟨0, 1⟩) = .ok ⟨1, 0⟩
        ∧ ¬ (⟨1, 0⟩ : Rational).normal)
      ∧ ((⟨4611686018427387904, 1⟩ : Rational).normal ∧ (⟨4, 1⟩ : Rational).normal
        ∧ long 4611686018427387904 = true
        ∧ Rational.mulAssign long ⟨4611686018427387904, 1⟩ (.other ⟨4, 1⟩) = .undefined) := by
  refine ⟨⟨by decide, by decide, rfl, rfl, by decide⟩, ⟨by decide, by decide, rfl, rfl⟩⟩

theorem simplify_normal (n d : Int) (h : n = 0 ∨ d ≠ 0) :
    ∃ s, Rational._simplify unbounded ⟨n, d⟩ = .ok s ∧ s.normal := by
  obtain ⟨s, h1, h2, _⟩ := simplify_unbounded ⟨n, d⟩ h
  exact ⟨s, h1, h2⟩

/-- Claim C22, amended.  On integers without bound, for `a` and `b` in normal form (`b`
another object, or `a` itself), after each of `a = b`, `a += b`, `a -= b`, `a *= b`, and
after `a /= b` for `b` not zero, `a` has a positive denominator and is in simplest form. -/
theorem operators_keep_normal_form (a : Rational) (val : Ref) (ha : a.normal)
    (hb : (val.get a).normal) :
    (∃ s, Rational.assign unbounded a val = .ok s ∧ s.normal)
      ∧ (∃ s, Rational.addAssign unbounded a val = .ok s ∧ s.normal)
      ∧ (∃ s, Rational.subAssign unbounded a val = .ok s ∧ s.normal)
      ∧ (∃ s, Rational.mulAssign unbounded a val = .ok s ∧ s.normal)
      ∧ ((val.get a)._numerator ≠ 0 →
          ∃ s, Rational.divAssign unbounded a val = .ok s ∧ s.normal) := by
  have had : a._denominator ≠ 0 := ne_of_gt ha.1
  cases val with
  | self =>
    simp only [Ref.get] at hb ⊢
    refine ⟨?_, ?_, ?_, ?_, ?_⟩
    · exact simplify_normal _ _ (Or.inr had)
    · simp only [Rational.addAssign, Ref.get, arith_unbounded, bind_ok]
      exact simplify_normal _ _ (Or.inr (mul_ne_zero had had))
    · simp only [Rational.subAssign, Ref.get, arith_unbounded, bind_ok]
      exact simplify_normal _ _ (Or.inr (mul_ne_zero had had))
    · simp only [Rational.mulAssign, Ref.get, arith_unbounded, bind_ok]
      exact simplify_normal _ _ (Or.inr (mul_ne_zero had had))
    · intro hn
      simp only [Rational.divAssign, Ref.get, arith_unbounded, bind_ok]
      exact simplify_normal _ _ (Or.inr (mul_ne_zero had (mul_ne_zero hn had)))
  | other b =>
    simp only [Ref.get] at hb ⊢
    have hbd : b._denominator ≠ 0 := ne_of_gt hb.1
    refine ⟨?_, ?_, ?_, ?_, ?_⟩
    · exact simplify_normal _ _ (Or.inr hbd)
    · simp only [Rational.addAssign, Ref.get, arith_unbounded, bind_ok]
      exact simplify_normal _ _ (Or.inr (mul_ne_zero had hbd))
    · simp only [Rational.subAssign, Ref.get, arith_unbounded, bind_ok]
      exact simplify_normal _ _ (Or.inr (mul_ne_zero had hbd))
    · simp only [Rational.mulAssign, Ref.get, arith_unbounded, bind_ok]
      exact simplify_normal _ _ (Or.inr (mul_ne_zero had hbd))
    · intro hn
      simp only [Rational.divAssign, Ref.get, arith_unbounded, bind_ok]
      exact simplify_normal _ _ (Or.inr (mul_ne_zero had hn))

theorem operators_keep_normal_form_witness :
    (⟨1, 2⟩ : Rational).normal ∧ (⟨-1, 3⟩ : Rational).normal
      ∧ Rational.addAssign unbounded ⟨1, 2⟩ (.other ⟨-1, 3⟩) = .ok ⟨1, 6⟩
      ∧ Rational.divAssign unbounded ⟨1, 2⟩ (.other ⟨-1, 3⟩) = .ok ⟨-3, 2⟩
      ∧ ∃ s, Rational.mulAssign unbounded ⟨1, 2⟩ (.other ⟨-1, 3⟩) = .ok s ∧ s.normal :=
  ⟨by decide, by decide, rfl, rfl,
    (operators_keep_normal_form ⟨1, 2⟩ (.other ⟨-1, 3⟩) (by decide) (by decide)).2.2.2.1⟩

end rational
